import Mathlib

/-!
Verification development for the LokiTs in-memory document database.

The definitions in this file are shallow embeddings of the corresponding
JavaScript/TypeScript functions of the repository; each definition carries a
comment naming the source function it embeds.  JavaScript numbers are
modelled as integers (`Int`), which covers every value the verified claims
quantify over; strings are modelled as Lean strings, with the JavaScript
code-unit order modelled by the lexicographic order on `String`.
-/

set_option maxHeartbeats 1000000

namespace LokiTs

/-- The JavaScript values relevant to the value comparator of
`src/src/utils/index.ts`: `undefined`, `null`, `NaN`, booleans, (integer)
numbers and strings. -/
inductive JSVal where
  | undef
  | null
  | nan
  | bool (b : Bool)
  | num (n : Int)
  | str (s : String)
deriving DecidableEq, Repr

/-- JavaScript truthiness: `undefined`, `null`, `NaN`, `false`, `0` and `""`
are falsy. -/
def isFalsy : JSVal → Bool
  | .undef => true
  | .null => true
  | .nan => true
  | .bool b => !b
  | .num n => n == 0
  | .str s => s == ""

/-- The tier assigned by the `switch` blocks of `aeqHelper` / `ltHelper` /
`gtHelper` (`src/src/utils/index.ts`): `undefined`/`null` map to 1, `false`
to 3, `true` to 4, `""` to 5, and the default case maps self-equal values
to 9 and `NaN` to 0. -/
def tier : JSVal → Nat
  | .undef => 1
  | .null => 1
  | .nan => 0
  | .bool b => if b then 4 else 3
  | .num _ => 9
  | .str s => if s == "" then 5 else 9

/-- The guard `!prop1 || !prop2 || prop1 === true || prop2 === true ||
prop1 !== prop1 || prop2 !== prop2` of the comparator helpers.  The two
self-inequality disjuncts select exactly `NaN`, which is already falsy. -/
def edgePair (a b : JSVal) : Bool :=
  isFalsy a || isFalsy b || a == .bool true || b == .bool true ||
    a == .nan || b == .nan

/-- JavaScript `Number(...)` on a string, restricted to the integer literals
of the model; `""` coerces to 0 and non-numeric strings to `NaN` (`none`). -/
def strToNum (s : String) : Option Int :=
  if s == "" then some 0 else s.toInt?

/-- JavaScript `Number(...)` coercion; `none` stands for `NaN`. -/
def toNum : JSVal → Option Int
  | .undef => none
  | .null => some 0
  | .nan => none
  | .bool b => some (if b then 1 else 0)
  | .num n => some n
  | .str s => strToNum s

/-- JavaScript `toString()` coercion. -/
def toStr : JSVal → String
  | .undef => "undefined"
  | .null => "null"
  | .nan => "NaN"
  | .bool b => if b then "true" else "false"
  | .num n => toString n
  | .str s => s

/-- JavaScript strict equality `===` on the modelled values: plain equality
except that `NaN === NaN` is false. -/
def strictEq (a b : JSVal) : Bool :=
  a == b && a != .nan

/-- Embedding of `ltHelper(prop1, prop2, equal)` of
`src/src/utils/index.ts`.  In the final branch (neither side coerces to a
number) the source first compares the raw values and then their string
coercions; every value that reaches that branch is a non-numeric string, on
which both comparisons agree with the comparison of the `toStr` images used
here. -/
def ltHelper (prop1 prop2 : JSVal) (equal : Bool) : Bool :=
  if edgePair prop1 prop2 && (tier prop1 != 9 || tier prop2 != 9) then
    if tier prop1 == tier prop2 then equal else decide (tier prop1 < tier prop2)
  else
    match toNum prop1, toNum prop2 with
    | some cv1, some cv2 =>
        if cv1 < cv2 then true else if cv1 > cv2 then false else equal
    | some _, none => true
    | none, some _ => false
    | none, none =>
        if toStr prop1 < toStr prop2 then true
        else if toStr prop2 < toStr prop1 then false
        else equal

/-- Embedding of `gtHelper(prop1, prop2, equal)` of
`src/src/utils/index.ts`. -/
def gtHelper (prop1 prop2 : JSVal) (equal : Bool) : Bool :=
  if edgePair prop1 prop2 && (tier prop1 != 9 || tier prop2 != 9) then
    if tier prop1 == tier prop2 then equal else decide (tier prop1 > tier prop2)
  else
    match toNum prop1, toNum prop2 with
    | some cv1, some cv2 =>
        if cv1 > cv2 then true else if cv1 < cv2 then false else equal
    | some _, none => false
    | none, some _ => true
    | none, none =>
        if toStr prop1 > toStr prop2 then true
        else if toStr prop2 > toStr prop1 then false
        else equal

/-- Embedding of `aeqHelper(prop1, prop2)` of `src/src/utils/index.ts`.
The numeric branch of the source returns `cv1 === cv2` whenever at least one
side coerces to a number, which is false when exactly one side is `NaN`. -/
def aeqHelper (prop1 prop2 : JSVal) : Bool :=
  if strictEq prop1 prop2 then true
  else if edgePair prop1 prop2 && (tier prop1 != 9 || tier prop2 != 9) then
    tier prop1 == tier prop2
  else
    match toNum prop1, toNum prop2 with
    | some cv1, some cv2 => cv1 == cv2
    | some _, none => false
    | none, some _ => false
    | none, none => toStr prop1 == toStr prop2

/-- Three-way comparison on a linear order, used to analyse the helpers. -/
def cmpo {α : Type} [LinearOrder α] (a b : α) : Ordering :=
  if a < b then .lt else if b < a then .gt else .eq

/-- The three-way comparison induced by the comparator helpers. -/
def cmp3 (a b : JSVal) : Ordering :=
  if edgePair a b && (tier a != 9 || tier b != 9) then
    cmpo (tier a) (tier b)
  else
    match toNum a, toNum b with
    | some m, some n => cmpo m n
    | some _, none => .lt
    | none, some _ => .gt
    | none, none => cmpo (toStr a) (toStr b)

/-- Sort keys: the comparator helpers order values by the lexicographic
order on these keys. -/
abbrev Key := Nat ×ₗ Nat ×ₗ Int ×ₗ String

/-- The sort key of a value: its tier, and within tier 9 first the numeric
coercion (numbers before non-numeric values) and then the string coercion. -/
def keyOf (v : JSVal) : Key :=
  if tier v = 9 then
    match toNum v with
    | some n => toLex (9, toLex (0, toLex (n, "")))
    | none => toLex (9, toLex (1, toLex (0, toStr v)))
  else toLex (tier v, toLex (0, toLex (0, "")))

theorem cmpo_eq_lt {α : Type} [LinearOrder α] {a b : α} :
    cmpo a b = .lt ↔ a < b := by
  rcases lt_trichotomy a b with h | rfl | h
  · simp [cmpo, h]
  · simp [cmpo, lt_irrefl]
  · simp [cmpo, h, h.not_lt]

theorem cmpo_eq_gt {α : Type} [LinearOrder α] {a b : α} :
    cmpo a b = .gt ↔ b < a := by
  rcases lt_trichotomy a b with h | rfl | h
  · simp [cmpo, h, h.not_lt]
  · simp [cmpo, lt_irrefl]
  · simp [cmpo, h, h.not_lt]

theorem cmpo_eq_eq {α : Type} [LinearOrder α] {a b : α} :
    cmpo a b = .eq ↔ a = b := by
  rcases lt_trichotomy a b with h | rfl | h
  · simp [cmpo, h, h.ne]
  · simp [cmpo, lt_irrefl]
  · simp [cmpo, h, h.not_lt, h.ne.symm]

/-- Two three-way comparisons agree when their strict orders agree both
ways. -/
theorem cmpo_congr {α β : Type} [LinearOrder α] [LinearOrder β]
    {a b : α} {x y : β} (h1 : a < b ↔ x < y) (h2 : b < a ↔ y < x) :
    cmpo a b = cmpo x y := by
  unfold cmpo
  rcases lt_trichotomy a b with h | rfl | h
  · simp [h, h1.1 h]
  · simp [lt_irrefl, h1.symm, h2.symm, lt_irrefl a]
  · simp [h, h.not_lt, h2.1 h, (h2.1 h).not_lt]

theorem tier_le_nine (v : JSVal) : tier v ≤ 9 := by
  cases v with
  | bool b => cases b <;> simp [tier]
  | str s => by_cases h : s = "" <;> simp [tier, h]
  | _ => simp [tier]

theorem edgePair_of_tier_left {a : JSVal} (b : JSVal) (h : tier a ≠ 9) :
    edgePair a b = true := by
  cases a with
  | undef => simp [edgePair, isFalsy]
  | null => simp [edgePair, isFalsy]
  | nan => simp [edgePair, isFalsy]
  | bool x => cases x <;> simp [edgePair, isFalsy]
  | num n => simp [tier] at h
  | str s =>
      by_cases hs : s = ""
      · subst hs; simp [edgePair, isFalsy]
      · simp [tier, hs] at h

theorem edgePair_of_tier_right (a : JSVal) {b : JSVal} (h : tier b ≠ 9) :
    edgePair a b = true := by
  cases b with
  | undef => simp [edgePair, isFalsy]
  | null => simp [edgePair, isFalsy]
  | nan => simp [edgePair, isFalsy]
  | bool x => cases x <;> simp [edgePair, isFalsy]
  | num n => simp [tier] at h
  | str s =>
      by_cases hs : s = ""
      · subst hs; simp [edgePair, isFalsy]
      · simp [tier, hs] at h

/-- The region tested by the comparator helpers is exactly "some side has a
tier other than 9". -/
theorem edgeRegion_iff (a b : JSVal) :
    (edgePair a b && (tier a != 9 || tier b != 9)) = true ↔
      (tier a ≠ 9 ∨ tier b ≠ 9) := by
  constructor
  · intro h
    simp only [Bool.and_eq_true, Bool.or_eq_true, bne_iff_ne, ne_eq] at h
    tauto
  · intro h
    rcases h with h | h
    · simp [edgePair_of_tier_left b h, h]
    · simp [edgePair_of_tier_right a h, h]

theorem keyOf_of_tier_ne {v : JSVal} (h : tier v ≠ 9) :
    keyOf v = toLex (tier v, toLex (0, toLex (0, ""))) := by
  simp [keyOf, h]

theorem keyOf_of_num {v : JSVal} {n : Int} (h : tier v = 9)
    (hn : toNum v = some n) :
    keyOf v = toLex (9, toLex (0, toLex (n, ""))) := by
  simp [keyOf, h, hn]

theorem keyOf_of_nonnum {v : JSVal} (h : tier v = 9)
    (hn : toNum v = none) :
    keyOf v = toLex (9, toLex (1, toLex (0, toStr v))) := by
  simp [keyOf, h, hn]

theorem keyOf_fst (v : JSVal) : (ofLex (keyOf v)).1 = tier v := by
  by_cases h : tier v = 9
  · cases hn : toNum v with
    | some n => rw [keyOf_of_num h hn]; simp [h]
    | none => rw [keyOf_of_nonnum h hn]; simp [h]
  · rw [keyOf_of_tier_ne h]
    rfl

theorem lex4_lt_iff (a₁ b₁ : Nat) (a₂ b₂ : Nat) (a₃ b₃ : Int)
    (a₄ b₄ : String) :
    toLex (a₁, toLex (a₂, toLex (a₃, a₄))) <
        (toLex (b₁, toLex (b₂, toLex (b₃, b₄))) : Key) ↔
      a₁ < b₁ ∨ (a₁ = b₁ ∧ (a₂ < b₂ ∨ (a₂ = b₂ ∧
        (a₃ < b₃ ∨ (a₃ = b₃ ∧ a₄ < b₄))))) := by
  rw [Prod.Lex.lt_iff]
  constructor
  · rintro (h | ⟨h1, h2⟩)
    · exact Or.inl h
    · refine Or.inr ⟨h1, ?_⟩
      rw [Prod.Lex.lt_iff] at h2
      rcases h2 with h2 | ⟨h2, h3⟩
      · exact Or.inl h2
      · refine Or.inr ⟨h2, ?_⟩
        rw [Prod.Lex.lt_iff] at h3
        exact h3
  · rintro (h | ⟨h1, h2⟩)
    · exact Or.inl h
    · refine Or.inr ⟨h1, ?_⟩
      rw [Prod.Lex.lt_iff]
      rcases h2 with h2 | ⟨h2, h3⟩
      · exact Or.inl h2
      · refine Or.inr ⟨h2, ?_⟩
        rw [Prod.Lex.lt_iff]
        exact h3


theorem lex4_eq_iff (a₁ b₁ : Nat) (a₂ b₂ : Nat) (a₃ b₃ : Int)
    (a₄ b₄ : String) :
    (toLex (a₁, toLex (a₂, toLex (a₃, a₄))) :
        Key) = toLex (b₁, toLex (b₂, toLex (b₃, b₄))) ↔
      a₁ = b₁ ∧ a₂ = b₂ ∧ a₃ = b₃ ∧ a₄ = b₄ := by
  constructor
  · intro h
    have h1 := congrArg (fun k : Key => (ofLex k).1) h
    have h2 := congrArg (fun k : Key => (ofLex (ofLex k).2).1) h
    have h3 := congrArg (fun k : Key => (ofLex (ofLex (ofLex k).2).2).1) h
    have h4 := congrArg (fun k : Key => (ofLex (ofLex (ofLex k).2).2).2) h
    exact ⟨h1, h2, h3, h4⟩
  · rintro ⟨rfl, rfl, rfl, rfl⟩
    rfl

theorem key_lt_of_fst_lt {x y : Key}
    (h : (ofLex x).1 < (ofLex y).1) : x < y := by
  have hx : x = toLex (ofLex x) := rfl
  have hy : y = toLex (ofLex y) := rfl
  rw [hx, hy, Prod.Lex.lt_iff]
  exact Or.inl h

theorem key_fst_le_of_le {x y : Key} (h : x ≤ y) :
    (ofLex x).1 ≤ (ofLex y).1 := by
  rcases lt_or_ge (ofLex y).1 (ofLex x).1 with hlt | hle
  · exact absurd (key_lt_of_fst_lt hlt) (not_lt_of_le h)
  · exact hle

/-- Within the edge region, the key order is the tier order. -/
theorem key_lt_iff_tier_lt (a b : JSVal)
    (hreg : tier a ≠ 9 ∨ tier b ≠ 9) :
    keyOf a < keyOf b ↔ tier a < tier b := by
  constructor
  · intro h
    have hle : tier a ≤ tier b := by
      have := key_fst_le_of_le h.le
      rwa [keyOf_fst, keyOf_fst] at this
    rcases lt_or_eq_of_le hle with hlt | heq
    · exact hlt
    · exfalso
      have hta : tier a ≠ 9 := by
        rcases hreg with h9 | h9
        · exact h9
        · rw [heq]; exact h9
      have htb : tier b ≠ 9 := by rw [← heq]; exact hta
      rw [keyOf_of_tier_ne hta, keyOf_of_tier_ne htb, heq] at h
      exact lt_irrefl _ h
  · intro h
    exact key_lt_of_fst_lt (by rw [keyOf_fst, keyOf_fst]; exact h)

/-- The helper comparison is exactly the lexicographic comparison of sort
keys. -/
theorem cmp3_eq_keys (a b : JSVal) :
    cmp3 a b = cmpo (keyOf a) (keyOf b) := by
  unfold cmp3
  by_cases hreg : tier a ≠ 9 ∨ tier b ≠ 9
  · rw [if_pos ((edgeRegion_iff a b).2 hreg)]
    refine cmpo_congr ?_ ?_
    · exact (key_lt_iff_tier_lt a b hreg).symm
    · exact (key_lt_iff_tier_lt b a (Or.symm hreg)).symm
  · push_neg at hreg
    obtain ⟨hta, htb⟩ := hreg
    have hcond : (edgePair a b && (tier a != 9 || tier b != 9)) = false := by
      by_contra hc
      rw [Bool.not_eq_false] at hc
      rcases (edgeRegion_iff a b).1 hc with h | h
      · exact h hta
      · exact h htb
    rw [hcond]
    simp only [Bool.false_eq_true, if_false]
    cases hna : toNum a with
    | some m =>
        cases hnb : toNum b with
        | some n =>
            rw [keyOf_of_num hta hna, keyOf_of_num htb hnb]
            refine cmpo_congr ?_ ?_ <;>
              · rw [lex4_lt_iff]
                simp [lt_irrefl]
        | none =>
            rw [keyOf_of_num hta hna, keyOf_of_nonnum htb hnb]
            have hk : (toLex (9, toLex (0, toLex (m, ""))) : Key) <
                toLex (9, toLex (1, toLex (0, toStr b))) := by
              rw [lex4_lt_iff]
              simp
            rw [cmpo_eq_lt.2 hk]
    | none =>
        cases hnb : toNum b with
        | some n =>
            rw [keyOf_of_nonnum hta hna, keyOf_of_num htb hnb]
            have hk : (toLex (9, toLex (0, toLex (n, ""))) : Key) <
                toLex (9, toLex (1, toLex (0, toStr a))) := by
              rw [lex4_lt_iff]
              simp
            rw [cmpo_eq_gt.2 hk]
        | none =>
            rw [keyOf_of_nonnum hta hna, keyOf_of_nonnum htb hnb]
            refine cmpo_congr ?_ ?_ <;>
              · rw [lex4_lt_iff]
                simp

/-- Branch shape shared by the numeric and string branches of `ltHelper`. -/
theorem ite_lt_shape {α : Type} [LinearOrder α] (m n : α) (e : Bool) :
    (if m < n then true else if n < m then false else e) =
      (decide (cmpo m n = .lt) || (e && decide (cmpo m n = .eq))) := by
  rcases lt_trichotomy m n with h | rfl | h
  · simp [cmpo, h]
  · simp [cmpo, lt_irrefl]
  · simp [cmpo, h, h.not_lt]

/-- Branch shape shared by the numeric and string branches of `gtHelper`. -/
theorem ite_gt_shape {α : Type} [LinearOrder α] (m n : α) (e : Bool) :
    (if n < m then true else if m < n then false else e) =
      (decide (cmpo m n = .gt) || (e && decide (cmpo m n = .eq))) := by
  rcases lt_trichotomy m n with h | rfl | h
  · simp [cmpo, h, h.not_lt, h.le]
  · simp [cmpo, lt_irrefl]
  · simp [cmpo, h, h.not_lt]

/-- `ltHelper` factors through the three-way comparison. -/
theorem ltHelper_eq_cmp3 (a b : JSVal) (e : Bool) :
    ltHelper a b e = (decide (cmp3 a b = .lt) || (e && decide (cmp3 a b = .eq))) := by
  unfold ltHelper cmp3
  by_cases hreg : (edgePair a b && (tier a != 9 || tier b != 9)) = true
  · rw [if_pos hreg, if_pos hreg]
    rcases lt_trichotomy (tier a) (tier b) with h | heq | h
    · simp [cmpo, h, Nat.ne_of_lt h]
    · simp [cmpo, heq, lt_irrefl]
    · simp [cmpo, h, h.not_lt, (Nat.ne_of_lt h).symm]
  · rw [if_neg hreg, if_neg hreg]
    cases toNum a with
    | some m =>
        cases toNum b with
        | some n => simpa using ite_lt_shape m n e
        | none => simp
    | none =>
        cases toNum b with
        | some n => simp
        | none => simpa using ite_lt_shape (toStr a) (toStr b) e

/-- `gtHelper` factors through the three-way comparison. -/
theorem gtHelper_eq_cmp3 (a b : JSVal) (e : Bool) :
    gtHelper a b e = (decide (cmp3 a b = .gt) || (e && decide (cmp3 a b = .eq))) := by
  unfold gtHelper cmp3
  by_cases hreg : (edgePair a b && (tier a != 9 || tier b != 9)) = true
  · rw [if_pos hreg, if_pos hreg]
    rcases lt_trichotomy (tier a) (tier b) with h | heq | h
    · simp [cmpo, h, Nat.ne_of_lt h, h.not_lt]
    · simp [cmpo, heq, lt_irrefl]
    · simp [cmpo, h, h.not_lt, (Nat.ne_of_lt h).symm]
  · rw [if_neg hreg, if_neg hreg]
    cases toNum a with
    | some m =>
        cases toNum b with
        | some n => simpa using ite_gt_shape m n e
        | none => simp
    | none =>
        cases toNum b with
        | some n => simp
        | none => simpa using ite_gt_shape (toStr a) (toStr b) e

theorem cmp3_refl (a : JSVal) : cmp3 a a = .eq := by
  rw [cmp3_eq_keys]
  exact cmpo_eq_eq.2 rfl

/-- `aeqHelper` factors through the three-way comparison. -/
theorem aeqHelper_eq_cmp3 (a b : JSVal) :
    aeqHelper a b = decide (cmp3 a b = .eq) := by
  unfold aeqHelper
  by_cases hst : strictEq a b = true
  · have hab : a = b := by
      have := hst
      unfold strictEq at this
      simp only [Bool.and_eq_true, beq_iff_eq] at this
      exact this.1
    subst hab
    rw [if_pos hst, cmp3_refl]
    rfl
  · rw [if_neg hst]
    unfold cmp3
    by_cases hreg : (edgePair a b && (tier a != 9 || tier b != 9)) = true
    · rw [if_pos hreg, if_pos hreg]
      rcases lt_trichotomy (tier a) (tier b) with h | heq | h
      · simp [cmpo, h, Nat.ne_of_lt h]
      · simp [cmpo, heq, lt_irrefl]
      · simp [cmpo, h, h.not_lt, (Nat.ne_of_lt h).symm]
    · rw [if_neg hreg, if_neg hreg]
      cases toNum a with
      | some m =>
          cases toNum b with
          | some n =>
              rcases lt_trichotomy m n with h | heq | h
              · simp [cmpo, h, Int.ne_of_lt h]
              · simp [cmpo, heq, lt_irrefl]
              · simp [cmpo, h, h.not_lt, (Int.ne_of_lt h).symm]
          | none => simp
      | none =>
          cases toNum b with
          | some n => simp
          | none =>
              rcases lt_trichotomy (toStr a) (toStr b) with h | heq | h
              · simp [cmpo, h, ne_of_lt h]
              · simp [cmpo, heq, lt_irrefl]
              · simp [cmpo, h, h.not_lt, (ne_of_lt h).symm]

/-- Strict less-than of the comparator is the strict key order. -/
theorem ltHelper_false_iff (a b : JSVal) :
    ltHelper a b false = true ↔ keyOf a < keyOf b := by
  rw [ltHelper_eq_cmp3, cmp3_eq_keys]
  simp [cmpo_eq_lt]

/-- Less-than-or-equivalent of the comparator is the weak key order. -/
theorem ltHelper_true_iff (a b : JSVal) :
    ltHelper a b true = true ↔ keyOf a ≤ keyOf b := by
  rw [ltHelper_eq_cmp3, cmp3_eq_keys]
  simp only [Bool.or_eq_true, Bool.and_eq_true, true_and, decide_eq_true_eq]
  rw [le_iff_lt_or_eq]
  constructor
  · rintro (h | h)
    · exact Or.inl (cmpo_eq_lt.1 h)
    · exact Or.inr (cmpo_eq_eq.1 h)
  · rintro (h | h)
    · exact Or.inl (cmpo_eq_lt.2 h)
    · exact Or.inr (cmpo_eq_eq.2 h)

/-- Strict greater-than of the comparator is the reversed strict key
order. -/
theorem gtHelper_false_iff (a b : JSVal) :
    gtHelper a b false = true ↔ keyOf b < keyOf a := by
  rw [gtHelper_eq_cmp3, cmp3_eq_keys]
  simp [cmpo_eq_gt]

/-- Greater-than-or-equivalent of the comparator is the reversed weak key
order. -/
theorem gtHelper_true_iff (a b : JSVal) :
    gtHelper a b true = true ↔ keyOf b ≤ keyOf a := by
  rw [gtHelper_eq_cmp3, cmp3_eq_keys]
  simp only [Bool.or_eq_true, Bool.and_eq_true, true_and, decide_eq_true_eq]
  constructor
  · rintro (h | h)
    · exact (cmpo_eq_gt.1 h).le
    · exact le_of_eq (cmpo_eq_eq.1 h).symm
  · intro h
    rcases lt_or_eq_of_le h with h | h
    · exact Or.inl (cmpo_eq_gt.2 h)
    · exact Or.inr (cmpo_eq_eq.2 h.symm)

/-- Abstract equality of the comparator is key equality. -/
theorem aeqHelper_iff (a b : JSVal) :
    aeqHelper a b = true ↔ keyOf a = keyOf b := by
  rw [aeqHelper_eq_cmp3, cmp3_eq_keys]
  simp [cmpo_eq_eq]


/-- Claim C1, counterexample: the specification orders `null` below `NaN`
(`undefined` ≡ `null` < `NaN`), but the comparator helpers of
`src/src/utils/index.ts` give `NaN` tier 0 and `null` tier 1, so
`ltHelper(null, NaN, false)` is false and `gtHelper(null, NaN, false)` is
true: the code sorts `NaN` strictly below `null`. -/
theorem C1_counterexample :
    ltHelper JSVal.null JSVal.nan false = false ∧
    gtHelper JSVal.null JSVal.nan false = true ∧
    ltHelper JSVal.nan JSVal.null false = true ∧
    aeqHelper JSVal.null JSVal.nan = false := by
  decide

/-- Claim C1 (amended): the comparator order is total across heterogeneous
types, with the tiered ordering `NaN` < `undefined` ≡ `null` < `false` <
`true` < `""` < all other values (`NaN` sorts below `null`, not above);
within the top tier, values that both coerce to finite numbers compare
numerically, and values that both fail numeric coercion compare by their
string coercions. -/
theorem C1_tiered_total_order :
    (aeqHelper JSVal.undef JSVal.null = true ∧
     ltHelper JSVal.undef JSVal.null false = false ∧
     gtHelper JSVal.undef JSVal.null false = false ∧
     ltHelper JSVal.undef JSVal.null true = true) ∧
    (ltHelper JSVal.nan JSVal.undef false = true ∧
     ltHelper JSVal.undef (JSVal.bool false) false = true ∧
     ltHelper (JSVal.bool false) (JSVal.bool true) false = true ∧
     ltHelper (JSVal.bool true) (JSVal.str "") false = true) ∧
    (∀ v : JSVal, tier v = 9 →
      ltHelper (JSVal.str "") v false = true ∧
      gtHelper v (JSVal.str "") false = true) ∧
    (∀ a b : JSVal, tier a = 9 → tier b = 9 → ∀ m n : Int,
      toNum a = some m → toNum b = some n →
      ltHelper a b false = decide (m < n) ∧
      gtHelper a b false = decide (n < m) ∧
      aeqHelper a b = decide (m = n)) ∧
    (∀ a b : JSVal, tier a = 9 → tier b = 9 →
      toNum a = none → toNum b = none →
      ltHelper a b false = decide (toStr a < toStr b) ∧
      aeqHelper a b = decide (toStr a = toStr b)) ∧
    (∀ a b : JSVal,
      ltHelper a b false = true ∨ gtHelper a b false = true ∨
      aeqHelper a b = true) := by
  refine ⟨by decide, by decide, ?_, ?_, ?_, ?_⟩
  · intro v hv
    have hk : keyOf (JSVal.str "") < keyOf v := by
      apply key_lt_of_fst_lt
      rw [keyOf_fst, keyOf_fst, hv]
      decide
    exact ⟨(ltHelper_false_iff _ _).2 hk, (gtHelper_false_iff _ _).2 hk⟩
  · intro a b hta htb m n hm hn
    have hlt := ltHelper_false_iff a b
    have hgt := gtHelper_false_iff a b
    have haeq := aeqHelper_iff a b
    rw [keyOf_of_num hta hm, keyOf_of_num htb hn, lex4_lt_iff] at hlt hgt
    rw [keyOf_of_num hta hm, keyOf_of_num htb hn, lex4_eq_iff] at haeq
    simp only [lt_irrefl, false_or, lt_self_iff_false, true_and, and_false,
      or_false, eq_self_iff_true] at hlt hgt haeq
    refine ⟨?_, ?_, ?_⟩
    · by_cases h : m < n
      · rw [hlt.2 h, decide_eq_true h]
      · have hne : ltHelper a b false ≠ true := fun hc => h (hlt.1 hc)
        rw [Bool.eq_false_iff.2 hne, decide_eq_false h]
    · by_cases h : n < m
      · rw [hgt.2 h, decide_eq_true h]
      · have hne : gtHelper a b false ≠ true := fun hc => h (hgt.1 hc)
        rw [Bool.eq_false_iff.2 hne, decide_eq_false h]
    · by_cases h : m = n
      · rw [haeq.2 ⟨h, trivial⟩, decide_eq_true h]
      · have hne : aeqHelper a b ≠ true := fun hc => h (haeq.1 hc).1
        rw [Bool.eq_false_iff.2 hne, decide_eq_false h]
  · intro a b hta htb hm hn
    have hlt := ltHelper_false_iff a b
    have haeq := aeqHelper_iff a b
    rw [keyOf_of_nonnum hta hm, keyOf_of_nonnum htb hn, lex4_lt_iff] at hlt
    rw [keyOf_of_nonnum hta hm, keyOf_of_nonnum htb hn, lex4_eq_iff] at haeq
    simp only [lt_irrefl, false_or, lt_self_iff_false, true_and, and_false,
      or_false, eq_self_iff_true] at hlt haeq
    refine ⟨?_, ?_⟩
    · by_cases h : toStr a < toStr b
      · rw [hlt.2 h, decide_eq_true h]
      · have hne : ltHelper a b false ≠ true := fun hc => h (hlt.1 hc)
        rw [Bool.eq_false_iff.2 hne, decide_eq_false h]
    · by_cases h : toStr a = toStr b
      · rw [haeq.2 h, decide_eq_true h]
      · have hne : aeqHelper a b ≠ true := fun hc => h (haeq.1 hc)
        rw [Bool.eq_false_iff.2 hne, decide_eq_false h]
  · intro a b
    rcases lt_trichotomy (keyOf a) (keyOf b) with h | h | h
    · exact Or.inl ((ltHelper_false_iff a b).2 h)
    · exact Or.inr (Or.inr ((aeqHelper_iff a b).2 h))
    · exact Or.inr (Or.inl ((gtHelper_false_iff a b).2 h))

/-- Witness for C1: the amended order theorem applied at a concrete tier-9
value, showing the empty string sorts below the number 42. -/
theorem C1_tiered_total_order_witness :
    ltHelper (JSVal.str "") (JSVal.num 42) false = true :=
  (C1_tiered_total_order.2.2.1 (JSVal.num 42) rfl).1


/-! ## Binary search

Both `calculateRangeStart` and `calculateRangeEnd` of
`src/unnamed/part_001` (and the ascending-id search of `Collection.get`)
run the same loop: while `min < max`, probe `mid = (min + max) >> 1` and
move `max` down to `mid` when the probe succeeds, else move `min` up to
`mid + 1`.  The loop is factored out here over an abstract probe. -/
def bsearch (P : Nat → Bool) (mn mx : Nat) : Nat :=
  if h : mn < mx then
    if P ((mn + mx) / 2) then bsearch P mn ((mn + mx) / 2)
    else bsearch P ((mn + mx) / 2 + 1) mx
  else mx
termination_by mx - mn
decreasing_by
  · omega
  · omega

theorem bsearch_spec_aux (P : Nat → Bool) :
    ∀ fuel mn mx, mx - mn ≤ fuel → mn ≤ mx →
    (∀ i j, mn ≤ i → i ≤ j → j ≤ mx → P i = true → P j = true) →
    mn ≤ bsearch P mn mx ∧ bsearch P mn mx ≤ mx ∧
    (∀ i, mn ≤ i → i < bsearch P mn mx → P i = false) ∧
    (P (bsearch P mn mx) = true ∨ bsearch P mn mx = mx) := by
  intro fuel
  induction fuel with
  | zero =>
      intro mn mx hf hle mono
      have heq : mn = mx := by omega
      subst heq
      rw [bsearch, dif_neg (lt_irrefl mn)]
      exact ⟨le_refl _, le_refl _, fun i h1 h2 => absurd h2 (by omega),
        Or.inr rfl⟩
  | succ n ih =>
      intro mn mx hf hle mono
      by_cases hlt : mn < mx
      · have hmid1 : (mn + mx) / 2 < mx := by omega
        have hmid2 : mn ≤ (mn + mx) / 2 := by omega
        rw [bsearch, dif_pos hlt]
        by_cases hp : P ((mn + mx) / 2) = true
        · rw [if_pos hp]
          obtain ⟨ha, hb, hc, hd⟩ := ih mn ((mn + mx) / 2) (by omega)
            (by omega) (fun i j hi hij hj => mono i j hi hij (by omega))
          refine ⟨ha, by omega, hc, ?_⟩
          rcases hd with hd | hd
          · exact Or.inl hd
          · rw [hd]
            exact Or.inl hp
        · rw [if_neg hp]
          have hpf : P ((mn + mx) / 2) = false := by
            rwa [Bool.not_eq_true] at hp
          obtain ⟨ha, hb, hc, hd⟩ := ih ((mn + mx) / 2 + 1) mx (by omega)
            (by omega) (fun i j hi hij hj => mono i j (by omega) hij hj)
          refine ⟨by omega, hb, ?_, hd⟩
          intro i hi hilt
          by_cases him : i ≤ (mn + mx) / 2
          · cases hpi : P i with
            | false => rfl
            | true =>
                exact absurd (mono i ((mn + mx) / 2) hi him (by omega) hpi)
                  (by rw [hpf]; simp)
          · exact hc i (by omega) hilt
      · have heq : mn = mx := by omega
        subst heq
        rw [bsearch, dif_neg (lt_irrefl mn)]
        exact ⟨le_refl _, le_refl _, fun i h1 h2 => absurd h2 (by omega),
          Or.inr rfl⟩

/-- Characterisation of the shared binary-search loop: for a probe that is
monotone on `[mn, mx]`, the result is in `[mn, mx]`, every position strictly
below it fails the probe, and the result either passes the probe or is
`mx`. -/
theorem bsearch_spec (P : Nat → Bool) (mn mx : Nat) (hle : mn ≤ mx)
    (mono : ∀ i j, mn ≤ i → i ≤ j → j ≤ mx → P i = true → P j = true) :
    mn ≤ bsearch P mn mx ∧ bsearch P mn mx ≤ mx ∧
    (∀ i, mn ≤ i → i < bsearch P mn mx → P i = false) ∧
    (P (bsearch P mn mx) = true ∨ bsearch P mn mx = mx) :=
  bsearch_spec_aux P (mx - mn) mn mx (le_refl _) hle mono

/-- The loop finds the least passing position when one exists. -/
theorem bsearch_eq_first (P : Nat → Bool) (mn mx r : Nat) (hle : mn ≤ mx)
    (mono : ∀ i j, mn ≤ i → i ≤ j → j ≤ mx → P i = true → P j = true)
    (hr1 : mn ≤ r) (hr2 : r ≤ mx)
    (hpre : ∀ i, mn ≤ i → i < r → P i = false)
    (hPr : P r = true) :
    bsearch P mn mx = r := by
  obtain ⟨ha, hb, hc, hd⟩ := bsearch_spec P mn mx hle mono
  by_cases h : bsearch P mn mx < r
  · have := hpre (bsearch P mn mx) ha h
    rcases hd with hd | hd
    · rw [this] at hd
      exact absurd hd (by simp)
    · omega
  · by_cases h2 : r < bsearch P mn mx
    · have := hc r hr1 h2
      rw [hPr] at this
      exact absurd this (by simp)
    · omega

/-- The loop returns `mx` when no position passes. -/
theorem bsearch_eq_max (P : Nat → Bool) (mn mx : Nat) (hle : mn ≤ mx)
    (mono : ∀ i j, mn ≤ i → i ≤ j → j ≤ mx → P i = true → P j = true)
    (hnone : ∀ i, mn ≤ i → i ≤ mx → P i = false) :
    bsearch P mn mx = mx := by
  obtain ⟨ha, hb, hc, hd⟩ := bsearch_spec P mn mx hle mono
  rcases hd with hd | hd
  · rw [hnone _ ha hb] at hd
    exact absurd hd (by simp)
  · exact hd


/-! ## Data model

`Collection` of `src/unnamed/part_001`, restricted to the parts the
verified claims depend on: the document vector `data`, the parallel
`idIndex`, the binary indices, the unique constraints, and `maxId`.  The
model fixes the constructor defaults `transactional = false`,
`disableMeta = true`, `cloneObjects = false` and has no dynamic views, so
the corresponding branches of the source are identity steps. -/

/-- A stored document: its `$loki` id and its remaining properties. -/
structure Doc where
  loki : Int
  fields : List (String × JSVal)
deriving DecidableEq, Repr

/-- The empty JavaScript object used as a document default. -/
def emptyDoc : Doc := ⟨0, []⟩

/-- JavaScript property read `doc[prop]`; `undefined` when absent. -/
def Doc.get (d : Doc) (p : String) : JSVal :=
  match d.fields.find? (fun kv => kv.1 == p) with
  | some kv => kv.2
  | none => JSVal.undef

/-- A binary index (`this.binaryIndices[prop]`): the sorted position array
and the dirty flag. -/
structure BinaryIndex where
  values : List Nat
  dirty : Bool
deriving DecidableEq, Repr

/-- JavaScript-object lookup on an association list whose entries may have
been overwritten with `undefined` (`none`); the most recent assignment is
first. -/
def kmLookup {κ α : Type} [BEq κ] (m : List (κ × Option α)) (k : κ) :
    Option α :=
  match m.find? (fun kv => kv.1 == k) with
  | some kv => kv.2
  | none => none

/-- JavaScript-object assignment `m[k] = v` (with `v = none` standing for
assigning `undefined`, as `UniqueIndex.remove` does). -/
def kmSet {κ α : Type} (m : List (κ × Option α)) (k : κ) (v : Option α) :
    List (κ × Option α) :=
  (k, v) :: m

/-- `UniqueIndex` of `src/src/core/ResultSet.ts`: `keyMap` maps the string
coercion of the field value (JavaScript property keys are strings) to the
document, `lokiMap` maps `$loki` ids to keys. -/
structure UniqueIndex where
  field : String
  keyMap : List (String × Option Doc)
  lokiMap : List (Int × Option String)
deriving DecidableEq, Repr

/-- `UniqueIndex.prototype.set(obj)`: skip `null`/`undefined` field values;
throw on a duplicate key (the stored documents are objects, hence truthy);
otherwise record the mapping. -/
def UniqueIndex.set (u : UniqueIndex) (obj : Doc) : Except String UniqueIndex :=
  let fieldValue := obj.get u.field
  if fieldValue ≠ .null ∧ fieldValue ≠ .undef then
    if (kmLookup u.keyMap (toStr fieldValue)).isSome then
      .error ("Duplicate key for property " ++ u.field ++ ": " ++ toStr fieldValue)
    else
      .ok { u with keyMap := kmSet u.keyMap (toStr fieldValue) (some obj),
                   lokiMap := kmSet u.lokiMap obj.loki (some (toStr fieldValue)) }
  else .ok u

/-- `UniqueIndex.prototype.remove(key)`: overwrite both entries with
`undefined`, or throw when the key is not present. -/
def UniqueIndex.remove (u : UniqueIndex) (key : JSVal) : Except String UniqueIndex :=
  match kmLookup u.keyMap (toStr key) with
  | some obj =>
      .ok { u with keyMap := kmSet u.keyMap (toStr key) none,
                   lokiMap := kmSet u.lokiMap obj.loki none }
  | none => .error ("Key is not in unique index: " ++ u.field)

/-- The collection state. -/
structure Coll where
  data : List Doc
  idIndex : List Int
  binaryIndices : List (String × BinaryIndex)
  uniqueNames : List String
  uniqueIndices : List (String × UniqueIndex)
  maxId : Int
  adaptiveBinaryIndices : Bool
deriving DecidableEq, Repr

/-- `coll.data[i]`. -/
def Coll.dataAt (c : Coll) (i : Nat) : Doc := c.data.getD i emptyDoc

/-- `this.binaryIndices[prop]`; the claims only read it for properties that
have an index. -/
def Coll.getBI (c : Coll) (prop : String) : BinaryIndex :=
  match c.binaryIndices.find? (fun kv => kv.1 == prop) with
  | some kv => kv.2
  | none => ⟨[], true⟩

/-- Replace the binary index stored under `prop`. -/
def Coll.setBI (c : Coll) (prop : String) (bi : BinaryIndex) : Coll :=
  { c with binaryIndices :=
      c.binaryIndices.map (fun kv => if kv.1 == prop then (kv.1, bi) else kv) }

/-- `Utils.getIn(rcd[index[i]], prop)` for a position `i` into the binary
index of `prop`; `undefined` outside the index, as in JavaScript. -/
def Coll.valAtIdx (c : Coll) (prop : String) (i : Nat) : JSVal :=
  match (c.getBI prop).values.get? i with
  | some dp => (c.dataAt dp).get prop
  | none => JSVal.undef

/-- The same read at a JavaScript (possibly negative) array position. -/
def Coll.valAtI (c : Coll) (prop : String) (i : Int) : JSVal :=
  if 0 ≤ i then c.valAtIdx prop i.toNat else JSVal.undef

/-- Embedding of `Collection.prototype.calculateRangeStart` of
`src/unnamed/part_001` (dot notation is outside the model, so the
`usingDotNotation` flag is dropped). -/
def Coll.calculateRangeStart (c : Coll) (prop : String) (val : JSVal)
    (adaptive : Bool) : Int :=
  let index := (c.getBI prop).values
  if index.length = 0 then -1
  else
    let lbound := bsearch (fun i => ! ltHelper (c.valAtIdx prop i) val false)
      0 (index.length - 1)
    if aeqHelper val (c.valAtIdx prop lbound) then (lbound : Int)
    else if ltHelper val (c.valAtIdx prop lbound) false then
      (if adaptive then (lbound : Int) else (lbound : Int) - 1)
    else
      (if adaptive then (lbound : Int) + 1 else (lbound : Int))

/-- Embedding of `Collection.prototype.calculateRangeEnd` of
`src/unnamed/part_001`. -/
def Coll.calculateRangeEnd (c : Coll) (prop : String) (val : JSVal) : Int :=
  let index := (c.getBI prop).values
  if index.length = 0 then -1
  else
    let ubound := bsearch (fun i => ltHelper val (c.valAtIdx prop i) false)
      0 (index.length - 1)
    if aeqHelper val (c.valAtIdx prop ubound) then (ubound : Int)
    else if gtHelper val (c.valAtIdx prop ubound) false then (ubound : Int) + 1
    else if aeqHelper val (c.valAtI prop ((ubound : Int) - 1)) then
      (ubound : Int) - 1
    else (ubound : Int)

/-- The index-eligible scalar operators of `calculateRange` covered by the
model (`$between` and `$in` are outside the verified claims). -/
inductive QOp where
  | eq
  | aeq
  | dteq
  | gt
  | gte
  | lt
  | lte
deriving DecidableEq, Repr

/-- Embedding of `Collection.prototype.calculateRange(op, prop, val)` of
`src/unnamed/part_001` for the modelled operators, including the
out-of-range short circuits and the hole corrections. -/
def Coll.calculateRange (c : Coll) (op : QOp) (prop : String) (val : JSVal) :
    Int × Int :=
  if c.data.length = 0 then (0, -1)
  else
    let index := (c.getBI prop).values
    let mx : Int := (index.length : Int) - 1
    let minVal := c.valAtIdx prop 0
    let maxVal := c.valAtI prop mx
    match op with
    | .eq | .aeq | .dteq =>
        if ltHelper val minVal false || gtHelper val maxVal false then (0, -1)
        else
          let lbound := c.calculateRangeStart prop val false
          let ubound := c.calculateRangeEnd prop val
          let lval := c.valAtI prop lbound
          if !aeqHelper lval val then (0, -1) else (lbound, ubound)
    | .gt =>
        if gtHelper val maxVal true then (0, -1)
        else if gtHelper minVal val false then (0, mx)
        else
          let ubound := c.calculateRangeEnd prop val
          if !aeqHelper (c.valAtI prop ubound) val then (ubound, mx)
          else (ubound + 1, mx)
    | .gte =>
        if gtHelper val maxVal false then (0, -1)
        else if gtHelper minVal val true then (0, mx)
        else
          let lbound := c.calculateRangeStart prop val false
          if !aeqHelper (c.valAtI prop lbound) val then (lbound + 1, mx)
          else (lbound, mx)
    | .lt =>
        if ltHelper val minVal true then (0, -1)
        else if ltHelper maxVal val false then (0, mx)
        else
          let lbound := c.calculateRangeStart prop val false
          if !aeqHelper (c.valAtI prop lbound) val then (0, lbound)
          else (0, lbound - 1)
    | .lte =>
        if ltHelper val minVal false then (0, -1)
        else if ltHelper maxVal val true then (0, mx)
        else
          let ubound := c.calculateRangeEnd prop val
          if !aeqHelper (c.valAtI prop ubound) val then (0, ubound - 1)
          else (0, ubound)


/-! ## Sorted-index characterisation of the range searches -/

/-- The sort key of the indexed value at position `i` of the binary index
on `prop`. -/
def Coll.keyAtIdx (c : Coll) (prop : String) (i : Nat) : Key :=
  keyOf (c.valAtIdx prop i)

/-- The specification's sortedness invariant for a binary index: adjacent
indexed values are non-decreasing under the comparator. -/
def Coll.IndexSorted (c : Coll) (prop : String) : Prop :=
  ∀ i, i + 1 < (c.getBI prop).values.length →
    ltHelper (c.valAtIdx prop i) (c.valAtIdx prop (i + 1)) true = true

/-- Sortedness gives monotone sort keys. -/
theorem Coll.IndexSorted.keyMono {c : Coll} {prop : String}
    (h : c.IndexSorted prop) :
    ∀ i j, i ≤ j → j < (c.getBI prop).values.length →
      c.keyAtIdx prop i ≤ c.keyAtIdx prop j := by
  intro i j hij hj
  obtain ⟨d, rfl⟩ : ∃ d, j = i + d := ⟨j - i, by omega⟩
  clear hij
  induction d with
  | zero => exact le_refl _
  | succ n ihn =>
      have hstep : i + n + 1 < (c.getBI prop).values.length := by omega
      have h1 := ihn (by omega)
      have h2 := (ltHelper_true_iff _ _).1 (h (i + n) (by omega))
      calc c.keyAtIdx prop i ≤ c.keyAtIdx prop (i + n) := h1
        _ ≤ c.keyAtIdx prop (i + n + 1) := h2
        _ = c.keyAtIdx prop (i + (n + 1)) := by
            have : i + n + 1 = i + (n + 1) := by omega
            rw [this]

/-- The probe used by `calculateRangeStart` succeeds exactly when the
queried key is at most the probed key. -/
theorem startProbe_iff (c : Coll) (prop : String) (val : JSVal) (i : Nat) :
    (! ltHelper (c.valAtIdx prop i) val false) = true ↔
      keyOf val ≤ c.keyAtIdx prop i := by
  have hb : (! ltHelper (c.valAtIdx prop i) val false) = true ↔
      ¬ (ltHelper (c.valAtIdx prop i) val false = true) := by
    simp
  rw [hb, ltHelper_false_iff, not_lt]
  exact Iff.rfl

/-- The probe used by `calculateRangeEnd` succeeds exactly when the probed
key strictly exceeds the queried key. -/
theorem endProbe_iff (c : Coll) (prop : String) (val : JSVal) (i : Nat) :
    ltHelper val (c.valAtIdx prop i) false = true ↔
      keyOf val < c.keyAtIdx prop i :=
  ltHelper_false_iff _ _


/-- `calculateRangeStart` returns the first position whose key equals the
queried key, when the key is present. -/
theorem rangeStart_of_present (c : Coll) (prop : String) (val : JSVal)
    (adaptive : Bool) (F : Nat)
    (hs : c.IndexSorted prop)
    (hF : F < (c.getBI prop).values.length)
    (hKF : c.keyAtIdx prop F = keyOf val)
    (hfirst : ∀ i, i < F → c.keyAtIdx prop i ≠ keyOf val) :
    c.calculateRangeStart prop val adaptive = (F : Int) := by
  have hlen : (c.getBI prop).values.length ≠ 0 := by omega
  have hb : bsearch (fun i => ! ltHelper (c.valAtIdx prop i) val false) 0
      ((c.getBI prop).values.length - 1) = F := by
    apply bsearch_eq_first
    · omega
    · intro i j hi hij hj hPi
      rw [startProbe_iff] at hPi ⊢
      exact hPi.trans (hs.keyMono i j hij (by omega))
    · omega
    · omega
    · intro i hi hilt
      have hle : c.keyAtIdx prop i ≤ c.keyAtIdx prop F :=
        hs.keyMono i F (by omega) hF
      have hltk : c.keyAtIdx prop i < keyOf val :=
        lt_of_le_of_ne (hKF ▸ hle) (hfirst i hilt)
      refine Bool.eq_false_iff.2 (fun hc => ?_)
      exact absurd ((startProbe_iff c prop val i).1 hc) (not_le.2 hltk)
    · exact (startProbe_iff c prop val F).2 (le_of_eq hKF.symm)
  have haeq : aeqHelper val (c.valAtIdx prop F) = true :=
    (aeqHelper_iff _ _).2 hKF.symm
  unfold Coll.calculateRangeStart
  rw [if_neg hlen]
  simp only [hb, haeq, if_pos]

/-- `calculateRangeStart` at a hole with a strictly greater key present:
the loop stops at the first greater position `r`; query mode returns
`r - 1`, adaptive mode returns `r`. -/
theorem rangeStart_of_hole_mid (c : Coll) (prop : String) (val : JSVal)
    (adaptive : Bool) (r : Nat)
    (hs : c.IndexSorted prop)
    (hr : r < (c.getBI prop).values.length)
    (hKr : keyOf val < c.keyAtIdx prop r)
    (hbelow : ∀ i, i < r → c.keyAtIdx prop i < keyOf val) :
    c.calculateRangeStart prop val adaptive =
      (if adaptive then (r : Int) else (r : Int) - 1) := by
  have hlen : (c.getBI prop).values.length ≠ 0 := by omega
  have hb : bsearch (fun i => ! ltHelper (c.valAtIdx prop i) val false) 0
      ((c.getBI prop).values.length - 1) = r := by
    apply bsearch_eq_first
    · omega
    · intro i j hi hij hj hPi
      rw [startProbe_iff] at hPi ⊢
      exact hPi.trans (hs.keyMono i j hij (by omega))
    · omega
    · omega
    · intro i hi hilt
      refine Bool.eq_false_iff.2 (fun hc => ?_)
      exact absurd ((startProbe_iff c prop val i).1 hc)
        (not_le.2 (hbelow i hilt))
    · exact (startProbe_iff c prop val r).2 hKr.le
  have haeq : aeqHelper val (c.valAtIdx prop r) = false := by
    refine Bool.eq_false_iff.2 (fun hc => ?_)
    exact absurd ((aeqHelper_iff _ _).1 hc) (ne_of_lt hKr)
  have hlt : ltHelper val (c.valAtIdx prop r) false = true :=
    (ltHelper_false_iff _ _).2 hKr
  unfold Coll.calculateRangeStart
  rw [if_neg hlen]
  simp only [hb, haeq, hlt, Bool.false_eq_true, if_false, if_true]

/-- `calculateRangeStart` when every indexed key is strictly below the
queried key: the loop stops at the last position; query mode returns it,
adaptive mode returns the append position one past it. -/
theorem rangeStart_of_all_lt (c : Coll) (prop : String) (val : JSVal)
    (adaptive : Bool)
    (hs : c.IndexSorted prop)
    (hlen : (c.getBI prop).values.length ≠ 0)
    (hall : ∀ i, i < (c.getBI prop).values.length →
      c.keyAtIdx prop i < keyOf val) :
    c.calculateRangeStart prop val adaptive =
      (if adaptive then ((c.getBI prop).values.length : Int)
       else ((c.getBI prop).values.length : Int) - 1) := by
  have hb : bsearch (fun i => ! ltHelper (c.valAtIdx prop i) val false) 0
      ((c.getBI prop).values.length - 1) =
      (c.getBI prop).values.length - 1 := by
    apply bsearch_eq_max
    · omega
    · intro i j hi hij hj hPi
      rw [startProbe_iff] at hPi ⊢
      exact hPi.trans (hs.keyMono i j hij (by omega))
    · intro i hi hile
      refine Bool.eq_false_iff.2 (fun hc => ?_)
      exact absurd ((startProbe_iff c prop val i).1 hc)
        (not_le.2 (hall i (by omega)))
  have haeq : aeqHelper val
      (c.valAtIdx prop ((c.getBI prop).values.length - 1)) = false := by
    refine Bool.eq_false_iff.2 (fun hc => ?_)
    exact absurd ((aeqHelper_iff _ _).1 hc)
      (ne_of_gt (hall _ (by omega)))
  have hlt : ltHelper val
      (c.valAtIdx prop ((c.getBI prop).values.length - 1)) false = false := by
    refine Bool.eq_false_iff.2 (fun hc => ?_)
    exact absurd ((ltHelper_false_iff _ _).1 hc)
      (not_lt.2 (hall _ (by omega)).le)
  unfold Coll.calculateRangeStart
  rw [if_neg hlen]
  simp only [hb, haeq, hlt, Bool.false_eq_true, if_false]
  have hcast : (((c.getBI prop).values.length - 1 : Nat) : Int) =
      ((c.getBI prop).values.length : Int) - 1 := by omega
  by_cases ha : adaptive = true
  · rw [ha]
    simp only [if_true]
    omega
  · rw [Bool.eq_false_iff.2 ha]
    simp only [Bool.false_eq_true, if_false]
    omega


theorem valAtI_ofNat (c : Coll) (prop : String) (n : Nat) :
    c.valAtI prop (n : Int) = c.valAtIdx prop n := by
  unfold Coll.valAtI
  rw [if_pos (Int.ofNat_nonneg n)]
  simp

/-- `calculateRangeEnd` returns the last position whose key equals the
queried key, when the key is present. -/
theorem rangeEnd_of_present (c : Coll) (prop : String) (val : JSVal)
    (L : Nat)
    (hs : c.IndexSorted prop)
    (hL : L < (c.getBI prop).values.length)
    (hKL : c.keyAtIdx prop L = keyOf val)
    (hafter : ∀ i, L < i → i < (c.getBI prop).values.length →
      keyOf val < c.keyAtIdx prop i) :
    c.calculateRangeEnd prop val = (L : Int) := by
  have hlen : (c.getBI prop).values.length ≠ 0 := by omega
  by_cases hend : L = (c.getBI prop).values.length - 1
  · have hb : bsearch (fun i => ltHelper val (c.valAtIdx prop i) false) 0
        ((c.getBI prop).values.length - 1) = L := by
      rw [hend]
      apply bsearch_eq_max
      · omega
      · intro i j hi hij hj hPi
        rw [endProbe_iff] at hPi ⊢
        exact hPi.trans_le (hs.keyMono i j hij (by omega))
      · intro i hi hile
        have hik : c.keyAtIdx prop i ≤ keyOf val :=
          hKL ▸ hs.keyMono i L (by omega) hL
        refine Bool.eq_false_iff.2 (fun hc => ?_)
        exact absurd ((endProbe_iff c prop val i).1 hc) (not_lt.2 hik)
    have haeq : aeqHelper val (c.valAtIdx prop L) = true :=
      (aeqHelper_iff _ _).2 hKL.symm
    unfold Coll.calculateRangeEnd
    rw [if_neg hlen]
    simp only [hb, haeq, if_pos]
  · have hb : bsearch (fun i => ltHelper val (c.valAtIdx prop i) false) 0
        ((c.getBI prop).values.length - 1) = L + 1 := by
      apply bsearch_eq_first
      · omega
      · intro i j hi hij hj hPi
        rw [endProbe_iff] at hPi ⊢
        exact hPi.trans_le (hs.keyMono i j hij (by omega))
      · omega
      · omega
      · intro i hi hilt
        have hik : c.keyAtIdx prop i ≤ keyOf val :=
          hKL ▸ hs.keyMono i L (by omega) hL
        refine Bool.eq_false_iff.2 (fun hc => ?_)
        exact absurd ((endProbe_iff c prop val i).1 hc) (not_lt.2 hik)
      · exact (endProbe_iff c prop val (L + 1)).2
          (hafter (L + 1) (by omega) (by omega))
    have hK1 : keyOf val < c.keyAtIdx prop (L + 1) :=
      hafter (L + 1) (by omega) (by omega)
    have haeq : aeqHelper val (c.valAtIdx prop (L + 1)) = false := by
      refine Bool.eq_false_iff.2 (fun hc => ?_)
      exact absurd ((aeqHelper_iff _ _).1 hc) (ne_of_lt hK1)
    have hgt : gtHelper val (c.valAtIdx prop (L + 1)) false = false := by
      refine Bool.eq_false_iff.2 (fun hc => ?_)
      exact absurd ((gtHelper_false_iff _ _).1 hc) (not_lt.2 hK1.le)
    have hcast : ((L + 1 : Nat) : Int) - 1 = ((L : Nat) : Int) := by omega
    have haeq2 : aeqHelper val (c.valAtI prop (((L + 1 : Nat) : Int) - 1)) =
        true := by
      rw [hcast, valAtI_ofNat]
      exact (aeqHelper_iff _ _).2 hKL.symm
    unfold Coll.calculateRangeEnd
    rw [if_neg hlen]
    simp only [hb, haeq, hgt, haeq2, Bool.false_eq_true, if_false, if_true]
    omega

/-- `calculateRangeEnd` at an interior hole: the result is the first
position whose key exceeds the queried key (provided some smaller key lies
below it, which rules out the negative-index probe of the source). -/
theorem rangeEnd_of_hole_mid (c : Coll) (prop : String) (val : JSVal)
    (r : Nat)
    (hs : c.IndexSorted prop)
    (hr : r < (c.getBI prop).values.length)
    (hrpos : 0 < r)
    (hbelow : ∀ i, i < r → c.keyAtIdx prop i < keyOf val)
    (hKr : keyOf val < c.keyAtIdx prop r) :
    c.calculateRangeEnd prop val = (r : Int) := by
  have hlen : (c.getBI prop).values.length ≠ 0 := by omega
  have hb : bsearch (fun i => ltHelper val (c.valAtIdx prop i) false) 0
      ((c.getBI prop).values.length - 1) = r := by
    apply bsearch_eq_first
    · omega
    · intro i j hi hij hj hPi
      rw [endProbe_iff] at hPi ⊢
      exact hPi.trans_le (hs.keyMono i j hij (by omega))
    · omega
    · omega
    · intro i hi hilt
      refine Bool.eq_false_iff.2 (fun hc => ?_)
      exact absurd ((endProbe_iff c prop val i).1 hc)
        (not_lt.2 (hbelow i hilt).le)
    · exact (endProbe_iff c prop val r).2 hKr
  have haeq : aeqHelper val (c.valAtIdx prop r) = false := by
    refine Bool.eq_false_iff.2 (fun hc => ?_)
    exact absurd ((aeqHelper_iff _ _).1 hc) (ne_of_lt hKr)
  have hgt : gtHelper val (c.valAtIdx prop r) false = false := by
    refine Bool.eq_false_iff.2 (fun hc => ?_)
    exact absurd ((gtHelper_false_iff _ _).1 hc) (not_lt.2 hKr.le)
  have hcast : ((r : Nat) : Int) - 1 = ((r - 1 : Nat) : Int) := by omega
  have haeq2 : aeqHelper val (c.valAtI prop (((r : Nat) : Int) - 1)) =
      false := by
    rw [hcast, valAtI_ofNat]
    refine Bool.eq_false_iff.2 (fun hc => ?_)
    exact absurd ((aeqHelper_iff _ _).1 hc)
      (ne_of_gt (hbelow (r - 1) (by omega)))
  unfold Coll.calculateRangeEnd
  rw [if_neg hlen]
  simp only [hb, haeq, hgt, haeq2, Bool.false_eq_true, if_false]

/-- `calculateRangeEnd` when every indexed key is strictly below the
queried key: the result is one past the last position. -/
theorem rangeEnd_of_all_lt (c : Coll) (prop : String) (val : JSVal)
    (hs : c.IndexSorted prop)
    (hlen : (c.getBI prop).values.length ≠ 0)
    (hall : ∀ i, i < (c.getBI prop).values.length →
      c.keyAtIdx prop i < keyOf val) :
    c.calculateRangeEnd prop val = ((c.getBI prop).values.length : Int) := by
  have hb : bsearch (fun i => ltHelper val (c.valAtIdx prop i) false) 0
      ((c.getBI prop).values.length - 1) =
      (c.getBI prop).values.length - 1 := by
    apply bsearch_eq_max
    · omega
    · intro i j hi hij hj hPi
      rw [endProbe_iff] at hPi ⊢
      exact hPi.trans_le (hs.keyMono i j hij (by omega))
    · intro i hi hile
      refine Bool.eq_false_iff.2 (fun hc => ?_)
      exact absurd ((endProbe_iff c prop val i).1 hc)
        (not_lt.2 (hall i (by omega)).le)
  have haeq : aeqHelper val
      (c.valAtIdx prop ((c.getBI prop).values.length - 1)) = false := by
    refine Bool.eq_false_iff.2 (fun hc => ?_)
    exact absurd ((aeqHelper_iff _ _).1 hc)
      (ne_of_gt (hall _ (by omega)))
  have hgt : gtHelper val
      (c.valAtIdx prop ((c.getBI prop).values.length - 1)) false = true :=
    (gtHelper_false_iff _ _).2 (hall _ (by omega))
  unfold Coll.calculateRangeEnd
  rw [if_neg hlen]
  simp only [hb, haeq, hgt, Bool.false_eq_true, if_false, if_true]
  omega


/-- `calculateRange` for `$eq`/`$aeq`/`$dteq` on a present key returns the
positions of the first and last equal keys. -/
theorem calculateRange_eqlike_of_present (c : Coll) (op : QOp)
    (prop : String) (val : JSVal) (F L : Nat)
    (hop : op = .eq ∨ op = .aeq ∨ op = .dteq)
    (hs : c.IndexSorted prop)
    (hdata : ¬ c.data.length = 0)
    (hF : F < (c.getBI prop).values.length)
    (hKF : c.keyAtIdx prop F = keyOf val)
    (hfirst : ∀ i, i < F → c.keyAtIdx prop i ≠ keyOf val)
    (hL : L < (c.getBI prop).values.length)
    (hKL : c.keyAtIdx prop L = keyOf val)
    (hafter : ∀ i, L < i → i < (c.getBI prop).values.length →
      c.keyAtIdx prop i ≠ keyOf val) :
    c.calculateRange op prop val = ((F : Int), (L : Int)) := by
  have hafterLt : ∀ i, L < i → i < (c.getBI prop).values.length →
      keyOf val < c.keyAtIdx prop i := by
    intro i hLi hi
    have hle : c.keyAtIdx prop L ≤ c.keyAtIdx prop i :=
      hs.keyMono L i hLi.le hi
    exact lt_of_le_of_ne (hKL ▸ hle) (Ne.symm (hafter i hLi hi))
  have h0le : c.keyAtIdx prop 0 ≤ keyOf val :=
    hKF ▸ hs.keyMono 0 F (Nat.zero_le F) hF
  have hminlt : ltHelper val (c.valAtIdx prop 0) false = false := by
    refine Bool.eq_false_iff.2 (fun hc => ?_)
    exact absurd ((ltHelper_false_iff _ _).1 hc) (not_lt.2 h0le)
  have hmaxval : c.valAtI prop (((c.getBI prop).values.length : Int) - 1) =
      c.valAtIdx prop ((c.getBI prop).values.length - 1) := by
    have hc : ((c.getBI prop).values.length : Int) - 1 =
        (((c.getBI prop).values.length - 1 : Nat) : Int) := by omega
    rw [hc, valAtI_ofNat]
  have hlastge : keyOf val ≤ c.keyAtIdx prop
      ((c.getBI prop).values.length - 1) :=
    hKL ▸ hs.keyMono L ((c.getBI prop).values.length - 1) (by omega) (by omega)
  have hmaxgt : gtHelper val
      (c.valAtIdx prop ((c.getBI prop).values.length - 1)) false = false := by
    refine Bool.eq_false_iff.2 (fun hc => ?_)
    exact absurd ((gtHelper_false_iff _ _).1 hc) (not_lt.2 hlastge)
  have hstart := rangeStart_of_present c prop val false F hs hF hKF hfirst
  have hend := rangeEnd_of_present c prop val L hs hL hKL hafterLt
  have hlval : c.valAtI prop ((F : Nat) : Int) = c.valAtIdx prop F :=
    valAtI_ofNat c prop F
  have haeql : aeqHelper (c.valAtIdx prop F) val = true :=
    (aeqHelper_iff _ _).2 hKF
  rcases hop with rfl | rfl | rfl <;>
    · unfold Coll.calculateRange
      rw [if_neg hdata]
      simp [hmaxval, hminlt, hmaxgt, hstart, hend, hlval, haeql]

/-- `calculateRange` for `$eq`/`$aeq`/`$dteq` on an absent key returns the
empty range `[0, -1]`. -/
theorem calculateRange_eqlike_of_hole (c : Coll) (op : QOp)
    (prop : String) (val : JSVal)
    (hop : op = .eq ∨ op = .aeq ∨ op = .dteq)
    (hs : c.IndexSorted prop)
    (hdata : ¬ c.data.length = 0)
    (hlen : (c.getBI prop).values.length ≠ 0)
    (hhole : ∀ i, i < (c.getBI prop).values.length →
      c.keyAtIdx prop i ≠ keyOf val) :
    c.calculateRange op prop val = (0, -1) := by
  have hmaxval : c.valAtI prop (((c.getBI prop).values.length : Int) - 1) =
      c.valAtIdx prop ((c.getBI prop).values.length - 1) := by
    have hc : ((c.getBI prop).values.length : Int) - 1 =
        (((c.getBI prop).values.length - 1 : Nat) : Int) := by omega
    rw [hc, valAtI_ofNat]
  by_cases hout : (ltHelper val (c.valAtIdx prop 0) false ||
      gtHelper val
        (c.valAtIdx prop ((c.getBI prop).values.length - 1)) false) = true
  · rcases hop with rfl | rfl | rfl <;>
      · unfold Coll.calculateRange
        rw [if_neg hdata]
        simp [hmaxval, hout]
  · have hsplit : ltHelper val (c.valAtIdx prop 0) false = false ∧
        gtHelper val (c.valAtIdx prop ((c.getBI prop).values.length - 1))
          false = false := by
      constructor
      · cases h1 : ltHelper val (c.valAtIdx prop 0) false
        · rfl
        · exact absurd (by rw [h1]; rfl) hout
      · cases h2 : gtHelper val
            (c.valAtIdx prop ((c.getBI prop).values.length - 1)) false
        · rfl
        · exact absurd (by rw [h2]; simp) hout
    have h0lt : c.keyAtIdx prop 0 < keyOf val := by
      have h0le : c.keyAtIdx prop 0 ≤ keyOf val := by
        by_contra hcon
        push_neg at hcon
        exact absurd ((ltHelper_false_iff _ _).2 hcon)
          (by rw [hsplit.1]; simp)
      exact lt_of_le_of_ne h0le (hhole 0 (by omega))
    have hlastgt : keyOf val < c.keyAtIdx prop
        ((c.getBI prop).values.length - 1) := by
      have hge : keyOf val ≤ c.keyAtIdx prop
          ((c.getBI prop).values.length - 1) := by
        by_contra hcon
        push_neg at hcon
        exact absurd ((gtHelper_false_iff _ _).2 hcon)
          (by rw [hsplit.2]; simp)
      exact lt_of_le_of_ne hge (Ne.symm (hhole _ (by omega)))
    have hex : ∃ i, keyOf val < c.keyAtIdx prop i :=
      ⟨(c.getBI prop).values.length - 1, hlastgt⟩
    set r := Nat.find hex with hrdef
    have hrP : keyOf val < c.keyAtIdx prop r := Nat.find_spec hex
    have hrmin : ∀ i, i < r → ¬ keyOf val < c.keyAtIdx prop i :=
      fun i hi => Nat.find_min hex hi
    have hrle : r ≤ (c.getBI prop).values.length - 1 :=
      Nat.find_min' hex hlastgt
    have hrpos : 0 < r := by
      rcases Nat.eq_zero_or_pos r with h0 | h0
      · rw [h0] at hrP
        exact absurd hrP (not_lt.2 h0lt.le)
      · exact h0
    have hbelow : ∀ i, i < r → c.keyAtIdx prop i < keyOf val := by
      intro i hi
      have hne := hhole i (by omega)
      have hnl := hrmin i hi
      rcases lt_trichotomy (c.keyAtIdx prop i) (keyOf val) with h | h | h
      · exact h
      · exact absurd h hne
      · exact absurd h hnl
    have hstart := rangeStart_of_hole_mid c prop val false r hs
      (by omega) hrP hbelow
    simp only [if_neg Bool.false_ne_true] at hstart
    have hcast : ((r : Nat) : Int) - 1 = ((r - 1 : Nat) : Int) := by omega
    have hlval : aeqHelper (c.valAtI prop (((r : Nat) : Int) - 1)) val =
        false := by
      rw [hcast, valAtI_ofNat]
      refine Bool.eq_false_iff.2 (fun hc => ?_)
      exact absurd ((aeqHelper_iff _ _).1 hc)
        (ne_of_lt (hbelow (r - 1) (by omega)))
    rcases hop with rfl | rfl | rfl <;>
      · unfold Coll.calculateRange
        rw [if_neg hdata]
        simp [hmaxval, hsplit.1, hsplit.2, hstart, hlval]



/-- The positions of the binary index whose key equals the queried key. -/
def eqKeyPred (c : Coll) (prop : String) (val : JSVal) (i : Nat) : Prop :=
  c.keyAtIdx prop i = keyOf val

instance (c : Coll) (prop : String) (val : JSVal) :
    DecidablePred (eqKeyPred c prop val) :=
  fun _ => inferInstanceAs (Decidable (_ = _))

/-- `calculateRange` for `$gt` returns the empty range `[0, -1]` when no
indexed value is strictly greater than the queried value. -/
theorem calculateRange_gt_empty (c : Coll) (prop : String) (val : JSVal)
    (hs : c.IndexSorted prop)
    (hdata : ¬ c.data.length = 0)
    (hlen : (c.getBI prop).values.length ≠ 0)
    (hall : ∀ i, i < (c.getBI prop).values.length →
      gtHelper (c.valAtIdx prop i) val false = false) :
    c.calculateRange .gt prop val = (0, -1) := by
  have hmaxval : c.valAtI prop (((c.getBI prop).values.length : Int) - 1) =
      c.valAtIdx prop ((c.getBI prop).values.length - 1) := by
    have hc : ((c.getBI prop).values.length : Int) - 1 =
        (((c.getBI prop).values.length - 1 : Nat) : Int) := by omega
    rw [hc, valAtI_ofNat]
  have hmle : c.keyAtIdx prop ((c.getBI prop).values.length - 1) ≤
      keyOf val := by
    by_contra hcon
    push_neg at hcon
    exact absurd ((gtHelper_false_iff _ _).2 hcon)
      (by rw [hall _ (by omega)]; simp)
  have hout : gtHelper val
      (c.valAtIdx prop ((c.getBI prop).values.length - 1)) true = true :=
    (gtHelper_true_iff _ _).2 hmle
  unfold Coll.calculateRange
  rw [if_neg hdata]
  simp [hmaxval, hout]

/-- `calculateRange` for `$gt` when the queried value is present in the
index and is not comparator-greater-or-equal to the maximum indexed value:
the result is `[ubound + 1, max]` with `ubound` the `calculateRangeEnd`
position. -/
theorem calculateRange_gt_found (c : Coll) (prop : String) (val : JSVal)
    (hs : c.IndexSorted prop)
    (hdata : ¬ c.data.length = 0)
    (hlen : (c.getBI prop).values.length ≠ 0)
    (hpresent : ∃ i, i < (c.getBI prop).values.length ∧
      aeqHelper (c.valAtIdx prop i) val = true)
    (hnotmax : gtHelper val
      (c.valAtIdx prop ((c.getBI prop).values.length - 1)) true = false) :
    c.calculateRange .gt prop val =
      (c.calculateRangeEnd prop val + 1,
       ((c.getBI prop).values.length : Int) - 1) := by
  obtain ⟨i₀, hi₀, hKi₀⟩ := hpresent
  have hKi₀' : c.keyAtIdx prop i₀ = keyOf val := (aeqHelper_iff _ _).1 hKi₀
  have hmaxgt : keyOf val < c.keyAtIdx prop
      ((c.getBI prop).values.length - 1) := by
    by_contra hcon
    push_neg at hcon
    exact absurd ((gtHelper_true_iff _ _).2 hcon)
      (by rw [hnotmax]; simp)
  have hmaxval : c.valAtI prop (((c.getBI prop).values.length : Int) - 1) =
      c.valAtIdx prop ((c.getBI prop).values.length - 1) := by
    have hc : ((c.getBI prop).values.length : Int) - 1 =
        (((c.getBI prop).values.length - 1 : Nat) : Int) := by omega
    rw [hc, valAtI_ofNat]
  have h0le : c.keyAtIdx prop 0 ≤ keyOf val :=
    hKi₀' ▸ hs.keyMono 0 i₀ (Nat.zero_le _) hi₀
  have hnotmin : gtHelper (c.valAtIdx prop 0) val false = false := by
    refine Bool.eq_false_iff.2 (fun hc => ?_)
    exact absurd ((gtHelper_false_iff _ _).1 hc) (not_lt.2 h0le)
  set L := Nat.findGreatest (eqKeyPred c prop val)
    ((c.getBI prop).values.length - 1) with hLdef
  have hKL0 : eqKeyPred c prop val L :=
    Nat.findGreatest_spec
      (show i₀ ≤ (c.getBI prop).values.length - 1 by omega)
      (show eqKeyPred c prop val i₀ from hKi₀')
  have hKL : c.keyAtIdx prop L = keyOf val := hKL0
  have hLle : L ≤ (c.getBI prop).values.length - 1 := Nat.findGreatest_le _
  have hLlt : L < (c.getBI prop).values.length - 1 := by
    rcases lt_or_eq_of_le hLle with h | h
    · exact h
    · exfalso
      rw [h] at hKL
      exact absurd hKL (ne_of_gt hmaxgt)
  have hafter : ∀ i, L < i → i < (c.getBI prop).values.length →
      keyOf val < c.keyAtIdx prop i := by
    intro i hLi hi
    have hne : c.keyAtIdx prop i ≠ keyOf val :=
      show ¬ eqKeyPred c prop val i from
        Nat.findGreatest_is_greatest hLi (by omega)
    have hge : keyOf val ≤ c.keyAtIdx prop i :=
      hKL ▸ hs.keyMono L i hLi.le hi
    exact lt_of_le_of_ne hge (Ne.symm hne)
  have hend := rangeEnd_of_present c prop val L hs (by omega) hKL hafter
  have hlval : aeqHelper (c.valAtI prop ((L : Nat) : Int)) val = true := by
    rw [valAtI_ofNat]
    exact (aeqHelper_iff _ _).2 hKL
  unfold Coll.calculateRange
  rw [if_neg hdata]
  simp [hmaxval, hnotmax, hnotmin, hend, hlval]

/-- `calculateRange` for `$gt` when the queried value is a hole strictly
inside the indexed range: the result is `[ubound, max]` with `ubound` the
`calculateRangeEnd` position. -/
theorem calculateRange_gt_hole (c : Coll) (prop : String) (val : JSVal)
    (hs : c.IndexSorted prop)
    (hdata : ¬ c.data.length = 0)
    (hlen : (c.getBI prop).values.length ≠ 0)
    (hhole : ∀ i, i < (c.getBI prop).values.length →
      aeqHelper (c.valAtIdx prop i) val = false)
    (hnotmax : gtHelper val
      (c.valAtIdx prop ((c.getBI prop).values.length - 1)) true = false)
    (hnotmin : gtHelper (c.valAtIdx prop 0) val false = false) :
    c.calculateRange .gt prop val =
      (c.calculateRangeEnd prop val,
       ((c.getBI prop).values.length : Int) - 1) := by
  have hmaxgt : keyOf val < c.keyAtIdx prop
      ((c.getBI prop).values.length - 1) := by
    by_contra hcon
    push_neg at hcon
    exact absurd ((gtHelper_true_iff _ _).2 hcon)
      (by rw [hnotmax]; simp)
  have h0le : c.keyAtIdx prop 0 ≤ keyOf val := by
    by_contra hcon
    push_neg at hcon
    exact absurd ((gtHelper_false_iff _ _).2 hcon)
      (by rw [hnotmin]; simp)
  have hne : ∀ i, i < (c.getBI prop).values.length →
      c.keyAtIdx prop i ≠ keyOf val := by
    intro i hi hc
    exact absurd ((aeqHelper_iff _ _).2 hc)
      (by rw [hhole i hi]; simp)
  have hmaxval : c.valAtI prop (((c.getBI prop).values.length : Int) - 1) =
      c.valAtIdx prop ((c.getBI prop).values.length - 1) := by
    have hc : ((c.getBI prop).values.length : Int) - 1 =
        (((c.getBI prop).values.length - 1 : Nat) : Int) := by omega
    rw [hc, valAtI_ofNat]
  have hex : ∃ i, keyOf val < c.keyAtIdx prop i :=
    ⟨(c.getBI prop).values.length - 1, hmaxgt⟩
  set r := Nat.find hex with hrdef
  have hrP : keyOf val < c.keyAtIdx prop r := Nat.find_spec hex
  have hrmin : ∀ i, i < r → ¬ keyOf val < c.keyAtIdx prop i :=
    fun i hi => Nat.find_min hex hi
  have hrle : r ≤ (c.getBI prop).values.length - 1 :=
    Nat.find_min' hex hmaxgt
  have h0lt : c.keyAtIdx prop 0 < keyOf val :=
    lt_of_le_of_ne h0le (hne 0 (by omega))
  have hrpos : 0 < r := by
    rcases Nat.eq_zero_or_pos r with h0 | h0
    · rw [h0] at hrP
      exact absurd hrP (not_lt.2 h0lt.le)
    · exact h0
  have hbelow : ∀ i, i < r → c.keyAtIdx prop i < keyOf val := by
    intro i hi
    rcases lt_trichotomy (c.keyAtIdx prop i) (keyOf val) with h | h | h
    · exact h
    · exact absurd h (hne i (by omega))
    · exact absurd h (hrmin i hi)
  have hend := rangeEnd_of_hole_mid c prop val r hs (by omega) hrpos
    hbelow hrP
  have huval : aeqHelper (c.valAtI prop ((r : Nat) : Int)) val = false := by
    rw [valAtI_ofNat]
    refine Bool.eq_false_iff.2 (fun hc => ?_)
    exact absurd ((aeqHelper_iff _ _).1 hc) (ne_of_gt hrP)
  unfold Coll.calculateRange
  rw [if_neg hdata]
  simp [hmaxval, hnotmax, hnotmin, hend, huval]


/-! ## Claim C3 -/

/-- A concrete collection with documents `{v:1},{v:2},{v:3}` and a clean
binary index on `v`. -/
def C3coll : Coll :=
  { data := [⟨1, [("v", JSVal.num 1)]⟩, ⟨2, [("v", JSVal.num 2)]⟩,
             ⟨3, [("v", JSVal.num 3)]⟩],
    idIndex := [1, 2, 3],
    binaryIndices := [("v", ⟨[0, 1, 2], false⟩)],
    uniqueNames := [],
    uniqueIndices := [],
    maxId := 3,
    adaptiveBinaryIndices := true }

/-- Claim C3, counterexample: on the index `[1,2,3]` the queried value 3 is
a present key with `calculateRangeEnd` position 2, but `$gt` returns the
short-circuit `[0,-1]` rather than the claimed `[ubound+1, max] = [3,2]`. -/
theorem C3_counterexample :
    aeqHelper (C3coll.valAtIdx "v" 2) (JSVal.num 3) = true ∧
    C3coll.calculateRangeEnd "v" (JSVal.num 3) = 2 ∧
    C3coll.calculateRange .gt "v" (JSVal.num 3) = (0, -1) ∧
    C3coll.calculateRange .gt "v" (JSVal.num 3) ≠
      (C3coll.calculateRangeEnd "v" (JSVal.num 3) + 1, 2) := by
  refine ⟨by decide, ?_, ?_, ?_⟩ <;>
    · simp [C3coll, Coll.calculateRange, Coll.calculateRangeEnd,
        Coll.calculateRangeStart, bsearch, Coll.getBI, Coll.valAtIdx,
        Coll.valAtI, Coll.dataAt, Doc.get]
      decide


/-- Claim C3 (amended): for a collection with a sorted (non-dirty) binary
index on `p`, `calculateRange` returns `[0,-1]` when the `$gt` matching
range is empty; when the queried value is a present key that is not
comparator-greater-or-equal to the maximum indexed value, `$gt` returns
`[ubound+1, max]` with `ubound` the `calculateRangeEnd` position; and when
the value is a hole lying strictly inside the indexed range, `$gt` returns
`[ubound, max]`.  (On a present key equal to the maximum, the source
short-circuits to `[0,-1]` rather than `[ubound+1, max]`, and on a hole
below the minimum it returns `[min, max]` directly.) -/
theorem C3_gt_ranges :
    (∀ (c : Coll) (prop : String) (val : JSVal),
      c.IndexSorted prop → ¬ c.data.length = 0 →
      (c.getBI prop).values.length ≠ 0 →
      (∀ i, i < (c.getBI prop).values.length →
        gtHelper (c.valAtIdx prop i) val false = false) →
      c.calculateRange .gt prop val = (0, -1)) ∧
    (∀ (c : Coll) (prop : String) (val : JSVal),
      c.IndexSorted prop → ¬ c.data.length = 0 →
      (c.getBI prop).values.length ≠ 0 →
      (∃ i, i < (c.getBI prop).values.length ∧
        aeqHelper (c.valAtIdx prop i) val = true) →
      gtHelper val (c.valAtIdx prop ((c.getBI prop).values.length - 1))
        true = false →
      c.calculateRange .gt prop val =
        (c.calculateRangeEnd prop val + 1,
         ((c.getBI prop).values.length : Int) - 1)) ∧
    (∀ (c : Coll) (prop : String) (val : JSVal),
      c.IndexSorted prop → ¬ c.data.length = 0 →
      (c.getBI prop).values.length ≠ 0 →
      (∀ i, i < (c.getBI prop).values.length →
        aeqHelper (c.valAtIdx prop i) val = false) →
      gtHelper val (c.valAtIdx prop ((c.getBI prop).values.length - 1))
        true = false →
      gtHelper (c.valAtIdx prop 0) val false = false →
      c.calculateRange .gt prop val =
        (c.calculateRangeEnd prop val,
         ((c.getBI prop).values.length : Int) - 1)) :=
  ⟨fun c prop val hs hd hl hall =>
      calculateRange_gt_empty c prop val hs hd hl hall,
   fun c prop val hs hd hl hp hm =>
      calculateRange_gt_found c prop val hs hd hl hp hm,
   fun c prop val hs hd hl hh hm hn =>
      calculateRange_gt_hole c prop val hs hd hl hh hm hn⟩

/-- Witness for C3: the amended range theorem applied to the concrete
collection `C3coll` with query value 2 (a present key below the maximum):
the returned range is `[ubound+1, max] = [2, 2]`. -/
theorem C3_gt_ranges_witness :
    C3coll.calculateRange .gt "v" (JSVal.num 2) =
      (C3coll.calculateRangeEnd "v" (JSVal.num 2) + 1,
       ((C3coll.getBI "v").values.length : Int) - 1) :=
  C3_gt_ranges.2.1 C3coll "v" (JSVal.num 2)
    (by
      intro i hi
      have h2 : i < 2 := by
        have := hi
        simp [C3coll, Coll.getBI] at this
        omega
      interval_cases i <;> decide)
    (by decide) (by decide)
    ⟨1, by decide, by decide⟩ (by decide)


/-! ## Collection operations -/

/-- `Collection.prototype.flagBinaryIndexesDirty`. -/
def Coll.flagBinaryIndexesDirty (c : Coll) : Coll :=
  { c with binaryIndices :=
      c.binaryIndices.map (fun kv => (kv.1, { kv.2 with dirty := true })) }

/-- Embedding of `Collection.prototype.getBinaryIndexPosition` of
`src/unnamed/part_001`: an `$eq` range search for the documents own value
followed by a linear scan of the range for the exact data position. -/
def Coll.getBinaryIndexPosition (c : Coll) (dataPosition : Nat)
    (name : String) : Option Nat :=
  let val := (c.dataAt dataPosition).get name
  let range := c.calculateRange .eq name val
  if range.1 = 0 ∧ range.2 = -1 then none
  else
    (List.range' range.1.toNat (range.2 + 1 - range.1).toNat).find?
      (fun idx => (c.getBI name).values.getD idx 0 == dataPosition)

/-- Embedding of `Collection.prototype.adaptiveBinaryIndexInsert` of
`src/unnamed/part_001` (the `serializableIndices` date conversion has no
effect in a model without date values). -/
def Coll.adaptiveBinaryIndexInsert (c : Coll) (dataPosition : Nat)
    (name : String) : Coll :=
  let bi := c.getBI name
  let val := (c.dataAt dataPosition).get name
  let idxPos : Int :=
    if bi.values.length = 0 then 0 else c.calculateRangeStart name val true
  c.setBI name { bi with values := bi.values.insertIdx idxPos.toNat dataPosition }

/-- Embedding of the single-position path of
`Collection.prototype.adaptiveBinaryIndexRemove` of `src/unnamed/part_001`
(the batch branch and the `removedFromIndexOnly` flag are outside the
verified claims): splice out the index position of the document, then
decrement every stored position greater than the removed data position. -/
def Coll.adaptiveBinaryIndexRemove (c : Coll) (dataPosition : Nat)
    (name : String) : Coll :=
  match c.getBinaryIndexPosition dataPosition name with
  | none => c
  | some idxPos =>
      let bi := c.getBI name
      let vals := (bi.values.eraseIdx idxPos).map
        (fun v => if dataPosition < v then v - 1 else v)
      c.setBI name { bi with values := vals }

/-- The argument of `Collection.prototype.get`: a JavaScript number
(including non-integers and `NaN`) or a string. -/
inductive IdArg where
  | num (q : ℚ)
  | nan
  | str (s : String)
deriving DecidableEq

/-- `typeof id === 'number' ? id : parseInt(id, 10)`, with `parseInt`
modelled on exact integer literals; `none` stands for `NaN`. -/
def parseId : IdArg → Option ℚ
  | .num q => some q
  | .nan => none
  | .str s => (s.toInt?).map (fun n => (n : ℚ))

/-- Embedding of `Collection.prototype.get(id, returnPosition)` of
`src/unnamed/part_001`.  The result always carries the position; the
source's `returnPosition` flag only selects between returning the document
alone and the `[document, position]` pair.  The loop guard
`data[min] < data[max]` of the source coincides with `min < max` whenever
`idIndex` is strictly ascending, which every claim about `get`
hypothesises, and both formulations return null on an empty index. -/
def Coll.getByIdPos (c : Coll) (arg : IdArg) :
    Except String (Option (Doc × Nat)) :=
  match parseId arg with
  | none => .error "Passed id is not an integer"
  | some q =>
      let ids := c.idIndex
      if ids.length = 0 then .ok none
      else
        let r := bsearch (fun i => ! decide (((ids.getD i 0 : Int) : ℚ) < q))
          0 (ids.length - 1)
        if ((ids.getD r 0 : Int) : ℚ) = q then .ok (some (c.dataAt r, r))
        else .ok none

/-- The unique-index removal loop of `Collection.prototype.remove`: for
each unique field with a non-null document value, remove the key from the
(existing) unique index. -/
def Coll.removeUniques (c : Coll) (doc : Doc) :
    Except String (List (String × UniqueIndex)) :=
  c.uniqueNames.foldlM (fun acc key =>
    let v := doc.get key
    if v ≠ .null ∧ v ≠ .undef then
      match acc.find? (fun kv => kv.1 == key) with
      | some kv =>
          match kv.2.remove v with
          | .error e => .error e
          | .ok u =>
              .ok (acc.map (fun kv2 => if kv2.1 == key then (kv2.1, u) else kv2))
      | none => .ok acc
    else .ok acc) c.uniqueIndices

/-- Embedding of `Collection.prototype.remove` of `src/unnamed/part_001`
for a numeric `$loki` argument, on a (model-default) non-transactional
collection with no dynamic views: resolve the position via `get`, remove
unique keys, adaptively update every binary index (or flag all dirty),
then splice `data` and `idIndex` in parallel.  The throw/null paths of the
source (missing document, failing unique removal) are collapsed to
`none`. -/
def Coll.removeById (c : Coll) (id : Int) : Option (Doc × Coll) :=
  match c.getByIdPos (.num (id : ℚ)) with
  | .error _ => none
  | .ok none => none
  | .ok (some (doc, position)) =>
      match c.removeUniques doc with
      | .error _ => none
      | .ok uniques =>
          let c1 := { c with uniqueIndices := uniques }
          let c2 := if c1.adaptiveBinaryIndices then
              c1.binaryIndices.foldl
                (fun acc kv => acc.adaptiveBinaryIndexRemove position kv.1) c1
            else c1.flagBinaryIndexesDirty
          some (doc, { c2 with data := c2.data.eraseIdx position,
                               idIndex := c2.idIndex.eraseIdx position })

/-- A document as passed to `insert`/`add`: possibly already carrying a
`$loki` property. -/
structure PDoc where
  loki : Option Int
  fields : List (String × JSVal)
deriving DecidableEq, Repr

/-- `Collection.prototype.ensureUniqueIndex`, reached from `add` through
`getUniqueIndex(field, true)`: return the existing index, or build one by
scanning `data` (propagating any duplicate-key throw). -/
def Coll.ensureUniqueIndex (c : Coll) (field : String) :
    Except String (UniqueIndex × Coll) :=
  match c.uniqueIndices.find? (fun kv => kv.1 == field) with
  | some kv => .ok (kv.2, c)
  | none =>
      match c.data.foldlM (fun u d => u.set d) (UniqueIndex.mk field [] []) with
      | .error e => .error e
      | .ok u =>
          let names := if c.uniqueNames.contains field then c.uniqueNames
            else c.uniqueNames ++ [field]
          .ok (u, { c with uniqueIndices := c.uniqueIndices ++ [(field, u)],
                           uniqueNames := names })

/-- The unique-index insertion loop of `Collection.prototype.add`:
`getUniqueIndex(name, true).set(obj)` for each unique field, stopping at
the first throw and keeping the partial updates, as the source does. -/
def addUniquesGo (names : List String) (c : Coll) (obj : Doc) :
    Except String Unit × Coll :=
  match names with
  | [] => (.ok (), c)
  | key :: rest =>
      match c.ensureUniqueIndex key with
      | .error e => (.error e, c)
      | .ok (u, c1) =>
          match u.set obj with
          | .error e => (.error e, c1)
          | .ok u2 =>
              let us := c1.uniqueIndices.map
                (fun kv => if kv.1 == key then (kv.1, u2) else kv)
              addUniquesGo rest { c1 with uniqueIndices := us } obj

/-- Embedding of `Collection.prototype.add` of `src/unnamed/part_001` on a
(model-default) non-transactional collection with `disableMeta`, no
cloning and no dynamic views: reject documents that already carry `$loki`;
assign `$loki = ++maxId` (the `isNaN` fallback cannot fire on integer
ids); run the unique indices; push into `idIndex` and `data`; then either
adaptively insert the new position into every binary index or flag them
dirty.  On a throw the state after the (no-op) rollback keeps the bumped
`maxId` and the partial unique-index updates, as the source does. -/
def Coll.add (c : Coll) (pd : PDoc) : Except String Doc × Coll :=
  if pd.loki.isSome then
    (.error "Document is already in collection, please use update()", c)
  else
    let newId := c.maxId + 1
    let obj : Doc := ⟨newId, pd.fields⟩
    match addUniquesGo c.uniqueNames { c with maxId := newId } obj with
    | (.error e, c1) => (.error e, c1)
    | (.ok _, c1) =>
        let c2 := { c1 with idIndex := c1.idIndex ++ [newId],
                            data := c1.data ++ [obj] }
        let addedPos := c2.data.length - 1
        let c3 := if c2.adaptiveBinaryIndices then
            c2.binaryIndices.foldl
              (fun acc kv => acc.adaptiveBinaryIndexInsert addedPos kv.1) c2
          else c2.flagBinaryIndexesDirty
        (.ok obj, c3)

/-- `Collection.prototype.count` without a query argument. -/
def Coll.count (c : Coll) : Nat := c.data.length


/-! ## Claims C9 and C5 -/

/-- Claim C9: `Collection.add` (reached from `insert`) throws
`Document is already in collection, please use update()` for every object
that already carries a defined `$loki` property, so a document reference
returned by one insert can never be inserted a second time. -/
theorem C9_reinsert_throws :
    (∀ (c : Coll) (pd : PDoc), pd.loki.isSome →
      (c.add pd).1 =
        .error "Document is already in collection, please use update()") ∧
    (∀ (c c2 : Coll) (pd : PDoc) (d : Doc),
      (c.add pd).1 = .ok d →
      (c2.add ⟨some d.loki, d.fields⟩).1 =
        .error "Document is already in collection, please use update()") := by
  constructor
  · intro c pd h
    unfold Coll.add
    rw [if_pos h]
  · intro c c2 pd d hok
    simp [Coll.add]

/-- Witness for C9: re-adding a document that carries `$loki = 5` throws. -/
theorem C9_reinsert_throws_witness :
    (C3coll.add ⟨some 5, []⟩).1 =
      .error "Document is already in collection, please use update()" :=
  C9_reinsert_throws.1 C3coll ⟨some 5, []⟩ rfl

/-- Claim C5: with a unique constraint on field `f` whose index maps the
(string coercion of the) non-null field value of the incoming document to
an existing document, `add` throws the duplicate-key error and the
document count is unchanged. -/
theorem C5_duplicate_key :
    ∀ (c : Coll) (f : String) (pd : PDoc) (v : JSVal)
      (fu : String × UniqueIndex),
      c.uniqueNames = [f] →
      c.uniqueIndices.find? (fun kv => kv.1 == f) = some fu →
      fu.2.field = f →
      pd.loki = none →
      Doc.get ⟨c.maxId + 1, pd.fields⟩ f = v →
      v ≠ .null → v ≠ .undef →
      (kmLookup fu.2.keyMap (toStr v)).isSome →
      (c.add pd).1 = .error
        ("Duplicate key for property " ++ f ++ ": " ++ toStr v) ∧
      (c.add pd).2.count = c.count := by
  intro c f pd v fu hnames hfind hfield hloki hval hvn hvu hdup
  have hset : fu.2.set ⟨c.maxId + 1, pd.fields⟩ = .error
      ("Duplicate key for property " ++ f ++ ": " ++ toStr v) := by
    unfold UniqueIndex.set
    rw [hfield, hval]
    rw [if_pos ⟨hvn, hvu⟩, if_pos hdup]
  have hmain : c.add pd = (.error
      ("Duplicate key for property " ++ f ++ ": " ++ toStr v),
      { c with maxId := c.maxId + 1 }) := by
    unfold Coll.add
    rw [if_neg (by rw [hloki]; exact Bool.false_ne_true)]
    simp only [hnames]
    unfold addUniquesGo
    unfold Coll.ensureUniqueIndex
    simp only [hfind, hset]
  refine ⟨by rw [hmain], ?_⟩
  rw [hmain]
  rfl


/-- An empty collection with a unique constraint on `name`. -/
def C5coll0 : Coll :=
  { data := [], idIndex := [], binaryIndices := [], uniqueNames := ["name"],
    uniqueIndices := [], maxId := 0, adaptiveBinaryIndices := true }

/-- The collection after inserting `{name: "a"}`. -/
def C5coll1 : Coll := (C5coll0.add ⟨none, [("name", JSVal.str "a")]⟩).2

/-- Witness for C5: inserting a second `{name: "a"}` throws the
duplicate-key error and `count()` stays 1. -/
theorem C5_duplicate_key_witness :
    (C5coll1.add ⟨none, [("name", JSVal.str "a")]⟩).1 =
      .error "Duplicate key for property name: a" ∧
    (C5coll1.add ⟨none, [("name", JSVal.str "a")]⟩).2.count = 1 := by
  have h := C5_duplicate_key C5coll1 "name"
    ⟨none, [("name", JSVal.str "a")]⟩ (JSVal.str "a")
    ("name", ⟨"name", [("a", some ⟨1, [("name", JSVal.str "a")]⟩)],
      [(1, some "a")]⟩)
    (by decide) (by decide) (by decide) (by decide) (by decide)
    (by decide) (by decide) (by decide)
  exact ⟨h.1, by rw [h.2]; rfl⟩


/-! ## Claim C8 -/

/-- A strictly ascending id sequence, read through the defaulting accessor
used by the search loop. -/
def StrictAsc (l : List Int) : Prop :=
  ∀ i j, i < j → j < l.length → l.getD i 0 < l.getD j 0

/-- Claim C8, counterexample: `get(1.5)` does not raise the claimed
invalid-argument error: a non-integer number passes the
`typeof id === 'number'` branch untouched, `isNaN(1.5)` is false, and the
search simply misses, returning null. -/
theorem C8_counterexample :
    C3coll.getByIdPos (.num (3/2)) = .ok none ∧
    (∀ n : Int, ((3 : ℚ)/2) ≠ (n : ℚ)) := by
  constructor
  · simp [Coll.getByIdPos, parseId, bsearch, C3coll, Coll.dataAt]
    norm_num
  · intro n h
    have h2 : (3 : ℚ) = (2 : ℚ) * (n : ℚ) := by
      field_simp at h
      linarith
    have h3 : (3 : ℤ) = 2 * n := by exact_mod_cast h2
    omega

/-- The id binary search of `get` finds a present id on a strictly
ascending `idIndex`. -/
theorem getByIdPos_found (c : Coll) (id : Int) (p : Nat)
    (hasc : StrictAsc c.idIndex)
    (hp : p < c.idIndex.length)
    (hid : c.idIndex.getD p 0 = id) :
    c.getByIdPos (.num (id : ℚ)) = .ok (some (c.dataAt p, p)) := by
  have hProbe : ∀ (i : Nat),
      ((! decide (((c.idIndex.getD i 0 : Int) : ℚ) < ((id : Int) : ℚ))) = true) ↔
        ((id : Int) : ℚ) ≤ ((c.idIndex.getD i 0 : Int) : ℚ) := by
    intro i
    simp [not_lt]
  have hlen0 : ¬ c.idIndex.length = 0 := by omega
  have hb : bsearch
      (fun i => ! decide (((c.idIndex.getD i 0 : Int) : ℚ) < ((id : Int) : ℚ)))
      0 (c.idIndex.length - 1) = p := by
    apply bsearch_eq_first
    · omega
    · intro i j hi hij hj hPi
      rw [hProbe] at hPi ⊢
      rcases lt_or_eq_of_le hij with hlt | heq
      · have := hasc i j hlt (by omega)
        have hc : ((c.idIndex.getD i 0 : Int) : ℚ) ≤
            ((c.idIndex.getD j 0 : Int) : ℚ) := by exact_mod_cast this.le
        exact hPi.trans hc
      · rw [← heq]; exact hPi
    · omega
    · omega
    · intro i hi hilt
      have := hasc i p hilt hp
      rw [hid] at this
      refine Bool.eq_false_iff.2 (fun hc => ?_)
      rw [hProbe] at hc
      have hcast : ((c.idIndex.getD i 0 : Int) : ℚ) < ((id : Int) : ℚ) := by
        exact_mod_cast this
      exact absurd hc (not_le.2 hcast)
    · rw [hProbe, hid]
  have hfin : ((c.idIndex.getD p 0 : Int) : ℚ) = ((id : Int) : ℚ) := by
    exact_mod_cast congrArg (fun n : Int => (n : ℚ)) hid
  unfold Coll.getByIdPos
  simp only [parseId]
  rw [if_neg hlen0]
  simp only [hb]
  rw [if_pos hfin]

/-- Claim C8 (amended): `get` raises the invalid-argument error exactly
when the coerced id is `NaN` (a non-numeric string, or a `NaN` number); a
non-integer number is not rejected.  For integer ids on a strictly
ascending `idIndex` parallel to `data`, `get` returns the stored document
(with its position), or null when no document has that id. -/
theorem C8_get_amended :
    (∀ (c : Coll) (arg : IdArg), parseId arg = none →
      c.getByIdPos arg = .error "Passed id is not an integer") ∧
    (∀ (c : Coll) (id : Int) (p : Nat),
      StrictAsc c.idIndex →
      c.idIndex.length = c.data.length →
      (∀ i, i < c.data.length → c.idIndex.getD i 0 = (c.dataAt i).loki) →
      p < c.idIndex.length →
      c.idIndex.getD p 0 = id →
      c.getByIdPos (.num (id : ℚ)) = .ok (some (c.dataAt p, p)) ∧
        (c.dataAt p).loki = id) ∧
    (∀ (c : Coll) (id : Int),
      StrictAsc c.idIndex →
      (∀ i, i < c.idIndex.length → c.idIndex.getD i 0 ≠ id) →
      c.getByIdPos (.num (id : ℚ)) = .ok none) := by
  have hProbe : ∀ (l : List Int) (q : ℚ) (i : Nat),
      ((! decide (((l.getD i 0 : Int) : ℚ) < q)) = true) ↔
        q ≤ ((l.getD i 0 : Int) : ℚ) := by
    intro l q i
    simp [not_lt]
  refine ⟨?_, ?_, ?_⟩
  · intro c arg h
    unfold Coll.getByIdPos
    rw [h]
  · intro c id p hasc hlen hpar hp hid
    refine ⟨getByIdPos_found c id p hasc hp hid, ?_⟩
    rw [← hid, hpar p (by omega)]
  · intro c id hasc hnone
    unfold Coll.getByIdPos
    simp only [parseId]
    by_cases hlen0 : c.idIndex.length = 0
    · rw [if_pos hlen0]
    · rw [if_neg hlen0]
      have hmono : ∀ i j, 0 ≤ i → i ≤ j → j ≤ c.idIndex.length - 1 →
          ((fun i => ! decide (((c.idIndex.getD i 0 : Int) : ℚ) <
            ((id : Int) : ℚ))) i) = true →
          ((fun i => ! decide (((c.idIndex.getD i 0 : Int) : ℚ) <
            ((id : Int) : ℚ))) j) = true := by
        intro i j hi hij hj hPi
        rw [hProbe] at hPi ⊢
        rcases lt_or_eq_of_le hij with hlt | heq
        · have := hasc i j hlt (by omega)
          have hc : ((c.idIndex.getD i 0 : Int) : ℚ) ≤
              ((c.idIndex.getD j 0 : Int) : ℚ) := by exact_mod_cast this.le
          exact hPi.trans hc
        · rw [← heq]; exact hPi
      obtain ⟨ha, hbnd, hc, hd⟩ := bsearch_spec
        (fun i => ! decide (((c.idIndex.getD i 0 : Int) : ℚ) < ((id : Int) : ℚ)))
        0 (c.idIndex.length - 1) (by omega) hmono
      have hne : ¬ ((c.idIndex.getD (bsearch
          (fun i => ! decide (((c.idIndex.getD i 0 : Int) : ℚ) < ((id : Int) : ℚ)))
          0 (c.idIndex.length - 1)) 0 : Int) : ℚ) = ((id : Int) : ℚ) := by
        intro hcon
        have heq : c.idIndex.getD (bsearch
            (fun i => ! decide (((c.idIndex.getD i 0 : Int) : ℚ) < ((id : Int) : ℚ)))
            0 (c.idIndex.length - 1)) 0 = id := by exact_mod_cast hcon
        exact hnone _ (by omega) heq
      rw [if_neg hne]

/-- Witness for C8: `get(2)` on the concrete collection returns the second
document together with its position 1. -/
theorem C8_get_amended_witness :
    C3coll.getByIdPos (.num ((2 : Int) : ℚ)) =
      .ok (some (C3coll.dataAt 1, 1)) ∧ (C3coll.dataAt 1).loki = 2 :=
  C8_get_amended.2.1 C3coll 2 1
    (by
      intro i j hij hj
      have h3 : j < 3 := by simpa [C3coll] using hj
      have hi3 : i < 3 := by omega
      interval_cases i <;> interval_cases j <;> decide)
    (by decide)
    (by
      intro i hi
      have hi3 : i < 3 := by simpa [C3coll] using hi
      interval_cases i <;> decide)
    (by decide) (by decide)


/-! ## Claim C2: adaptive index removal -/

/-- The permutation invariant of a clean binary index: its `values` array
is a permutation of all data positions. -/
def Coll.ValuesPerm (c : Coll) (prop : String) : Prop :=
  (c.getBI prop).values.Perm (List.range c.data.length)

theorem Coll.ValuesPerm.values_length {c : Coll} {prop : String}
    (h : c.ValuesPerm prop) :
    (c.getBI prop).values.length = c.data.length := by
  have := h.length_eq
  simpa using this

theorem Coll.ValuesPerm.values_nodup {c : Coll} {prop : String}
    (h : c.ValuesPerm prop) : (c.getBI prop).values.Nodup :=
  h.symm.nodup (List.nodup_range _)

theorem Coll.ValuesPerm.mem_lt {c : Coll} {prop : String}
    (h : c.ValuesPerm prop) :
    ∀ v ∈ (c.getBI prop).values, v < c.data.length := by
  intro v hv
  exact List.mem_range.1 (h.subset hv)

theorem Coll.ValuesPerm.mem_values {c : Coll} {prop : String}
    (h : c.ValuesPerm prop) {k : Nat} (hk : k < c.data.length) :
    k ∈ (c.getBI prop).values :=
  h.mem_iff.2 (List.mem_range.2 hk)

/-- Erasing the position of the unique occurrence of an element of a
duplicate-free list is filtering the element out. -/
theorem eraseIdx_eq_filter_of_nodup {α : Type} [DecidableEq α] :
    ∀ (l : List α) (i : Nat) (a : α), l.get? i = some a → l.Nodup →
      l.eraseIdx i = l.filter (fun x => x ≠ a)
  | [], i, a, h, _ => by simp at h
  | b :: t, 0, a, h, hnd => by
      simp only [List.get?] at h
      injection h with h
      subst h
      have hb : b ∉ t := (List.nodup_cons.1 hnd).1
      simp only [List.eraseIdx, List.filter]
      have hd : (decide (b ≠ b)) = false := by simp
      rw [hd]
      rw [List.filter_eq_self.2 ?_]
      intro x hx
      simp only [ne_eq, decide_eq_true_eq]
      exact fun hxa => hb (hxa ▸ hx)
  | b :: t, i + 1, a, h, hnd => by
      simp only [List.get?] at h
      have ha : a ∈ t := by
        have := List.get?_eq_some.1 h
        obtain ⟨hlt, hget⟩ := this
        exact hget ▸ List.get_mem t _ _
      have hb : (decide (b ≠ a)) = true := by
        simp only [ne_eq, decide_eq_true_eq]
        exact fun he => (List.nodup_cons.1 hnd).1 (he ▸ ha)
      simp only [List.eraseIdx, List.filter, hb]
      rw [eraseIdx_eq_filter_of_nodup t i a h (List.nodup_cons.1 hnd).2]

/-- Completeness of `getBinaryIndexPosition` on a sorted permutation
index: the position of any document present in the collection is found,
and the returned index position stores exactly that data position. -/
theorem getBinaryIndexPosition_some (c : Coll) (prop : String) (k : Nat)
    (hs : c.IndexSorted prop) (hperm : c.ValuesPerm prop)
    (hk : k < c.data.length) :
    ∃ idx, c.getBinaryIndexPosition k prop = some idx ∧
      (c.getBI prop).values.get? idx = some k := by
  have hlen : (c.getBI prop).values.length = c.data.length :=
    hperm.values_length
  obtain ⟨p, hp⟩ := List.mem_iff_get?.1 (hperm.mem_values hk)
  have hplen : p < (c.getBI prop).values.length := by
    by_contra hcon
    push_neg at hcon
    rw [List.get?_eq_none.2 hcon] at hp
    exact Option.noConfusion hp
  set val := (c.dataAt k).get prop with hvaldef
  have hvp : c.valAtIdx prop p = val := by
    unfold Coll.valAtIdx
    rw [hp]
  have hKp : eqKeyPred c prop val p := by
    unfold eqKeyPred Coll.keyAtIdx
    rw [hvp]
  have hexF : ∃ i, eqKeyPred c prop val i := ⟨p, hKp⟩
  obtain ⟨F, hKF, hFmin, hFle⟩ :
      ∃ F, eqKeyPred c prop val F ∧
        (∀ i, i < F → ¬ eqKeyPred c prop val i) ∧ F ≤ p :=
    ⟨Nat.find hexF, Nat.find_spec hexF,
      fun i hi => Nat.find_min hexF hi, Nat.find_min' hexF hKp⟩
  obtain ⟨L, hKL, hLle, hpL, hafter⟩ :
      ∃ L, eqKeyPred c prop val L ∧
        L ≤ (c.getBI prop).values.length - 1 ∧ p ≤ L ∧
        (∀ i, L < i → i < (c.getBI prop).values.length →
          c.keyAtIdx prop i ≠ keyOf val) := by
    refine ⟨Nat.findGreatest (eqKeyPred c prop val)
      ((c.getBI prop).values.length - 1), ?_, ?_, ?_, ?_⟩
    · exact Nat.findGreatest_spec
        (show p ≤ (c.getBI prop).values.length - 1 by omega) hKp
    · exact Nat.findGreatest_le _
    · exact Nat.le_findGreatest
        (show p ≤ (c.getBI prop).values.length - 1 by omega) hKp
    · intro i hLi hi
      exact show ¬ eqKeyPred c prop val i from
        Nat.findGreatest_is_greatest hLi (by omega)
  have hrange := calculateRange_eqlike_of_present c .eq prop val F L
    (Or.inl rfl) hs (by omega) (by omega) hKF hFmin (by omega) hKL hafter
  unfold Coll.getBinaryIndexPosition
  simp only [hrange]
  have hcond : ¬ ((F : Int) = 0 ∧ (L : Int) = -1) := by
    rintro ⟨h1, h2⟩
    omega
  rw [if_neg hcond]
  have hc1 : ((F : Int)).toNat = F := by omega
  have hc2 : ((L : Int) + 1 - (F : Int)).toNat = L + 1 - F := by omega
  rw [hc1, hc2]
  have hmem : p ∈ List.range' F (L + 1 - F) := by
    rw [List.mem_range'_1]
    omega
  have hpred : ((c.getBI prop).values.getD p 0 == k) = true := by
    have hgetD : (c.getBI prop).values.getD p 0 = k := by
      unfold List.getD
      rw [hp]
      rfl
    rw [hgetD]
    exact beq_self_eq_true k
  have hsome : (List.range' F (L + 1 - F)).find?
      (fun idx => (c.getBI prop).values.getD idx 0 == k) |>.isSome := by
    rw [List.find?_isSome]
    exact ⟨p, hmem, hpred⟩
  obtain ⟨idx, hfind⟩ := Option.isSome_iff_exists.1 hsome
  refine ⟨idx, hfind, ?_⟩
  have hpredidx := List.find?_some hfind
  have hidxmem := List.mem_of_find?_eq_some hfind
  rw [List.mem_range'_1] at hidxmem
  have hidxlen : idx < (c.getBI prop).values.length := by omega
  have hgetDidx : (c.getBI prop).values.getD idx 0 = k := by
    simpa using hpredidx
  cases hq : (c.getBI prop).values.get? idx with
  | none =>
      exfalso
      rw [List.get?_eq_none] at hq
      omega
  | some x =>
      have hgd : (c.getBI prop).values.getD idx 0 = x := by
        unfold List.getD
        rw [hq]
        rfl
      rw [hgd] at hgetDidx
      exact congrArg some hgetDidx


/-- The effect of a single adaptive removal on one binary index: the data
position is filtered out of `values` and every greater stored position is
decremented. -/
def shiftRemove (k : Nat) (bi : BinaryIndex) : BinaryIndex :=
  ⟨(bi.values.filter (fun v => v ≠ k)).map
    (fun v => if k < v then v - 1 else v), bi.dirty⟩

/-- On a sorted permutation index, `adaptiveBinaryIndexRemove` removes the
data position from `values` and decrements the greater positions. -/
theorem adaptiveBinaryIndexRemove_spec (c : Coll) (k : Nat) (name : String)
    (hs : c.IndexSorted name) (hperm : c.ValuesPerm name)
    (hk : k < c.data.length) :
    c.adaptiveBinaryIndexRemove k name =
      c.setBI name (shiftRemove k (c.getBI name)) := by
  obtain ⟨idx, hfind, hget⟩ := getBinaryIndexPosition_some c name k hs hperm hk
  unfold Coll.adaptiveBinaryIndexRemove
  rw [hfind]
  simp only [shiftRemove]
  rw [eraseIdx_eq_filter_of_nodup _ idx k hget hperm.values_nodup]

/-- Looking up a name other than the replaced one is unchanged by
`setBI`. -/
theorem getBI_setBI_ne (c : Coll) (n n2 : String) (bi : BinaryIndex)
    (h : n2 ≠ n) : (c.setBI n bi).getBI n2 = c.getBI n2 := by
  unfold Coll.setBI Coll.getBI
  simp only [List.find?_map]
  have hcomp : ((fun kv : String × BinaryIndex => kv.1 == n2) ∘
      (fun kv : String × BinaryIndex =>
        if kv.1 == n then (kv.1, bi) else kv)) =
      (fun kv : String × BinaryIndex => kv.1 == n2) := by
    funext kv
    by_cases hkv : kv.1 = n <;> simp [hkv]
  rw [hcomp]
  cases hfind : c.binaryIndices.find? (fun kv => kv.1 == n2) with
  | none => rfl
  | some kv =>
      have hkv2 := List.find?_some hfind
      simp only [beq_iff_eq] at hkv2
      have hkvne : ¬ kv.1 = n := by
        rw [hkv2]
        exact h
      simp [hkvne]

/-- Every entry of an association list with duplicate-free names is found
by name. -/
theorem find?_eq_self_of_nodup :
    ∀ (l : List (String × BinaryIndex)) (kv : String × BinaryIndex),
      (l.map Prod.fst).Nodup → kv ∈ l →
      l.find? (fun e => e.1 == kv.1) = some kv
  | [], kv, _, hmem => absurd hmem (List.not_mem_nil kv)
  | e :: t, kv, hnd, hmem => by
      rcases List.mem_cons.1 hmem with rfl | hmem2
      · exact List.find?_cons_of_pos t (by simp)
      · have hne : ¬ ((fun x : String × BinaryIndex => x.1 == kv.1) e) = true := by
          simp only [beq_iff_eq]
          intro heq
          have h1 : kv.1 ∈ t.map Prod.fst := List.mem_map_of_mem Prod.fst hmem2
          exact (List.nodup_cons.1 hnd).1 (heq ▸ h1)
        rw [List.find?_cons_of_neg t hne]
        exact find?_eq_self_of_nodup t kv (List.nodup_cons.1 hnd).2 hmem2

/-- `getBI` returns the entry of a duplicate-free association list. -/
theorem getBI_of_mem (c : Coll) (kv : String × BinaryIndex)
    (hnd : (c.binaryIndices.map Prod.fst).Nodup) (hmem : kv ∈ c.binaryIndices) :
    c.getBI kv.1 = kv.2 := by
  unfold Coll.getBI
  rw [find?_eq_self_of_nodup c.binaryIndices kv hnd hmem]


theorem setBI_data (c : Coll) (n : String) (bi : BinaryIndex) :
    (c.setBI n bi).data = c.data := rfl

theorem setBI_names (c : Coll) (n : String) (bi : BinaryIndex) :
    (c.setBI n bi).binaryIndices.map Prod.fst =
      c.binaryIndices.map Prod.fst := by
  unfold Coll.setBI
  rw [List.map_map]
  apply List.map_congr_left
  intro e he
  by_cases h : e.1 = n <;> simp [h]

theorem valAtIdx_setBI_ne (c : Coll) (n n2 : String) (bi : BinaryIndex)
    (h : n2 ≠ n) (i : Nat) :
    (c.setBI n bi).valAtIdx n2 i = c.valAtIdx n2 i := by
  unfold Coll.valAtIdx
  rw [getBI_setBI_ne c n n2 bi h]
  cases h2 : (c.getBI n2).values.get? i <;> rfl

theorem IndexSorted_setBI_ne (c : Coll) (n n2 : String) (bi : BinaryIndex)
    (h : n2 ≠ n) (hs : c.IndexSorted n2) :
    (c.setBI n bi).IndexSorted n2 := by
  intro i hi
  rw [valAtIdx_setBI_ne c n n2 bi h, valAtIdx_setBI_ne c n n2 bi h]
  apply hs
  rw [getBI_setBI_ne c n n2 bi h] at hi
  exact hi

theorem ValuesPerm_setBI_ne (c : Coll) (n n2 : String) (bi : BinaryIndex)
    (h : n2 ≠ n) (hp : c.ValuesPerm n2) :
    (c.setBI n bi).ValuesPerm n2 := by
  unfold Coll.ValuesPerm
  rw [getBI_setBI_ne c n n2 bi h, setBI_data]
  exact hp


/-- Replace the whole binary-index table (a record update helper). -/
def Coll.setIndices (c : Coll) (l : List (String × BinaryIndex)) : Coll :=
  { c with binaryIndices := l }

/-- The index-maintenance loop of `remove`: folding the adaptive removal
over every binary index applies `shiftRemove` to each of them and leaves
the rest of the collection unchanged. -/
theorem removeFold_spec (k : Nat) :
    ∀ (todo : List (String × BinaryIndex)) (acc : Coll),
      k < acc.data.length →
      (acc.binaryIndices.map Prod.fst).Nodup →
      (todo.map Prod.fst).Nodup →
      (∀ kv ∈ todo, acc.getBI kv.1 = kv.2) →
      (∀ kv ∈ todo, acc.IndexSorted kv.1 ∧ acc.ValuesPerm kv.1) →
      todo.foldl (fun a kv => a.adaptiveBinaryIndexRemove k kv.1) acc =
        acc.setIndices (acc.binaryIndices.map
          (fun e => if (todo.map Prod.fst).contains e.1
            then (e.1, shiftRemove k e.2) else e))
  | [], acc, hk, hand, htnd, hget, hsp => by
      simp only [List.foldl_nil, List.map_nil, List.contains_nil,
        Bool.false_eq_true, if_false]
      unfold Coll.setIndices
      rw [List.map_id']
  | (name, bi) :: rest, acc, hk, hand, htnd, hget, hsp => by
      have hsorted := (hsp (name, bi) (List.mem_cons_self _ _)).1
      have hperm := (hsp (name, bi) (List.mem_cons_self _ _)).2
      have hstep : acc.adaptiveBinaryIndexRemove k name =
          acc.setBI name (shiftRemove k (acc.getBI name)) :=
        adaptiveBinaryIndexRemove_spec acc k name hsorted hperm hk
      rw [List.foldl_cons, hstep]
      have hnamenotin : name ∉ rest.map Prod.fst := by
        have := (List.nodup_cons.1 htnd).1
        simpa using this
      have hne : ∀ kv ∈ rest, kv.1 ≠ name := by
        intro kv hkv heq
        exact hnamenotin (heq ▸ List.mem_map_of_mem Prod.fst hkv)
      have hrec := removeFold_spec k rest
        (acc.setBI name (shiftRemove k (acc.getBI name)))
        (by rw [setBI_data]; exact hk)
        (by rw [setBI_names]; exact hand)
        ((List.nodup_cons.1 htnd).2)
        (by
          intro kv hkv
          rw [getBI_setBI_ne acc name kv.1 _ (hne kv hkv)]
          exact hget kv (List.mem_cons_of_mem _ hkv))
        (by
          intro kv hkv
          exact ⟨IndexSorted_setBI_ne acc name kv.1 _ (hne kv hkv)
              (hsp kv (List.mem_cons_of_mem _ hkv)).1,
            ValuesPerm_setBI_ne acc name kv.1 _ (hne kv hkv)
              (hsp kv (List.mem_cons_of_mem _ hkv)).2⟩)
      rw [hrec]
      have hbody : (acc.setBI name
          (shiftRemove k (acc.getBI name))).binaryIndices.map
            (fun e => if (rest.map Prod.fst).contains e.1
              then (e.1, shiftRemove k e.2) else e) =
          acc.binaryIndices.map
            (fun e => if (((name, bi) :: rest).map Prod.fst).contains e.1
              then (e.1, shiftRemove k e.2) else e) := by
        unfold Coll.setBI
        rw [List.map_map]
        apply List.map_congr_left
        intro e he
        by_cases hename : e.1 = name
        · have hbi : acc.getBI name = e.2 := by
            rw [← hename]
            exact getBI_of_mem acc e hand he
          have hcont : ((((name, bi) :: rest).map Prod.fst).contains e.1) =
              true := by
            simp [hename]
          have hrestcont : ((rest.map Prod.fst).contains e.1) = false := by
            rw [List.contains_eq_any_beq, List.any_eq_false]
            intro x hx
            simp only [beq_iff_eq]
            intro heq
            rw [← heq, hename] at hx
            exact hnamenotin hx
          simp only [Function.comp]
          rw [if_pos (by simp [hename] : (e.1 == name) = true)]
          simp only [hrestcont, Bool.false_eq_true, if_false, hcont, if_true]
          rw [hbi]
        · have hcont : ((((name, bi) :: rest).map Prod.fst).contains e.1) =
              ((rest.map Prod.fst).contains e.1) := by
            simp [List.contains_cons, hename]
          simp only [Function.comp]
          rw [if_neg (by simp [hename] : ¬ (e.1 == name) = true)]
          rw [hcont]
      rw [hbody]
      rfl


/-- Claim C2: on an adaptive collection whose binary indices are sorted
permutations and whose `idIndex` mirrors `data`, removing the document at
data position `k` removes `k` from every index's `values` array and
decrements every stored position greater than `k`, and afterwards `data`
and `idIndex` have equal length with `idIndex[i] = data[i].$loki` at every
position. -/
theorem C2_remove_adaptive :
    ∀ (c : Coll) (id : Int) (d : Doc) (k : Nat)
      (us : List (String × UniqueIndex)),
      c.adaptiveBinaryIndices = true →
      k < c.data.length →
      c.idIndex.length = c.data.length →
      (∀ i, i < c.data.length → c.idIndex.getD i 0 = (c.dataAt i).loki) →
      (c.binaryIndices.map Prod.fst).Nodup →
      (∀ kv ∈ c.binaryIndices, c.IndexSorted kv.1 ∧ c.ValuesPerm kv.1) →
      c.getByIdPos (.num (id : ℚ)) = .ok (some (d, k)) →
      c.removeUniques d = .ok us →
      ∃ c2, c.removeById id = some (d, c2) ∧
        c2.data = c.data.eraseIdx k ∧
        c2.idIndex = c.idIndex.eraseIdx k ∧
        c2.binaryIndices = c.binaryIndices.map
          (fun e => (e.1, shiftRemove k e.2)) ∧
        c2.idIndex.length = c2.data.length ∧
        (∀ i, i < c2.data.length →
          c2.idIndex.getD i 0 = (c2.dataAt i).loki) := by
  intro c id d k us hadap hk hlen hpar hnd hsp hget hun
  have hfold := removeFold_spec k c.binaryIndices
    { c with uniqueIndices := us } hk hnd hnd
    (fun kv hkv => getBI_of_mem { c with uniqueIndices := us } kv hnd hkv)
    hsp
  have hmapif : c.binaryIndices.map
      (fun e => if ((c.binaryIndices.map Prod.fst).contains e.1)
        then (e.1, shiftRemove k e.2) else e) =
      c.binaryIndices.map (fun e => (e.1, shiftRemove k e.2)) := by
    apply List.map_congr_left
    intro e he
    have hcont : ((c.binaryIndices.map Prod.fst).contains e.1) = true := by
      rw [List.contains_eq_any_beq, List.any_eq_true]
      exact ⟨e.1, List.mem_map_of_mem Prod.fst he, by simp⟩
    rw [if_pos hcont]
  rw [hmapif] at hfold
  set base := ({ c with uniqueIndices := us } : Coll).setIndices
    (c.binaryIndices.map (fun e => (e.1, shiftRemove k e.2))) with hbase
  set c2fin : Coll := { base with data := c.data.eraseIdx k, idIndex := c.idIndex.eraseIdx k } with hc2fin
  refine ⟨c2fin, ?_, rfl, rfl, rfl, ?_, ?_⟩
  · unfold Coll.removeById
    rw [hget]
    simp only []
    rw [hun]
    simp only [hfold]
    have hadap2 : ({ c with uniqueIndices := us } : Coll).adaptiveBinaryIndices = true := hadap
    rw [if_pos hadap2]
    rfl
  · have h1 : (c.data.eraseIdx k).length = c.data.length - 1 :=
      List.length_eraseIdx_of_lt hk
    have h2 : (c.idIndex.eraseIdx k).length = c.idIndex.length - 1 :=
      List.length_eraseIdx_of_lt (by omega)
    show (c.idIndex.eraseIdx k).length = (c.data.eraseIdx k).length
    omega
  · intro i hi
    have hlen1 : (c.data.eraseIdx k).length = c.data.length - 1 :=
      List.length_eraseIdx_of_lt hk
    have hi2 : i < c.data.length - 1 := by
      have : i < (c.data.eraseIdx k).length := hi
      omega
    show (c.idIndex.eraseIdx k).getD i 0 =
      ((c.data.eraseIdx k).getD i emptyDoc).loki
    rw [List.getD_eq_getElem?_getD, List.getD_eq_getElem?_getD,
      List.getElem?_eraseIdx, List.getElem?_eraseIdx]
    by_cases hik : i < k
    · rw [if_pos hik, if_pos hik]
      have := hpar i (by omega)
      rw [List.getD_eq_getElem?_getD] at this
      rw [this]
      unfold Coll.dataAt
      rw [List.getD_eq_getElem?_getD]
    · rw [if_neg hik, if_neg hik]
      have := hpar (i + 1) (by omega)
      rw [List.getD_eq_getElem?_getD] at this
      rw [this]
      unfold Coll.dataAt
      rw [List.getD_eq_getElem?_getD]


/-- Witness for C2: removing the document with `$loki = 2` (data position
1) from the concrete collection. -/
theorem C2_remove_adaptive_witness :
    ∃ c2, C3coll.removeById 2 = some (⟨2, [("v", JSVal.num 2)]⟩, c2) ∧
      c2.data = C3coll.data.eraseIdx 1 ∧
      c2.idIndex = C3coll.idIndex.eraseIdx 1 ∧
      c2.binaryIndices = C3coll.binaryIndices.map
        (fun e => (e.1, shiftRemove 1 e.2)) ∧
      c2.idIndex.length = c2.data.length ∧
      (∀ i, i < c2.data.length →
        c2.idIndex.getD i 0 = (c2.dataAt i).loki) :=
  C2_remove_adaptive C3coll 2 ⟨2, [("v", JSVal.num 2)]⟩ 1 []
    rfl (by decide) (by decide)
    (by
      intro i hi
      have h3 : i < 3 := by simpa [C3coll] using hi
      interval_cases i <;> decide)
    (by decide)
    (by
      intro kv hkv
      have hkv2 : kv = ("v", (⟨[0, 1, 2], false⟩ : BinaryIndex)) := by
        simpa [C3coll] using hkv
      subst hkv2
      constructor
      · intro i hi
        have h2 : i < 2 := by
          have := hi
          simp [C3coll, Coll.getBI] at this
          omega
        interval_cases i <;> decide
      · unfold Coll.ValuesPerm
        show ([0, 1, 2] : List Nat).Perm (List.range C3coll.data.length)
        rw [show C3coll.data.length = 3 from rfl,
          show List.range 3 = [0, 1, 2] from rfl])
    (by simp [Coll.getByIdPos, parseId, bsearch, C3coll, Coll.dataAt])
    rfl



/-! ## Claim C4: insert followed by remove -/

/-- `valAtIdx` only depends on the index entry and the data array. -/
theorem valAtIdx_congr (c c' : Coll) (n : String)
    (hbi : c'.getBI n = c.getBI n) (hd : c'.data = c.data) (i : Nat) :
    c'.valAtIdx n i = c.valAtIdx n i := by
  unfold Coll.valAtIdx Coll.dataAt
  rw [hbi, hd]

theorem IndexSorted_congr (c c' : Coll) (n : String)
    (hbi : c'.getBI n = c.getBI n) (hd : c'.data = c.data)
    (hs : c.IndexSorted n) : c'.IndexSorted n := by
  intro i hi
  rw [valAtIdx_congr c c' n hbi hd, valAtIdx_congr c c' n hbi hd]
  exact hs i (by rwa [hbi] at hi)

theorem ValuesPerm_congr (c c' : Coll) (n : String)
    (hbi : c'.getBI n = c.getBI n) (hd : c'.data = c.data)
    (hp : c.ValuesPerm n) : c'.ValuesPerm n := by
  unfold Coll.ValuesPerm
  rw [hbi, hd]
  exact hp

theorem getBI_eq_of_bI (c c' : Coll) (h : c'.binaryIndices = c.binaryIndices)
    (n : String) : c'.getBI n = c.getBI n := by
  unfold Coll.getBI
  rw [h]

/-- Appending documents does not change the values seen through an index
whose positions all lie in the original data. -/
theorem valAtIdx_extend (c c' : Coll) (n : String) (ex : List Doc)
    (hbi : c'.getBI n = c.getBI n) (hd : c'.data = c.data ++ ex)
    (hlt : ∀ v ∈ (c.getBI n).values, v < c.data.length) (i : Nat) :
    c'.valAtIdx n i = c.valAtIdx n i := by
  unfold Coll.valAtIdx
  rw [hbi]
  cases hv : (c.getBI n).values.get? i with
  | none => rfl
  | some dp =>
      have hmem : dp ∈ (c.getBI n).values := List.get?_mem hv
      have hdp := hlt dp hmem
      show (c'.dataAt dp).get n = (c.dataAt dp).get n
      unfold Coll.dataAt
      rw [hd, List.getD_append _ _ _ _ hdp]

theorem IndexSorted_extend (c c' : Coll) (n : String) (ex : List Doc)
    (hbi : c'.getBI n = c.getBI n) (hd : c'.data = c.data ++ ex)
    (hlt : ∀ v ∈ (c.getBI n).values, v < c.data.length)
    (hs : c.IndexSorted n) : c'.IndexSorted n := by
  intro i hi
  rw [valAtIdx_extend c c' n ex hbi hd hlt,
    valAtIdx_extend c c' n ex hbi hd hlt]
  exact hs i (by rwa [hbi] at hi)

/-- Replacing an existing entry is seen by `getBI`. -/
theorem getBI_setBI_self (c : Coll) (n : String) (bi : BinaryIndex)
    (hmem : n ∈ c.binaryIndices.map Prod.fst) :
    (c.setBI n bi).getBI n = bi := by
  unfold Coll.setBI Coll.getBI
  simp only [List.find?_map]
  have hcomp : ((fun kv : String × BinaryIndex => kv.1 == n) ∘
      (fun kv : String × BinaryIndex =>
        if kv.1 == n then (kv.1, bi) else kv)) =
      (fun kv : String × BinaryIndex => kv.1 == n) := by
    funext kv
    by_cases hkv : kv.1 = n <;> simp [hkv]
  rw [hcomp]
  obtain ⟨kv, hkvmem, hkv1⟩ := List.mem_map.1 hmem
  cases hfind : c.binaryIndices.find? (fun kv => kv.1 == n) with
  | none =>
      have hnone := List.find?_eq_none.1 hfind kv hkvmem
      exact absurd (by simp [hkv1]) hnone
  | some e =>
      have he1 := List.find?_some hfind
      simp only [beq_iff_eq] at he1
      simp [he1]

/-- Replacing the entry of one key in an association list does not change
lookups of other keys. -/
theorem find?_map_replace {β : Type} (l : List (String × β)) (key n2 : String)
    (u : β) (h : n2 ≠ key) :
    (l.map (fun e => if e.1 == key then (e.1, u) else e)).find?
        (fun e => e.1 == n2) =
      l.find? (fun e => e.1 == n2) := by
  rw [List.find?_map]
  have hcomp : ((fun e : String × β => e.1 == n2) ∘
      (fun e : String × β => if e.1 == key then (e.1, u) else e)) =
      (fun e : String × β => e.1 == n2) := by
    funext e
    by_cases he : e.1 = key <;> simp [he]
  rw [hcomp]
  cases hfind : l.find? (fun e => e.1 == n2) with
  | none => rfl
  | some e =>
      have he1 := List.find?_some hfind
      simp only [beq_iff_eq] at he1
      have hne : ¬ e.1 = key := by rw [he1]; exact h
      simp [hne]

/-- Replacing the entry of a key is seen by a lookup of that key. -/
theorem find?_map_replace_self {β : Type} (l : List (String × β))
    (key : String) (u : β) (e0 : String × β)
    (hfind : l.find? (fun e => e.1 == key) = some e0) :
    (l.map (fun e => if e.1 == key then (e.1, u) else e)).find?
        (fun e => e.1 == key) = some (e0.1, u) := by
  rw [List.find?_map]
  have hcomp : ((fun e : String × β => e.1 == key) ∘
      (fun e : String × β => if e.1 == key then (e.1, u) else e)) =
      (fun e : String × β => e.1 == key) := by
    funext e
    by_cases he : e.1 = key <;> simp [he]
  rw [hcomp, hfind]
  have he1 := List.find?_some hfind
  simp only [beq_iff_eq] at he1
  simp [he1]

/-- Erasing the final position of an appended singleton restores the
list. -/
theorem eraseIdx_append_length {α : Type} :
    ∀ (l : List α) (a : α), (l ++ [a]).eraseIdx l.length = l
  | [], _ => rfl
  | x :: t, a => by
      simpa using eraseIdx_append_length t a

theorem getD_append_self {α : Type} (l : List α) (a d : α) :
    (l ++ [a]).getD l.length d = a := by
  rw [List.getD_append_right _ _ _ _ (le_refl _)]
  simp

/-- A strictly ascending id list stays strictly ascending after appending
a strictly larger id. -/
theorem strictAsc_append (l : List Int) (a : Int)
    (h : StrictAsc l) (ha : ∀ i, i < l.length → l.getD i 0 < a) :
    StrictAsc (l ++ [a]) := by
  intro i j hij hj
  have hjlen : j < l.length + 1 := by simpa using hj
  by_cases hjl : j < l.length
  · rw [List.getD_append _ _ _ _ (by omega), List.getD_append _ _ _ _ hjl]
    exact h i j hij hjl
  · have hj2 : j = l.length := by omega
    subst hj2
    rw [List.getD_append _ _ _ _ (by omega), getD_append_self]
    exact ha i (by omega)

/-- Strictly greater key at an index position (to locate the first
strictly greater element). -/
def gtKeyPred (c : Coll) (prop : String) (val : JSVal) (i : Nat) : Prop :=
  keyOf val < c.keyAtIdx prop i

instance (c : Coll) (prop : String) (val : JSVal) :
    DecidablePred (gtKeyPred c prop val) :=
  fun _ => inferInstanceAs (Decidable (_ < _))

/-- The adaptive insertion position (`calculateRangeStart` in adaptive
mode, or 0 on an empty index) splits a sorted index into a prefix of keys
at most the queried key and a suffix of keys at least it. -/
theorem rangeStart_adaptive_bounds (c : Coll) (prop : String) (val : JSVal)
    (hs : c.IndexSorted prop) :
    ∃ n : Nat,
      (if (c.getBI prop).values.length = 0 then (0 : Int)
        else c.calculateRangeStart prop val true) = (n : Int) ∧
      n ≤ (c.getBI prop).values.length ∧
      (∀ i, i < n → c.keyAtIdx prop i ≤ keyOf val) ∧
      (∀ i, n ≤ i → i < (c.getBI prop).values.length →
        keyOf val ≤ c.keyAtIdx prop i) := by
  by_cases hlen : (c.getBI prop).values.length = 0
  · exact ⟨0, by rw [if_pos hlen]; simp, by omega,
      fun i hi => absurd hi (by omega),
      fun i hni hi => absurd hi (by omega)⟩
  · rw [if_neg hlen]
    by_cases hpres : ∃ i, i < (c.getBI prop).values.length ∧
        eqKeyPred c prop val i
    · obtain ⟨i₀, hi₀, heq₀⟩ := hpres
      have hex : ∃ i, eqKeyPred c prop val i := ⟨i₀, heq₀⟩
      have hFeq : eqKeyPred c prop val (Nat.find hex) := Nat.find_spec hex
      have hFeq' : c.keyAtIdx prop (Nat.find hex) = keyOf val := hFeq
      have hFle : Nat.find hex ≤ i₀ := Nat.find_le heq₀
      have hFL : Nat.find hex < (c.getBI prop).values.length := by omega
      have hfirst : ∀ i, i < Nat.find hex →
          c.keyAtIdx prop i ≠ keyOf val := by
        intro i hi
        exact Nat.find_min hex hi
      have hrs := rangeStart_of_present c prop val true (Nat.find hex)
        hs hFL hFeq' hfirst
      refine ⟨Nat.find hex, hrs, by omega, ?_, ?_⟩
      · intro i hi
        have hle : c.keyAtIdx prop i ≤ c.keyAtIdx prop (Nat.find hex) :=
          hs.keyMono i (Nat.find hex) (le_of_lt hi) hFL
        rw [hFeq'] at hle
        exact hle
      · intro i hni hi
        have hle : c.keyAtIdx prop (Nat.find hex) ≤ c.keyAtIdx prop i :=
          hs.keyMono (Nat.find hex) i hni hi
        rw [hFeq'] at hle
        exact hle
    · by_cases hgt : ∃ i, i < (c.getBI prop).values.length ∧
          gtKeyPred c prop val i
      · obtain ⟨i₀, hi₀, hgt₀⟩ := hgt
        have hex : ∃ i, gtKeyPred c prop val i := ⟨i₀, hgt₀⟩
        have hrgt : gtKeyPred c prop val (Nat.find hex) := Nat.find_spec hex
        have hrgt' : keyOf val < c.keyAtIdx prop (Nat.find hex) := hrgt
        have hrle : Nat.find hex ≤ i₀ := Nat.find_le hgt₀
        have hrL : Nat.find hex < (c.getBI prop).values.length := by omega
        have hbelow : ∀ i, i < Nat.find hex →
            c.keyAtIdx prop i < keyOf val := by
          intro i hi
          have hnot : ¬ gtKeyPred c prop val i := Nat.find_min hex hi
          have hne : c.keyAtIdx prop i ≠ keyOf val := by
            intro heq
            exact hpres ⟨i, by omega, heq⟩
          rcases lt_trichotomy (c.keyAtIdx prop i) (keyOf val) with h | h | h
          · exact h
          · exact absurd h hne
          · exact absurd h hnot
        have hrs := rangeStart_of_hole_mid c prop val true (Nat.find hex)
          hs hrL hrgt' hbelow
        simp only [if_true] at hrs
        refine ⟨Nat.find hex, hrs, by omega, ?_, ?_⟩
        · intro i hi
          exact (hbelow i hi).le
        · intro i hni hi
          exact (hrgt'.trans_le (hs.keyMono (Nat.find hex) i hni hi)).le
      · have hall : ∀ i, i < (c.getBI prop).values.length →
            c.keyAtIdx prop i < keyOf val := by
          intro i hi
          have hne : c.keyAtIdx prop i ≠ keyOf val := fun heq =>
            hpres ⟨i, hi, heq⟩
          have hng : ¬ gtKeyPred c prop val i := fun hlt =>
            hgt ⟨i, hi, hlt⟩
          rcases lt_trichotomy (c.keyAtIdx prop i) (keyOf val) with h | h | h
          · exact h
          · exact absurd h hne
          · exact absurd h hng
        have hrs := rangeStart_of_all_lt c prop val true hs hlen hall
        simp only [if_true] at hrs
        refine ⟨(c.getBI prop).values.length, hrs, le_refl _, ?_, ?_⟩
        · intro i hi
          exact (hall i hi).le
        · intro i hni hi
          omega


/-- `adaptiveBinaryIndexInsert` inserts the new data position into the
index values at the position computed by the adaptive range start. -/
theorem adaptiveBinaryIndexInsert_spec (c : Coll) (k : Nat) (name : String)
    (hs : c.IndexSorted name) :
    ∃ n : Nat, n ≤ (c.getBI name).values.length ∧
      c.adaptiveBinaryIndexInsert k name =
        c.setBI name ⟨(c.getBI name).values.insertIdx n k,
          (c.getBI name).dirty⟩ ∧
      (∀ i, i < n →
        c.keyAtIdx name i ≤ keyOf ((c.dataAt k).get name)) ∧
      (∀ i, n ≤ i → i < (c.getBI name).values.length →
        keyOf ((c.dataAt k).get name) ≤ c.keyAtIdx name i) := by
  obtain ⟨n, hn, hle, hlo, hhi⟩ :=
    rangeStart_adaptive_bounds c name ((c.dataAt k).get name) hs
  refine ⟨n, hle, ?_, hlo, hhi⟩
  simp only [Coll.adaptiveBinaryIndexInsert]
  rw [hn]
  simp

theorem valAtIdx_eq_of_get? (c c' : Coll) (n : String) (i i' : Nat)
    (hd : c'.data = c.data)
    (hg : (c'.getBI n).values.get? i = (c.getBI n).values.get? i') :
    c'.valAtIdx n i = c.valAtIdx n i' := by
  unfold Coll.valAtIdx Coll.dataAt
  rw [hg, hd]

theorem valAtIdx_eq_of_get?_some (c' : Coll) (n : String) (i dp : Nat)
    (hg : (c'.getBI n).values.get? i = some dp) :
    c'.valAtIdx n i = (c'.dataAt dp).get n := by
  unfold Coll.valAtIdx
  rw [hg]

/-- Inserting the new data position at the computed position keeps the
index sorted (position `k` holds the appended document) and turns it into
a permutation of the extended position range. -/
theorem setBI_insert_sorted (c : Coll) (k : Nat) (name : String) (n : Nat)
    (hmem : name ∈ c.binaryIndices.map Prod.fst)
    (hs : c.IndexSorted name)
    (hperm : (c.getBI name).values.Perm (List.range k))
    (hdata : c.data.length = k + 1)
    (hn : n ≤ (c.getBI name).values.length)
    (hlo : ∀ i, i < n → c.keyAtIdx name i ≤ keyOf ((c.dataAt k).get name))
    (hhi : ∀ i, n ≤ i → i < (c.getBI name).values.length →
      keyOf ((c.dataAt k).get name) ≤ c.keyAtIdx name i) :
    (c.setBI name ⟨(c.getBI name).values.insertIdx n k,
      (c.getBI name).dirty⟩).IndexSorted name ∧
    (c.setBI name ⟨(c.getBI name).values.insertIdx n k,
      (c.getBI name).dirty⟩).ValuesPerm name := by
  have hgbi := getBI_setBI_self c name
    ⟨(c.getBI name).values.insertIdx n k, (c.getBI name).dirty⟩ hmem
  have hlen' : ((c.getBI name).values.insertIdx n k).length =
      (c.getBI name).values.length + 1 :=
    List.length_insertIdx n _ hn
  have hkey : ∀ j, j < (c.getBI name).values.length + 1 →
      (c.setBI name ⟨(c.getBI name).values.insertIdx n k,
        (c.getBI name).dirty⟩).keyAtIdx name j =
        (if j < n then c.keyAtIdx name j
         else if j = n then keyOf ((c.dataAt k).get name)
         else c.keyAtIdx name (j - 1)) := by
    intro j hj
    by_cases h1 : j < n
    · rw [if_pos h1]
      unfold Coll.keyAtIdx
      congr 1
      apply valAtIdx_eq_of_get? c _ name j j (setBI_data c name _)
      rw [hgbi]
      have hjL : j < (c.getBI name).values.length := by omega
      show ((c.getBI name).values.insertIdx n k).get? j = _
      rw [List.get?_eq_getElem?, List.get?_eq_getElem?,
        List.getElem?_eq_getElem (by omega),
        List.getElem?_eq_getElem hjL]
      exact congrArg some (List.getElem_insertIdx_of_lt _ k n j h1 hjL)
    · rw [if_neg h1]
      by_cases h2 : j = n
      · rw [if_pos h2]
        unfold Coll.keyAtIdx
        congr 1
        have hg : ((c.setBI name ⟨(c.getBI name).values.insertIdx n k,
            (c.getBI name).dirty⟩).getBI name).values.get? j = some k := by
          rw [hgbi]
          show ((c.getBI name).values.insertIdx n k).get? j = some k
          rw [h2]
          rw [List.get?_eq_getElem?, List.getElem?_eq_getElem (by omega)]
          exact congrArg some (List.getElem_insertIdx_self _ k n (by omega))
        rw [valAtIdx_eq_of_get?_some _ name j k hg]
        show ((c.dataAt k).get name) = _
        rfl
      · rw [if_neg h2]
        unfold Coll.keyAtIdx
        congr 1
        apply valAtIdx_eq_of_get? c _ name j (j - 1) (setBI_data c name _)
        rw [hgbi]
        obtain ⟨m, rfl⟩ : ∃ m, j = n + m + 1 := ⟨j - n - 1, by omega⟩
        have hnm : n + m < (c.getBI name).values.length := by omega
        show ((c.getBI name).values.insertIdx n k).get? (n + m + 1) = _
        simp only [Nat.add_sub_cancel]
        rw [List.get?_eq_getElem?, List.get?_eq_getElem?,
          List.getElem?_eq_getElem (by omega),
          List.getElem?_eq_getElem hnm]
        exact congrArg some (List.getElem_insertIdx_add_succ _ k n m hnm)
  constructor
  · intro i hi
    rw [hgbi] at hi
    rw [hlen'] at hi
    rw [ltHelper_true_iff]
    have hki := hkey i (by omega)
    have hki1 := hkey (i + 1) (by omega)
    unfold Coll.keyAtIdx at hki hki1
    rw [hki, hki1]
    by_cases c1 : i + 1 < n
    · rw [if_pos (by omega : i < n), if_pos c1]
      exact hs.keyMono i (i + 1) (by omega) (by omega)
    · by_cases c2 : i + 1 = n
      · rw [if_pos (by omega : i < n), if_neg c1, if_pos c2]
        exact hlo i (by omega)
      · by_cases c3 : i = n
        · rw [if_neg (by omega : ¬ i < n),
            if_pos c3, if_neg c1, if_neg c2]
          have he : i + 1 - 1 = i := by omega
          rw [he, c3]
          exact hhi n (le_refl n) (by omega)
        · rw [if_neg (by omega : ¬ i < n), if_neg c3, if_neg c1, if_neg c2]
          have he : i + 1 - 1 = i := by omega
          rw [he]
          exact hs.keyMono (i - 1) i (by omega) (by omega)
  · unfold Coll.ValuesPerm
    rw [hgbi, setBI_data]
    show ((c.getBI name).values.insertIdx n k).Perm
      (List.range c.data.length)
    rw [hdata, List.range_succ]
    exact ((List.perm_insertIdx k _ hn).trans (hperm.cons k)).trans
      (List.perm_append_singleton _ _).symm


/-- Pointwise strengthening of `Forall₂` using membership on the left. -/
theorem forall2_imp_of_mem {α β : Type} {r s : α → β → Prop} :
    ∀ {l : List α} {l' : List β}, List.Forall₂ r l l' →
      (∀ a ∈ l, ∀ b, r a b → s a b) → List.Forall₂ s l l'
  | _, _, List.Forall₂.nil, _ => List.Forall₂.nil
  | _, _, List.Forall₂.cons h t, himp =>
      List.Forall₂.cons (himp _ (List.mem_cons_self _ _) _ h)
        (forall2_imp_of_mem t
          (fun a ha b hr => himp a (List.mem_cons_of_mem _ ha) b hr))

/-- The index-maintenance loop of `add`: folding the adaptive insertion
over every binary index changes only `binaryIndices`, turns each touched
entry into an `insertIdx` of the new data position into its old values,
and leaves every touched index sorted and a permutation of the extended
position range. -/
theorem insertFold_spec (k : Nat) :
    ∀ (todo : List (String × BinaryIndex)) (acc : Coll),
      acc.data.length = k + 1 →
      (acc.binaryIndices.map Prod.fst).Nodup →
      (todo.map Prod.fst).Nodup →
      (∀ nm ∈ todo.map Prod.fst, nm ∈ acc.binaryIndices.map Prod.fst) →
      (∀ kv ∈ todo, acc.getBI kv.1 = kv.2) →
      (∀ kv ∈ todo, acc.IndexSorted kv.1 ∧
        kv.2.values.Perm (List.range k)) →
      ∃ bis,
        todo.foldl (fun a kv => a.adaptiveBinaryIndexInsert k kv.1) acc =
          acc.setIndices bis ∧
        bis.map Prod.fst = acc.binaryIndices.map Prod.fst ∧
        List.Forall₂ (fun e e' : String × BinaryIndex =>
          (e.1 ∈ todo.map Prod.fst →
            e'.1 = e.1 ∧ e'.2.dirty = e.2.dirty ∧
            ∃ m, m ≤ e.2.values.length ∧
              e'.2.values = e.2.values.insertIdx m k) ∧
          (e.1 ∉ todo.map Prod.fst → e' = e))
          acc.binaryIndices bis ∧
        (∀ nm ∈ todo.map Prod.fst,
          (acc.setIndices bis).IndexSorted nm ∧
          (acc.setIndices bis).ValuesPerm nm) ∧
        (∀ nm, nm ∉ todo.map Prod.fst →
          (acc.setIndices bis).getBI nm = acc.getBI nm)
  | [], acc, hdata, hand, htnd, hsub, hget, hsp => by
      refine ⟨acc.binaryIndices, rfl, rfl, ?_, ?_, ?_⟩
      · refine List.forall₂_same.2 (fun e he => ⟨?_, fun _ => rfl⟩)
        intro hin
        simp at hin
      · intro nm hnm
        simp at hnm
      · intro nm _
        rfl
  | (name, bi) :: rest, acc, hdata, hand, htnd, hsub, hget, hsp => by
      have hgbi : acc.getBI name = bi :=
        hget (name, bi) (List.mem_cons_self _ _)
      have hmemname : name ∈ acc.binaryIndices.map Prod.fst :=
        hsub name (by simp)
      have htnd2 : ((name, bi).1 :: rest.map Prod.fst).Nodup := by
        simpa only [List.map_cons] using htnd
      have hnamenotin : name ∉ rest.map Prod.fst := (List.nodup_cons.1 htnd2).1
      have hsortedname := (hsp (name, bi) (List.mem_cons_self _ _)).1
      have hpermk := (hsp (name, bi) (List.mem_cons_self _ _)).2
      obtain ⟨n, hnle, hstep, hlo, hhi⟩ :=
        adaptiveBinaryIndexInsert_spec acc k name hsortedname
      have hpermacc : (acc.getBI name).values.Perm (List.range k) := by
        rw [hgbi]; exact hpermk
      obtain ⟨hsort', hperm'⟩ := setBI_insert_sorted acc k name n hmemname
        hsortedname hpermacc hdata hnle hlo hhi
      have hne : ∀ kv ∈ rest, kv.1 ≠ name := by
        intro kv hkv heq
        exact hnamenotin (heq ▸ List.mem_map_of_mem Prod.fst hkv)
      have hdata' : (acc.setBI name ⟨(acc.getBI name).values.insertIdx n k,
          (acc.getBI name).dirty⟩).data.length = k + 1 := by
        rw [setBI_data]; exact hdata
      have hand' : ((acc.setBI name ⟨(acc.getBI name).values.insertIdx n k,
          (acc.getBI name).dirty⟩).binaryIndices.map Prod.fst).Nodup := by
        rw [setBI_names]; exact hand
      have htnd' : (rest.map Prod.fst).Nodup := (List.nodup_cons.1 htnd2).2
      have hsub' : ∀ nm ∈ rest.map Prod.fst,
          nm ∈ ((acc.setBI name ⟨(acc.getBI name).values.insertIdx n k,
            (acc.getBI name).dirty⟩).binaryIndices.map Prod.fst) := by
        intro nm hnm
        rw [setBI_names]
        exact hsub nm (by simp [hnm])
      have hget' : ∀ kv ∈ rest,
          (acc.setBI name ⟨(acc.getBI name).values.insertIdx n k,
            (acc.getBI name).dirty⟩).getBI kv.1 = kv.2 := by
        intro kv hkv
        rw [getBI_setBI_ne acc name kv.1 _ (hne kv hkv)]
        exact hget kv (List.mem_cons_of_mem _ hkv)
      have hsp' : ∀ kv ∈ rest,
          (acc.setBI name ⟨(acc.getBI name).values.insertIdx n k,
            (acc.getBI name).dirty⟩).IndexSorted kv.1 ∧
          kv.2.values.Perm (List.range k) := by
        intro kv hkv
        exact ⟨IndexSorted_setBI_ne acc name kv.1 _ (hne kv hkv)
            (hsp kv (List.mem_cons_of_mem _ hkv)).1,
          (hsp kv (List.mem_cons_of_mem _ hkv)).2⟩
      obtain ⟨bis, hfold, hnames, hFa, hsortall, hpres⟩ :=
        insertFold_spec k rest (acc.setBI name
          ⟨(acc.getBI name).values.insertIdx n k, (acc.getBI name).dirty⟩)
          hdata' hand' htnd' hsub' hget' hsp'
      refine ⟨bis, ?_, ?_, ?_, ?_, ?_⟩
      · simp only [List.foldl_cons]
        rw [hstep, hfold]
        rfl
      · exact hnames.trans (setBI_names acc name _)
      · have hFa2 : List.Forall₂ (fun e e' : String × BinaryIndex =>
            ((e.1 ∈ rest.map Prod.fst →
              e'.1 = e.1 ∧ e'.2.dirty = e.2.dirty ∧
              ∃ m, m ≤ e.2.values.length ∧
                e'.2.values = e.2.values.insertIdx m k) ∧
            (e.1 ∉ rest.map Prod.fst → e' = e)))
            ((acc.setBI name ⟨(acc.getBI name).values.insertIdx n k,
              (acc.getBI name).dirty⟩).binaryIndices) bis := hFa
        have hbieq : (acc.setBI name ⟨(acc.getBI name).values.insertIdx n k,
            (acc.getBI name).dirty⟩).binaryIndices =
            acc.binaryIndices.map (fun kv =>
              if kv.1 == name then (kv.1,
                (⟨(acc.getBI name).values.insertIdx n k,
                  (acc.getBI name).dirty⟩ : BinaryIndex)) else kv) := rfl
        rw [hbieq] at hFa2
        have hFa3 := List.forall₂_map_left_iff.1 hFa2
        apply forall2_imp_of_mem hFa3
        intro e he e' hrel
        constructor
        · intro hin
          by_cases hename : e.1 = name
          · have he2 : e.2 = bi := by
              have hgm := getBI_of_mem acc e hand he
              rw [hename, hgbi] at hgm
              exact hgm.symm
            have hnotin2 : e.1 ∉ rest.map Prod.fst := by
              rw [hename]; exact hnamenotin
            have hge : (if e.1 == name then (e.1,
                (⟨(acc.getBI name).values.insertIdx n k,
                  (acc.getBI name).dirty⟩ : BinaryIndex)) else e) =
                (e.1, (⟨(acc.getBI name).values.insertIdx n k,
                  (acc.getBI name).dirty⟩ : BinaryIndex)) := by
              rw [if_pos (by simp [hename])]
            rw [hge] at hrel
            have he' : e' = (e.1, (⟨(acc.getBI name).values.insertIdx n k,
                (acc.getBI name).dirty⟩ : BinaryIndex)) := hrel.2 hnotin2
            refine ⟨by rw [he'], ?_, n, ?_, ?_⟩
            · rw [he', he2, ← hgbi]
            · rw [he2, ← hgbi]
              exact hnle
            · rw [he', he2, ← hgbi]
          · have hge : (if e.1 == name then (e.1,
                (⟨(acc.getBI name).values.insertIdx n k,
                  (acc.getBI name).dirty⟩ : BinaryIndex)) else e) = e := by
              rw [if_neg (by simp [hename])]
            rw [hge] at hrel
            have hin' : e.1 ∈ rest.map Prod.fst := by
              have hin2 : e.1 ∈ name :: rest.map Prod.fst := by simpa using hin
              rcases List.mem_cons.1 hin2 with h | h
              · exact absurd h hename
              · exact h
            exact hrel.1 hin'
        · intro hnotin
          have hename : e.1 ≠ name := by
            intro h
            exact hnotin (by simp [h])
          have hge : (if e.1 == name then (e.1,
              (⟨(acc.getBI name).values.insertIdx n k,
                (acc.getBI name).dirty⟩ : BinaryIndex)) else e) = e := by
            rw [if_neg (by simp [hename])]
          rw [hge] at hrel
          apply hrel.2
          intro h
          exact hnotin (by simp [h])
      · intro nm hmemnm
        by_cases hnm : nm = name
        · subst hnm
          have hgacc' : (acc.setBI nm ⟨(acc.getBI nm).values.insertIdx n k,
              (acc.getBI nm).dirty⟩).getBI nm =
              ⟨(acc.getBI nm).values.insertIdx n k, (acc.getBI nm).dirty⟩ :=
            getBI_setBI_self acc nm _ hmemname
          have hgpres := hpres nm hnamenotin
          constructor
          · exact IndexSorted_congr _ _ nm hgpres rfl hsort'
          · exact ValuesPerm_congr _ _ nm hgpres rfl hperm'
        · have h : nm ∈ rest.map Prod.fst := by
            have hin2 : nm ∈ name :: rest.map Prod.fst := by simpa using hmemnm
            rcases List.mem_cons.1 hin2 with h | h
            · exact absurd h hnm
            · exact h
          exact hsortall nm h
      · intro nm hnm
        have hnm1 : nm ≠ name := by
          intro h
          exact hnm (by simp [h])
        have hnm2 : nm ∉ rest.map Prod.fst := by
          intro h
          exact hnm (by simp [h])
        have h1 := hpres nm hnm2
        exact h1.trans (getBI_setBI_ne acc name nm _ hnm1)


/-- Filtering out the inserted element recovers the original list when the
element occurs nowhere in it. -/
theorem filter_ne_insertIdx (k : Nat) :
    ∀ (n : Nat) (l : List Nat), n ≤ l.length → (∀ v ∈ l, v < k) →
      ((l.insertIdx n k).filter (fun v => v ≠ k)) = l
  | 0, l, _, hall => by
      rw [List.insertIdx_zero, List.filter_cons,
        if_neg (by simp)]
      exact List.filter_eq_self.2
        (fun v hv => by simpa using Nat.ne_of_lt (hall v hv))
  | n + 1, [], h, _ => by simp at h
  | n + 1, x :: t, h, hall => by
      rw [List.insertIdx_succ_cons, List.filter_cons,
        if_pos (by simpa using Nat.ne_of_lt (hall x (List.mem_cons_self _ _)))]
      rw [filter_ne_insertIdx k n t (by simpa using h)
        (fun v hv => hall v (List.mem_cons_of_mem _ hv))]

/-- `shiftRemove` of a position past every stored position is the
identity. -/
theorem shiftRemove_of_lt (k : Nat) (bi : BinaryIndex)
    (h : ∀ v ∈ bi.values, v < k) : shiftRemove k bi = bi := by
  unfold shiftRemove
  rw [List.filter_eq_self.2
    (fun v hv => by simpa using Nat.ne_of_lt (h v hv))]
  have h2 : bi.values.map (fun v => if k < v then v - 1 else v) =
      bi.values.map id :=
    List.map_congr_left (fun v hv => by
      simp only [id]
      rw [if_neg (by have := h v hv; omega)])
  rw [h2, List.map_id]

/-- Removing the inserted position undoes `insertIdx` on an index whose
original positions are all below the new one. -/
theorem shiftRemove_insertIdx (k n : Nat) (bi : BinaryIndex)
    (hn : n ≤ bi.values.length) (h : ∀ v ∈ bi.values, v < k) :
    shiftRemove k ⟨bi.values.insertIdx n k, bi.dirty⟩ = bi := by
  unfold shiftRemove
  simp only []
  rw [filter_ne_insertIdx k n bi.values hn h]
  have h2 : bi.values.map (fun v => if k < v then v - 1 else v) =
      bi.values.map id :=
    List.map_congr_left (fun v hv => by
      simp only [id]
      rw [if_neg (by have := h v hv; omega)])
  rw [h2, List.map_id]

/-- Applying `shiftRemove` of the new position to every index entry
produced by the insertion fold restores the original entries. -/
theorem shiftRemove_insert_roundtrip (k : Nat) (ns : List String) :
    ∀ (l l' : List (String × BinaryIndex)),
      List.Forall₂ (fun e e' : String × BinaryIndex =>
        (e.1 ∈ ns →
          e'.1 = e.1 ∧ e'.2.dirty = e.2.dirty ∧
          ∃ m, m ≤ e.2.values.length ∧
            e'.2.values = e.2.values.insertIdx m k) ∧
        (e.1 ∉ ns → e' = e)) l l' →
      (∀ e ∈ l, ∀ v ∈ e.2.values, v < k) →
      l'.map (fun e => (e.1, shiftRemove k e.2)) = l
  | _, _, List.Forall₂.nil, _ => rfl
  | e :: t, e' :: t', List.Forall₂.cons hrel htail, hall => by
      rw [List.map_cons]
      rw [shiftRemove_insert_roundtrip k ns t t' htail
        (fun a ha v hv => hall a (List.mem_cons_of_mem _ ha) v hv)]
      congr 1
      have hvlt : ∀ v ∈ e.2.values, v < k :=
        hall e (List.mem_cons_self _ _)
      by_cases hin : e.1 ∈ ns
      · obtain ⟨h1, h2, m, hm, h3⟩ := hrel.1 hin
        have hsr : shiftRemove k e'.2 = e.2 := by
          have he2 : e'.2 = ⟨e.2.values.insertIdx m k, e.2.dirty⟩ := by
            cases hbv : e'.2 with
            | mk vs dt =>
                rw [hbv] at h2 h3
                simp only [] at h2 h3
                rw [h2, h3]
          rw [he2]
          exact shiftRemove_insertIdx k m e.2 hm hvlt
        rw [h1, hsr]
      · have he : e' = e := hrel.2 hin
        rw [he, shiftRemove_of_lt k e.2 hvlt]


/-- `UniqueIndex.set` never changes the indexed field name. -/
theorem set_field (u : UniqueIndex) (d : Doc) (u2 : UniqueIndex)
    (h : u.set d = .ok u2) : u2.field = u.field := by
  unfold UniqueIndex.set at h
  by_cases h1 : d.get u.field ≠ .null ∧ d.get u.field ≠ .undef
  · rw [if_pos h1] at h
    by_cases h2 : (kmLookup u.keyMap (toStr (d.get u.field))).isSome = true
    · rw [if_pos h2] at h
      simp at h
    · rw [if_neg h2] at h
      injection h with h3
      rw [← h3]
  · rw [if_neg h1] at h
    injection h with h3
    rw [← h3]

/-- The `field` of the scan-built unique index is the requested field. -/
theorem foldlM_set_field :
    ∀ (ds : List Doc) (u u' : UniqueIndex),
      ds.foldlM (fun u d => u.set d) u = .ok u' → u'.field = u.field
  | [], u, u', h => by
      rw [List.foldlM_nil] at h
      have h2 : u = u' := by simpa [pure, Except.pure] using h
      rw [← h2]
  | d :: ds, u, u', h => by
      rw [List.foldlM_cons] at h
      cases hset : u.set d with
      | error e =>
          rw [hset] at h
          simp [Bind.bind, Except.bind] at h
      | ok u2 =>
          rw [hset] at h
          have h2 : ds.foldlM (fun u d => u.set d) u2 = .ok u' := h
          rw [foldlM_set_field ds u2 u' h2, set_field u d u2 hset]

theorem kmLookup_kmSet_self {κ α : Type} [BEq κ] [LawfulBEq κ]
    (m : List (κ × Option α)) (key : κ) (v : Option α) :
    kmLookup (kmSet m key v) key = v := by
  unfold kmLookup kmSet
  rw [List.find?_cons_of_pos _ (by simp)]

/-- A successful `UniqueIndex.set` of a non-null key maps that key to the
document. -/
theorem set_lookup (u : UniqueIndex) (d : Doc) (u2 : UniqueIndex)
    (h : u.set d = .ok u2)
    (hv : d.get u.field ≠ .null) (hv2 : d.get u.field ≠ .undef) :
    kmLookup u2.keyMap (toStr (d.get u.field)) = some d := by
  unfold UniqueIndex.set at h
  rw [if_pos ⟨hv, hv2⟩] at h
  by_cases h2 : (kmLookup u.keyMap (toStr (d.get u.field))).isSome = true
  · rw [if_pos h2] at h
    simp at h
  · rw [if_neg h2] at h
    injection h with h3
    rw [← h3]
    exact kmLookup_kmSet_self _ _ _

/-- `ensureUniqueIndex` does not change lookups of other fields. -/
theorem ensureUniqueIndex_find_pres (acc : Coll) (key n2 : String)
    (h : n2 ≠ key) (u : UniqueIndex) (c1 : Coll)
    (he : acc.ensureUniqueIndex key = .ok (u, c1)) :
    c1.uniqueIndices.find? (fun kv => kv.1 == n2) =
      acc.uniqueIndices.find? (fun kv => kv.1 == n2) := by
  unfold Coll.ensureUniqueIndex at he
  cases hf : acc.uniqueIndices.find? (fun kv => kv.1 == key) with
  | some kv =>
      rw [hf] at he
      injection he with he2
      have hc : c1 = acc := (congrArg Prod.snd he2).symm
      rw [hc]
  | none =>
      rw [hf] at he
      cases hfold : acc.data.foldlM (fun u d => u.set d)
          (UniqueIndex.mk key [] []) with
      | error e =>
          rw [hfold] at he
          simp at he
      | ok u0 =>
          rw [hfold] at he
          injection he with he2
          have hc : c1 = { acc with
              uniqueIndices := acc.uniqueIndices ++ [(key, u0)],
              uniqueNames := if acc.uniqueNames.contains key
                then acc.uniqueNames else acc.uniqueNames ++ [key] } :=
            (congrArg Prod.snd he2).symm
          rw [hc]
          show (acc.uniqueIndices ++ [(key, u0)]).find?
            (fun kv => kv.1 == n2) = _
          rw [List.find?_append]
          have hone : ([((key, u0) : String × UniqueIndex)].find?
              (fun kv => kv.1 == n2)) = none := by
            rw [List.find?_cons_of_neg _ (by simp [Ne.symm h])]
            rfl
          rw [hone, Option.or_none]

/-- `ensureUniqueIndex` on success: everything but the unique indices is
unchanged, the requested field now has a registered entry whose `field`
names it, and lookups of other fields are unchanged. -/
theorem ensureUniqueIndex_ok (acc : Coll) (key : String) (u : UniqueIndex)
    (c1 : Coll) (hkeyn : key ∈ acc.uniqueNames)
    (hfield : ∀ kv ∈ acc.uniqueIndices, kv.2.field = kv.1)
    (he : acc.ensureUniqueIndex key = .ok (u, c1)) :
    c1.data = acc.data ∧ c1.idIndex = acc.idIndex ∧
    c1.binaryIndices = acc.binaryIndices ∧ c1.maxId = acc.maxId ∧
    c1.adaptiveBinaryIndices = acc.adaptiveBinaryIndices ∧
    c1.uniqueNames = acc.uniqueNames ∧
    u.field = key ∧
    c1.uniqueIndices.find? (fun kv => kv.1 == key) = some (key, u) ∧
    (∀ kv ∈ c1.uniqueIndices, kv.2.field = kv.1) := by
  unfold Coll.ensureUniqueIndex at he
  cases hf : acc.uniqueIndices.find? (fun kv => kv.1 == key) with
  | some kv =>
      rw [hf] at he
      injection he with he2
      have hc : c1 = acc := (congrArg Prod.snd he2).symm
      have hu : u = kv.2 := (congrArg Prod.fst he2).symm
      have hkv1 : kv.1 = key := by
        have := List.find?_some hf
        simpa using this
      have hmem : kv ∈ acc.uniqueIndices := List.mem_of_find?_eq_some hf
      refine ⟨by rw [hc], by rw [hc], by rw [hc], by rw [hc], by rw [hc],
        by rw [hc], ?_, ?_, ?_⟩
      · rw [hu, hfield kv hmem, hkv1]
      · rw [hc, hf, hu, ← hkv1]
      · rw [hc]
        exact hfield
  | none =>
      rw [hf] at he
      cases hfold : acc.data.foldlM (fun u d => u.set d)
          (UniqueIndex.mk key [] []) with
      | error e =>
          rw [hfold] at he
          simp at he
      | ok u0 =>
          rw [hfold] at he
          injection he with he2
          have hu : u = u0 := (congrArg Prod.fst he2).symm
          have hcont : acc.uniqueNames.contains key = true := by
            rw [List.contains_eq_any_beq, List.any_eq_true]
            exact ⟨key, hkeyn, by simp⟩
          have hc : c1 = { acc with
              uniqueIndices := acc.uniqueIndices ++ [(key, u0)],
              uniqueNames := if acc.uniqueNames.contains key
                then acc.uniqueNames else acc.uniqueNames ++ [key] } :=
            (congrArg Prod.snd he2).symm
          have hufield : u0.field = key := by
            have := foldlM_set_field acc.data _ u0 hfold
            simpa using this
          refine ⟨by rw [hc], by rw [hc], by rw [hc], by rw [hc], by rw [hc],
            ?_, by rw [hu]; exact hufield, ?_, ?_⟩
          · rw [hc]
            show (if acc.uniqueNames.contains key then acc.uniqueNames
              else acc.uniqueNames ++ [key]) = acc.uniqueNames
            rw [if_pos hcont]
          · rw [hc]
            show (acc.uniqueIndices ++ [(key, u0)]).find?
              (fun kv => kv.1 == key) = some (key, u)
            rw [List.find?_append, hf, Option.none_or,
              List.find?_cons_of_pos _ (by simp), hu]
          · rw [hc]
            intro kv hkv
            rcases List.mem_append.1 hkv with hkv2 | hkv2
            · exact hfield kv hkv2
            · have : kv = (key, u0) := by simpa using hkv2
              rw [this]
              exact hufield


/-- `addUniquesGo` does not change lookups of fields outside the processed
names, whether it succeeds or throws. -/
theorem addUniquesGo_find_pres :
    ∀ (names : List String) (acc : Coll) (obj : Doc) (n2 : String),
      n2 ∉ names →
      (addUniquesGo names acc obj).2.uniqueIndices.find?
          (fun kv => kv.1 == n2) =
        acc.uniqueIndices.find? (fun kv => kv.1 == n2)
  | [], acc, obj, n2, h => rfl
  | key :: rest, acc, obj, n2, h => by
      have hne : n2 ≠ key := fun heq => h (heq ▸ List.mem_cons_self _ _)
      have hrest : n2 ∉ rest := fun hm => h (List.mem_cons_of_mem _ hm)
      simp only [addUniquesGo]
      cases he : acc.ensureUniqueIndex key with
      | error e => rfl
      | ok pr =>
          obtain ⟨u, c1⟩ := pr
          simp only []
          have hp1 := ensureUniqueIndex_find_pres acc key n2 hne u c1 he
          cases hs : u.set obj with
          | error e =>
              simp only []
              exact hp1
          | ok u2 =>
              simp only []
              rw [addUniquesGo_find_pres rest ({ c1 with uniqueIndices := c1.uniqueIndices.map (fun kv => if kv.1 == key then (kv.1, u2) else kv) }) obj n2 hrest]
              rw [show ({ c1 with uniqueIndices := c1.uniqueIndices.map (fun kv => if kv.1 == key then (kv.1, u2) else kv) } : Coll).uniqueIndices = c1.uniqueIndices.map (fun kv => if kv.1 == key then (kv.1, u2) else kv) from rfl]
              rw [find?_map_replace c1.uniqueIndices key n2 u2 hne]
              exact hp1

/-- `addUniquesGo` on success: the collection parts other than the unique
indices are unchanged, every processed field's entry maps the document's
key value to the document, and every entry's `field` still names its
key. -/
theorem addUniquesGo_ok :
    ∀ (names : List String) (acc : Coll) (obj : Doc),
      names.Nodup →
      (∀ nm ∈ names, nm ∈ acc.uniqueNames) →
      (∀ kv ∈ acc.uniqueIndices, kv.2.field = kv.1) →
      (addUniquesGo names acc obj).1 = .ok () →
      (addUniquesGo names acc obj).2.data = acc.data ∧
      (addUniquesGo names acc obj).2.idIndex = acc.idIndex ∧
      (addUniquesGo names acc obj).2.binaryIndices = acc.binaryIndices ∧
      (addUniquesGo names acc obj).2.maxId = acc.maxId ∧
      (addUniquesGo names acc obj).2.adaptiveBinaryIndices =
        acc.adaptiveBinaryIndices ∧
      (addUniquesGo names acc obj).2.uniqueNames = acc.uniqueNames ∧
      (∀ key ∈ names,
        obj.get key ≠ .null → obj.get key ≠ .undef →
        ∃ u, (addUniquesGo names acc obj).2.uniqueIndices.find?
            (fun kv => kv.1 == key) = some (key, u) ∧
          (kmLookup u.keyMap (toStr (obj.get key))).isSome = true)
  | [], acc, obj, _, _, _, _ => by
      refine ⟨rfl, rfl, rfl, rfl, rfl, rfl, ?_⟩
      intro key hkey
      simp at hkey
  | key :: rest, acc, obj, hnd, hsubn, hfield, hok => by
      simp only [addUniquesGo] at hok ⊢
      cases he : acc.ensureUniqueIndex key with
      | error e =>
          rw [he] at hok
          simp at hok
      | ok pr =>
          obtain ⟨u, c1⟩ := pr
          rw [he] at hok
          simp only [] at hok
          simp only []
          obtain ⟨hd1, hi1, hb1, hm1, ha1, hn1, huf, hfind1, hfld1⟩ :=
            ensureUniqueIndex_ok acc key u c1 (hsubn key (by simp)) hfield he
          cases hs : u.set obj with
          | error e =>
              rw [hs] at hok
              simp at hok
          | ok u2 =>
              rw [hs] at hok
              simp only [] at hok
              simp only []
              have hnd' : rest.Nodup := (List.nodup_cons.1 hnd).2
              have hkeynotin : key ∉ rest := (List.nodup_cons.1 hnd).1
              have hfld2 : u2.field = key := by
                rw [set_field u obj u2 hs, huf]
              have hsubn' : ∀ nm ∈ rest, nm ∈ ({ c1 with uniqueIndices := c1.uniqueIndices.map (fun kv => if kv.1 == key then (kv.1, u2) else kv) } : Coll).uniqueNames := by
                intro nm hm
                show nm ∈ c1.uniqueNames
                rw [hn1]
                exact hsubn nm (List.mem_cons_of_mem _ hm)
              have hfield' : ∀ kv ∈ ({ c1 with uniqueIndices := c1.uniqueIndices.map (fun kv => if kv.1 == key then (kv.1, u2) else kv) } : Coll).uniqueIndices, kv.2.field = kv.1 := by
                intro kv hkv
                obtain ⟨kv0, hkv0, hkveq⟩ := List.mem_map.1 hkv
                by_cases hk0 : kv0.1 = key
                · rw [← hkveq, if_pos (by simp [hk0])]
                  show u2.field = kv0.1
                  rw [hfld2, hk0]
                · rw [← hkveq, if_neg (by simp [hk0])]
                  exact hfld1 kv0 hkv0
              obtain ⟨gd, gi, gb, gm, ga, gn, glook⟩ :=
                addUniquesGo_ok rest _ obj hnd' hsubn' hfield' hok
              refine ⟨?_, ?_, ?_, ?_, ?_, ?_, ?_⟩
              · rw [gd]; exact hd1
              · rw [gi]; exact hi1
              · rw [gb]; exact hb1
              · rw [gm]; exact hm1
              · rw [ga]; exact ha1
              · rw [gn]
                show c1.uniqueNames = acc.uniqueNames
                exact hn1
              · intro key2 hk2 hv1 hv2
                rcases List.mem_cons.1 hk2 with rfl | hk2rest
                · have hp := addUniquesGo_find_pres rest ({ c1 with uniqueIndices := c1.uniqueIndices.map (fun kv => if kv.1 == key2 then (kv.1, u2) else kv) }) obj key2 hkeynotin
                  have hfind2 : ({ c1 with uniqueIndices := c1.uniqueIndices.map (fun kv => if kv.1 == key2 then (kv.1, u2) else kv) } : Coll).uniqueIndices.find? (fun kv => kv.1 == key2) = some (key2, u2) := by
                    show (c1.uniqueIndices.map (fun kv => if kv.1 == key2 then (kv.1, u2) else kv)).find? (fun kv => kv.1 == key2) = some (key2, u2)
                    have h5 := find?_map_replace_self c1.uniqueIndices key2 u2
                      (key2, u) hfind1
                    simpa using h5
                  refine ⟨u2, by rw [hp, hfind2], ?_⟩
                  have hl := set_lookup u obj u2 hs
                    (by rw [huf]; exact hv1) (by rw [huf]; exact hv2)
                  rw [huf] at hl
                  rw [hl]
                  rfl
                · exact glook key2 hk2rest hv1 hv2


/-- The unique-removal fold of `remove` succeeds when every unique field
of the document has a registered entry holding the document's key. -/
theorem removeUniquesGo_ok (doc : Doc) :
    ∀ (names : List String) (start : List (String × UniqueIndex)),
      names.Nodup →
      (∀ key ∈ names, doc.get key ≠ .null → doc.get key ≠ .undef →
        ∃ u, start.find? (fun kv => kv.1 == key) = some (key, u) ∧
          (kmLookup u.keyMap (toStr (doc.get key))).isSome = true) →
      ∃ us, names.foldlM (fun acc key =>
        let v := doc.get key
        if v ≠ .null ∧ v ≠ .undef then
          match acc.find? (fun kv => kv.1 == key) with
          | some kv =>
              match kv.2.remove v with
              | Except.error e => Except.error e
              | Except.ok u =>
                  Except.ok (acc.map (fun kv2 => if kv2.1 == key then (kv2.1, u) else kv2))
          | none => Except.ok acc
        else Except.ok acc) start = Except.ok us
  | [], start, _, _ => ⟨start, by rw [List.foldlM_nil]; rfl⟩
  | key :: rest, start, hnd, hprop => by
      have hnd' : rest.Nodup := (List.nodup_cons.1 hnd).2
      have hkeynotin : key ∉ rest := (List.nodup_cons.1 hnd).1
      rw [List.foldlM_cons]
      by_cases hv : doc.get key ≠ .null ∧ doc.get key ≠ .undef
      · obtain ⟨u, hfind, hlook⟩ :=
          hprop key (List.mem_cons_self _ _) hv.1 hv.2
        have hrem : ∃ u', u.remove (doc.get key) = .ok u' := by
          unfold UniqueIndex.remove
          cases hl : kmLookup u.keyMap (toStr (doc.get key)) with
          | none =>
              rw [hl] at hlook
              simp at hlook
          | some d0 =>
              exact ⟨_, rfl⟩
        obtain ⟨u', hu'⟩ := hrem
        simp only []
        rw [if_pos hv]
        simp only [hfind, hu']
        have hprop' : ∀ key2 ∈ rest, doc.get key2 ≠ .null →
            doc.get key2 ≠ .undef →
            ∃ u2, (start.map (fun kv2 => if kv2.1 == key then (kv2.1, u') else kv2)).find? (fun kv => kv.1 == key2) = some (key2, u2) ∧
              (kmLookup u2.keyMap (toStr (doc.get key2))).isSome = true := by
          intro key2 hk2 hv1 hv2
          obtain ⟨u2, hf2, hl2⟩ :=
            hprop key2 (List.mem_cons_of_mem _ hk2) hv1 hv2
          have hne2 : key2 ≠ key := fun heq => hkeynotin (heq ▸ hk2)
          refine ⟨u2, ?_, hl2⟩
          rw [find?_map_replace start key key2 u' hne2]
          exact hf2
        obtain ⟨us, hus⟩ := removeUniquesGo_ok doc rest _ hnd' hprop'
        exact ⟨us, hus⟩
      · simp only []
        rw [if_neg hv]
        have hprop' : ∀ key2 ∈ rest, doc.get key2 ≠ .null →
            doc.get key2 ≠ .undef →
            ∃ u2, start.find? (fun kv => kv.1 == key2) = some (key2, u2) ∧
              (kmLookup u2.keyMap (toStr (doc.get key2))).isSome = true :=
          fun key2 hk2 => hprop key2 (List.mem_cons_of_mem _ hk2)
        obtain ⟨us, hus⟩ := removeUniquesGo_ok doc rest start hnd' hprop'
        exact ⟨us, hus⟩

/-- `removeUniques` succeeds on a collection whose unique indices hold the
document's keys. -/
theorem removeUniques_ok (c : Coll) (doc : Doc)
    (hnd : c.uniqueNames.Nodup)
    (hprop : ∀ key ∈ c.uniqueNames, doc.get key ≠ .null →
      doc.get key ≠ .undef →
      ∃ u, c.uniqueIndices.find? (fun kv => kv.1 == key) = some (key, u) ∧
        (kmLookup u.keyMap (toStr (doc.get key))).isSome = true) :
    ∃ us, c.removeUniques doc = .ok us := by
  unfold Coll.removeUniques
  exact removeUniquesGo_ok doc c.uniqueNames c.uniqueIndices hnd hprop


/-- `removeById` on an adaptive collection with sorted permutation
indices: the result splices the data position out of `data` and `idIndex`,
stores the removed unique maps, and applies `shiftRemove` to every binary
index. -/
theorem removeById_spec (c : Coll) (id : Int) (d : Doc) (k : Nat)
    (us : List (String × UniqueIndex))
    (hadap : c.adaptiveBinaryIndices = true)
    (hk : k < c.data.length)
    (hnd : (c.binaryIndices.map Prod.fst).Nodup)
    (hsp : ∀ kv ∈ c.binaryIndices, c.IndexSorted kv.1 ∧ c.ValuesPerm kv.1)
    (hget : c.getByIdPos (.num (id : ℚ)) = .ok (some (d, k)))
    (hun : c.removeUniques d = .ok us) :
    c.removeById id = some (d, { c with
      data := c.data.eraseIdx k,
      idIndex := c.idIndex.eraseIdx k,
      binaryIndices := c.binaryIndices.map
        (fun e => (e.1, shiftRemove k e.2)),
      uniqueIndices := us }) := by
  have hfold := removeFold_spec k c.binaryIndices
    { c with uniqueIndices := us } hk hnd hnd
    (fun kv hkv => getBI_of_mem { c with uniqueIndices := us } kv hnd hkv)
    hsp
  have hmapif : c.binaryIndices.map
      (fun e => if ((c.binaryIndices.map Prod.fst).contains e.1)
        then (e.1, shiftRemove k e.2) else e) =
      c.binaryIndices.map (fun e => (e.1, shiftRemove k e.2)) := by
    apply List.map_congr_left
    intro e he
    have hcont : ((c.binaryIndices.map Prod.fst).contains e.1) = true := by
      rw [List.contains_eq_any_beq, List.any_eq_true]
      exact ⟨e.1, List.mem_map_of_mem Prod.fst he, by simp⟩
    rw [if_pos hcont]
  rw [hmapif] at hfold
  unfold Coll.removeById
  rw [hget]
  simp only []
  rw [hun]
  simp only [hfold]
  have hadap2 : ({ c with uniqueIndices := us } :
      Coll).adaptiveBinaryIndices = true := hadap
  rw [if_pos hadap2]
  rfl

/-- Claim C4: on an adaptive collection whose binary indices are sorted
permutations, whose `idIndex` is strictly ascending, parallel to `data`
and bounded by `maxId`, and whose unique indices are well formed, a
successful `insert` of a fresh document followed by `remove` of its
assigned `$loki` id restores `data`, `idIndex` and every binary index,
with only `maxId` differing. -/
theorem C4_insert_remove_roundtrip :
    ∀ (c : Coll) (pd : PDoc) (d : Doc),
      c.adaptiveBinaryIndices = true →
      pd.loki = none →
      c.idIndex.length = c.data.length →
      StrictAsc c.idIndex →
      (∀ i, i < c.idIndex.length → c.idIndex.getD i 0 ≤ c.maxId) →
      c.uniqueNames.Nodup →
      (∀ kv ∈ c.uniqueIndices, kv.2.field = kv.1) →
      (c.binaryIndices.map Prod.fst).Nodup →
      (∀ kv ∈ c.binaryIndices, c.IndexSorted kv.1 ∧ c.ValuesPerm kv.1) →
      (c.add pd).1 = .ok d →
      ∃ c2, ((c.add pd).2).removeById d.loki = some (d, c2) ∧
        c2.data = c.data ∧ c2.idIndex = c.idIndex ∧
        c2.binaryIndices = c.binaryIndices ∧ c2.maxId = c.maxId + 1 := by
  intro c pd d hadap hloki hlen hasc hidmax hund hufield hbnd hbsp hok
  simp only [Coll.add, hloki, Option.isSome_none, Bool.false_eq_true,
    if_false] at hok
  cases hau : addUniquesGo c.uniqueNames { c with maxId := c.maxId + 1 }
      ⟨c.maxId + 1, pd.fields⟩ with
  | mk res cU =>
    cases res with
    | error e =>
        rw [hau] at hok
        simp at hok
    | ok uu =>
        cases uu
        rw [hau] at hok
        simp only [] at hok
        injection hok with hd2
        subst hd2
        have hgo := addUniquesGo_ok c.uniqueNames
          { c with maxId := c.maxId + 1 } ⟨c.maxId + 1, pd.fields⟩
          hund (fun nm h => h) hufield (by rw [hau])
        rw [hau] at hgo
        simp only [] at hgo
        obtain ⟨gd, gi, gb, gm, ga, gn, glook⟩ := hgo
        have gd' : cU.data = c.data := gd
        have gi' : cU.idIndex = c.idIndex := gi
        have gb' : cU.binaryIndices = c.binaryIndices := gb
        have gm' : cU.maxId = c.maxId + 1 := gm
        have ga' : cU.adaptiveBinaryIndices = true := by rw [ga]; exact hadap
        have gn' : cU.uniqueNames = c.uniqueNames := gn
        simp only [Coll.add, hloki, Option.isSome_none, Bool.false_eq_true,
          if_false, hau]
        set c2rec : Coll := { cU with idIndex := cU.idIndex ++ [c.maxId + 1], data := cU.data ++ [⟨c.maxId + 1, pd.fields⟩] } with hc2rec
        have hadap2 : c2rec.adaptiveBinaryIndices = true := ga'
        rw [if_pos hadap2]
        have hdata2 : c2rec.data.length = c.data.length + 1 := by
          show (cU.data ++ [(⟨c.maxId + 1, pd.fields⟩ : Doc)]).length =
            c.data.length + 1
          rw [gd']
          simp
        have hpos : c2rec.data.length - 1 = c.data.length := by omega
        rw [hpos]
        have hand2 : (c2rec.binaryIndices.map Prod.fst).Nodup := by
          show (cU.binaryIndices.map Prod.fst).Nodup
          rw [gb']
          exact hbnd
        have hbi2 : ∀ nm, c2rec.getBI nm = c.getBI nm := by
          intro nm
          apply getBI_eq_of_bI
          show cU.binaryIndices = c.binaryIndices
          exact gb'
        have hdataeq2 : c2rec.data = c.data ++ [⟨c.maxId + 1, pd.fields⟩] := by
          show cU.data ++ [(⟨c.maxId + 1, pd.fields⟩ : Doc)] = _
          rw [gd']
        have hmemlt : ∀ kv ∈ c2rec.binaryIndices, ∀ v ∈ kv.2.values,
            v < c.data.length := by
          intro kv hkv v hv
          have hkv2 : kv ∈ c.binaryIndices := by
            rw [← gb']
            exact hkv
          have hgm := getBI_of_mem c kv hbnd hkv2
          have := (hbsp kv hkv2).2.mem_lt
          rw [hgm] at this
          exact this v hv
        have hsp2 : ∀ kv ∈ c2rec.binaryIndices, c2rec.IndexSorted kv.1 ∧
            kv.2.values.Perm (List.range c.data.length) := by
          intro kv hkv
          have hkv2 : kv ∈ c.binaryIndices := by
            rw [← gb']
            exact hkv
          have hgm := getBI_of_mem c kv hbnd hkv2
          constructor
          · apply IndexSorted_extend c c2rec kv.1
              [⟨c.maxId + 1, pd.fields⟩] (hbi2 kv.1) hdataeq2
            · rw [hgm]
              intro v hv
              exact hmemlt kv hkv v hv
            · exact (hbsp kv hkv2).1
          · have := (hbsp kv hkv2).2
            unfold Coll.ValuesPerm at this
            rw [hgm] at this
            exact this
        obtain ⟨bis, hfold, hbnames, hFa, hsortall, hpres⟩ :=
          insertFold_spec c.data.length c2rec.binaryIndices c2rec
            (by omega) hand2 hand2 (fun nm h => h)
            (fun kv hkv => getBI_of_mem c2rec kv hand2 hkv) hsp2
        rw [hfold]
        set c3v : Coll := c2rec.setIndices bis with hc3v
        have hdata3 : c3v.data = c.data ++ [⟨c.maxId + 1, pd.fields⟩] :=
          hdataeq2
        have hidx3 : c3v.idIndex = c.idIndex ++ [c.maxId + 1] := by
          show cU.idIndex ++ [c.maxId + 1] = _
          rw [gi']
        have hasc3 : StrictAsc c3v.idIndex := by
          rw [hidx3]
          apply strictAsc_append c.idIndex (c.maxId + 1) hasc
          intro i hi
          have := hidmax i hi
          omega
        have hp3 : c.data.length < c3v.idIndex.length := by
          rw [hidx3]
          simp only [List.length_append, List.length_singleton, hlen]
          omega
        have hid3 : c3v.idIndex.getD c.data.length 0 = c.maxId + 1 := by
          rw [hidx3, ← hlen]
          exact getD_append_self _ _ _
        have hfound := getByIdPos_found c3v (c.maxId + 1) c.data.length
          hasc3 hp3 hid3
        have hdataAt3 : c3v.dataAt c.data.length =
            ⟨c.maxId + 1, pd.fields⟩ := by
          unfold Coll.dataAt
          rw [hdata3]
          exact getD_append_self _ _ _
        rw [hdataAt3] at hfound
        have hnames3 : c3v.uniqueNames = c.uniqueNames := gn'
        have huniq3 : ∃ us, c3v.removeUniques ⟨c.maxId + 1, pd.fields⟩ =
            .ok us := by
          apply removeUniques_ok c3v ⟨c.maxId + 1, pd.fields⟩
            (by rw [hnames3]; exact hund)
          intro key hkey hv1 hv2
          have hkey2 : key ∈ c.uniqueNames := by
            rw [← hnames3]
            exact hkey
          obtain ⟨u, hf, hl⟩ := glook key hkey2 hv1 hv2
          exact ⟨u, hf, hl⟩
        obtain ⟨us, hus⟩ := huniq3
        have hand3 : (c3v.binaryIndices.map Prod.fst).Nodup := by
          show (bis.map Prod.fst).Nodup
          rw [hbnames]
          exact hand2
        have hsp3 : ∀ kv ∈ c3v.binaryIndices,
            c3v.IndexSorted kv.1 ∧ c3v.ValuesPerm kv.1 := by
          intro kv hkv
          have hmem : kv.1 ∈ c2rec.binaryIndices.map Prod.fst := by
            rw [← hbnames]
            exact List.mem_map_of_mem Prod.fst hkv
          exact hsortall kv.1 hmem
        have hadap3 : c3v.adaptiveBinaryIndices = true := ga'
        have hk3 : c.data.length < c3v.data.length := by
          rw [hdata3]
          simp
        have hrem := removeById_spec c3v (c.maxId + 1)
          ⟨c.maxId + 1, pd.fields⟩ c.data.length us
          hadap3 hk3 hand3 hsp3 hfound hus
        have hround : bis.map
            (fun e => (e.1, shiftRemove c.data.length e.2)) =
            c.binaryIndices := by
          have h1 := shiftRemove_insert_roundtrip c.data.length
            (c2rec.binaryIndices.map Prod.fst) c2rec.binaryIndices bis
            hFa hmemlt
          rw [h1, ← gb']
        refine ⟨{ c3v with data := c3v.data.eraseIdx c.data.length, idIndex := c3v.idIndex.eraseIdx c.data.length, binaryIndices := c3v.binaryIndices.map (fun e => (e.1, shiftRemove c.data.length e.2)), uniqueIndices := us }, ?_, ?_, ?_, ?_, ?_⟩
        · show c3v.removeById (c.maxId + 1) = _
          exact hrem
        · show c3v.data.eraseIdx c.data.length = c.data
          rw [hdata3]
          exact eraseIdx_append_length _ _
        · show c3v.idIndex.eraseIdx c.data.length = c.idIndex
          rw [hidx3, ← hlen]
          exact eraseIdx_append_length _ _
        · show c3v.binaryIndices.map
            (fun e => (e.1, shiftRemove c.data.length e.2)) = c.binaryIndices
          show bis.map
            (fun e => (e.1, shiftRemove c.data.length e.2)) = c.binaryIndices
          exact hround
        · show cU.maxId = c.maxId + 1
          exact gm'


/-- Witness for C4: inserting `{v:4}` into the concrete collection and
removing its assigned id 4 restores the original state. -/
theorem C4_insert_remove_roundtrip_witness :
    ∃ c2, ((C3coll.add ⟨none, [("v", JSVal.num 4)]⟩).2).removeById
        ((⟨4, [("v", JSVal.num 4)]⟩ : Doc).loki) =
      some (⟨4, [("v", JSVal.num 4)]⟩, c2) ∧
      c2.data = C3coll.data ∧ c2.idIndex = C3coll.idIndex ∧
      c2.binaryIndices = C3coll.binaryIndices ∧
      c2.maxId = C3coll.maxId + 1 :=
  C4_insert_remove_roundtrip C3coll ⟨none, [("v", JSVal.num 4)]⟩
    ⟨4, [("v", JSVal.num 4)]⟩
    rfl rfl (by decide)
    (by
      intro i j hij hj
      have h3 : j < 3 := by simpa [C3coll] using hj
      have hi3 : i < 3 := by omega
      interval_cases i <;> interval_cases j <;> decide)
    (by
      intro i hi
      have hi3 : i < 3 := by simpa [C3coll] using hi
      interval_cases i <;> decide)
    (by decide)
    (by
      intro kv hkv
      simp [C3coll] at hkv)
    (by decide)
    (by
      intro kv hkv
      have hkv2 : kv = ("v", (⟨[0, 1, 2], false⟩ : BinaryIndex)) := by
        simpa [C3coll] using hkv
      subst hkv2
      constructor
      · intro i hi
        have h2 : i < 2 := by
          have := hi
          simp [C3coll, Coll.getBI] at this
          omega
        interval_cases i <;> decide
      · unfold Coll.ValuesPerm
        show ([0, 1, 2] : List Nat).Perm (List.range C3coll.data.length)
        rw [show C3coll.data.length = 3 from rfl,
          show List.range 3 = [0, 1, 2] from rfl])
    rfl


/-! ## Claim C6: Resultset.data on an empty row set -/

/-- The resultset state of `src/src/core/ResultSet.ts`: the filtered row
positions and the filter-initialized flag (the bound collection is passed
separately). -/
structure RS where
  filteredrows : List Nat
  filterInitialized : Bool
deriving DecidableEq, Repr

/-- Embedding of the value returned by `Resultset.prototype.data()` on a
model-default collection (`cloneObjects` false, `disableDeltaChangesApi`
and `disableFreeze` true, no options), so every path returns references:
an uninitialized filter with no rows returns `data.slice()`, otherwise
the filtered rows are mapped over `data`. -/
def rsData (c : Coll) (rs : RS) : List Doc :=
  if rs.filterInitialized = false then
    if rs.filteredrows.length = 0 then c.data
    else rs.filteredrows.map (fun i => c.data.getD i emptyDoc)
  else rs.filteredrows.map (fun i => c.data.getD i emptyDoc)

/-- Claim C6: with `filterInitialized = false` and empty `filteredrows`,
`data()` returns every document of the bound collection; with
`filterInitialized = true` and empty `filteredrows`, it returns the empty
array. -/
theorem C6_data_empty_rows :
    (∀ (c : Coll) (rs : RS), rs.filterInitialized = false →
      rs.filteredrows = [] → rsData c rs = c.data) ∧
    (∀ (c : Coll) (rs : RS), rs.filterInitialized = true →
      rs.filteredrows = [] → rsData c rs = []) := by
  constructor
  · intro c rs h1 h2
    unfold rsData
    rw [if_pos h1, if_pos (by rw [h2]; rfl)]
  · intro c rs h1 h2
    unfold rsData
    rw [if_neg (by rw [h1]; simp), h2]
    rfl

/-- Witness for C6 on the concrete collection. -/
theorem C6_data_empty_rows_witness :
    rsData C3coll ⟨[], false⟩ = C3coll.data ∧
    rsData C3coll ⟨[], true⟩ = [] :=
  ⟨C6_data_empty_rows.1 C3coll ⟨[], false⟩ rfl rfl,
   C6_data_empty_rows.2 C3coll ⟨[], true⟩ rfl rfl⟩


/-! ## Claim C10: eqJoin and unmatched left rows -/

/-- Complete case analysis of a sorted index against a queried key: an
equal-key block with strictly smaller keys before and strictly larger keys
after, or no equal key and either a first strictly larger position or all
keys strictly smaller. -/
theorem sorted_index_cases (c : Coll) (prop : String) (val : JSVal)
    (hs : c.IndexSorted prop)
    (hlen : (c.getBI prop).values.length ≠ 0) :
    (∃ F L, F ≤ L ∧ L < (c.getBI prop).values.length ∧
      (∀ i, i < F → c.keyAtIdx prop i < keyOf val) ∧
      (∀ i, i < F → c.keyAtIdx prop i ≠ keyOf val) ∧
      (∀ i, F ≤ i → i ≤ L → c.keyAtIdx prop i = keyOf val) ∧
      (∀ i, L < i → i < (c.getBI prop).values.length →
        keyOf val < c.keyAtIdx prop i) ∧
      (∀ i, L < i → i < (c.getBI prop).values.length →
        c.keyAtIdx prop i ≠ keyOf val)) ∨
    ((∀ i, i < (c.getBI prop).values.length →
        c.keyAtIdx prop i ≠ keyOf val) ∧
      ((∃ r, r < (c.getBI prop).values.length ∧
        (∀ i, i < r → c.keyAtIdx prop i < keyOf val) ∧
        (∀ i, r ≤ i → i < (c.getBI prop).values.length →
          keyOf val < c.keyAtIdx prop i)) ∨
       (∀ i, i < (c.getBI prop).values.length →
         c.keyAtIdx prop i < keyOf val))) := by
  by_cases hpres : ∃ i, i < (c.getBI prop).values.length ∧
      eqKeyPred c prop val i
  · left
    obtain ⟨i₀, hi₀, heq₀⟩ := hpres
    have hex : ∃ i, eqKeyPred c prop val i := ⟨i₀, heq₀⟩
    have hFeq : c.keyAtIdx prop (Nat.find hex) = keyOf val :=
      Nat.find_spec hex
    have hFle : Nat.find hex ≤ i₀ := Nat.find_le heq₀
    have hFL : Nat.find hex < (c.getBI prop).values.length := by omega
    obtain ⟨L, hKL, hLle, hiL, hafter⟩ :
        ∃ L, c.keyAtIdx prop L = keyOf val ∧
          L ≤ (c.getBI prop).values.length - 1 ∧ i₀ ≤ L ∧
          (∀ i, L < i → i < (c.getBI prop).values.length →
            c.keyAtIdx prop i ≠ keyOf val) := by
      refine ⟨Nat.findGreatest (eqKeyPred c prop val)
        ((c.getBI prop).values.length - 1), ?_, ?_, ?_, ?_⟩
      · exact Nat.findGreatest_spec
          (show i₀ ≤ (c.getBI prop).values.length - 1 by omega) heq₀
      · exact Nat.findGreatest_le _
      · exact Nat.le_findGreatest
          (show i₀ ≤ (c.getBI prop).values.length - 1 by omega) heq₀
      · intro i hLi hi
        exact show ¬ eqKeyPred c prop val i from
          Nat.findGreatest_is_greatest hLi (by omega)
    have hLlen : L < (c.getBI prop).values.length := by omega
    have hne : ∀ i, i < Nat.find hex → c.keyAtIdx prop i ≠ keyOf val :=
      fun i hi => Nat.find_min hex hi
    refine ⟨Nat.find hex, L, by omega, hLlen, ?_, hne, ?_, ?_, hafter⟩
    · intro i hi
      have hle : c.keyAtIdx prop i ≤ c.keyAtIdx prop (Nat.find hex) :=
        hs.keyMono i (Nat.find hex) (le_of_lt hi) hFL
      rw [hFeq] at hle
      exact lt_of_le_of_ne hle (hne i hi)
    · intro i hFi hiL2
      have h1 : c.keyAtIdx prop (Nat.find hex) ≤ c.keyAtIdx prop i :=
        hs.keyMono (Nat.find hex) i hFi (by omega)
      have h2 : c.keyAtIdx prop i ≤ c.keyAtIdx prop L :=
        hs.keyMono i L hiL2 hLlen
      rw [hFeq] at h1
      rw [hKL] at h2
      exact le_antisymm h2 h1
    · intro i hLi hi
      have hle : c.keyAtIdx prop L ≤ c.keyAtIdx prop i :=
        hs.keyMono L i hLi.le hi
      rw [hKL] at hle
      exact lt_of_le_of_ne hle (Ne.symm (hafter i hLi hi))
  · right
    have hne : ∀ i, i < (c.getBI prop).values.length →
        c.keyAtIdx prop i ≠ keyOf val := by
      intro i hi heq
      exact hpres ⟨i, hi, heq⟩
    refine ⟨hne, ?_⟩
    by_cases hgt : ∃ i, i < (c.getBI prop).values.length ∧
        gtKeyPred c prop val i
    · left
      obtain ⟨i₀, hi₀, hgt₀⟩ := hgt
      have hex : ∃ i, gtKeyPred c prop val i := ⟨i₀, hgt₀⟩
      have hrgt : keyOf val < c.keyAtIdx prop (Nat.find hex) :=
        Nat.find_spec hex
      have hrle : Nat.find hex ≤ i₀ := Nat.find_le hgt₀
      have hrL : Nat.find hex < (c.getBI prop).values.length := by omega
      refine ⟨Nat.find hex, hrL, ?_, ?_⟩
      · intro i hi
        have hnot : ¬ gtKeyPred c prop val i := Nat.find_min hex hi
        rcases lt_trichotomy (c.keyAtIdx prop i) (keyOf val) with h | h | h
        · exact h
        · exact absurd h (hne i (by omega))
        · exact absurd h hnot
      · intro i hri hi
        exact hrgt.trans_le (hs.keyMono (Nat.find hex) i hri hi)
    · right
      intro i hi
      have hng : ¬ gtKeyPred c prop val i := fun h => hgt ⟨i, hi, h⟩
      rcases lt_trichotomy (c.keyAtIdx prop i) (keyOf val) with h | h | h
      · exact h
      · exact absurd h (hne i hi)
      · exact absurd h hng

/-- JavaScript loose equality `==` on the modelled values: `null` and
`undefined` equal each other only, strings compare as strings, everything
else through `Number(...)` coercion with `NaN` unequal to everything. -/
def jsEq (a b : JSVal) : Bool :=
  match a, b with
  | .undef, .undef => true
  | .undef, .null => true
  | .null, .undef => true
  | .null, .null => true
  | .undef, _ => false
  | _, .undef => false
  | .null, _ => false
  | _, .null => false
  | .str s, .str t => s == t
  | a, b =>
      match toNum a, toNum b with
      | some x, some y => x == y
      | _, _ => false

/-- The `LokiOps` comparison functions of `src/src/utils/index.ts` for the
modelled operators: `$eq` is `===`, `$aeq` is raw `==`, `$dteq` is
`Comparators.aeq` and the range operators use the comparator helpers. -/
def opFun : QOp → JSVal → JSVal → Bool
  | .eq => fun a b => strictEq a b
  | .aeq => fun a b => jsEq a b
  | .dteq => fun a b => aeqHelper a b
  | .gt => fun a b => gtHelper a b false
  | .gte => fun a b => gtHelper a b true
  | .lt => fun a b => ltHelper a b false
  | .lte => fun a b => ltHelper a b true

/-- The rows pushed by the index branch of `Resultset.prototype.find`: the
positions of the `calculateRange` segment mapped through the index, with
the second-phase `LokiOps.$eq` filter that `indexedOps` prescribes for
`$eq` (the loop bounds follow the source's integer loop on the
well-formed ranges of a sorted index). -/
def idxHits (c : Coll) (prop : String) (op : QOp) (val : JSVal) :
    List Nat :=
  let segm := c.calculateRange op prop val
  let idxs := List.range' segm.1.toNat (segm.2 + 1 - segm.1).toNat
  if op = .eq then
    (idxs.filter (fun i => strictEq (c.valAtIdx prop i) val)).map
      (fun i => (c.getBI prop).values.getD i 0)
  else idxs.map (fun i => (c.getBI prop).values.getD i 0)

/-- Embedding of `Resultset.prototype.find` for a one-operator query
`\x7bprop: \x7b$op: val\x7d\x7d` on a model-default (adaptive, non-dot-notation)
collection: empty collections short-circuit, an initialized filter is
rescanned linearly with `LokiOps`, an uninitialized filter either uses the
binary index on the property or scans all of `data`. -/
def rsFind (c : Coll) (rs : RS) (prop : String) (op : QOp) (val : JSVal) :
    RS :=
  if c.data.length = 0 then ⟨[], true⟩
  else if rs.filterInitialized = true then
    ⟨rs.filteredrows.filter
      (fun rowIdx => opFun op ((c.dataAt rowIdx).get prop) val), true⟩
  else if (c.binaryIndices.find? (fun kv => kv.1 == prop)).isSome = true
  then ⟨idxHits c prop op val, true⟩
  else
    ⟨(List.range c.data.length).filter
      (fun i => opFun op ((c.dataAt i).get prop) val), true⟩

theorem filter_idem {α : Type} (p : α → Bool) (l : List α) :
    (l.filter p).filter p = l.filter p :=
  List.filter_eq_self.2 (fun a ha => List.of_mem_filter ha)

theorem valAtIdx_getD (c : Coll) (prop : String) (i : Nat)
    (hi : i < (c.getBI prop).values.length) :
    c.valAtIdx prop i =
      (c.dataAt ((c.getBI prop).values.getD i 0)).get prop := by
  unfold Coll.valAtIdx
  have h1 : (c.getBI prop).values.get? i =
      some ((c.getBI prop).values.getD i 0) := by
    rw [List.get?_eq_getElem?, List.getElem?_eq_getElem hi,
      List.getD_eq_getElem?_getD, List.getElem?_eq_getElem hi]
    rfl
  rw [h1]

/-- Decoding the loop positions of the index branch. -/
theorem mem_segm (segm : Int × Int) (h0 : 0 ≤ segm.1) (i : Nat)
    (hi : i ∈ List.range' segm.1.toNat (segm.2 + 1 - segm.1).toNat) :
    segm.1 ≤ (i : Int) ∧ (i : Int) ≤ segm.2 := by
  rw [List.mem_range'_1] at hi
  obtain ⟨h1, h2⟩ := hi
  omega


/-- Soundness of the `$eq`/`$aeq`/`$dteq` index range: every position in
the returned segment is in bounds and its indexed value is
comparator-equivalent to the queried value. -/
theorem range_sound_eqlike (c : Coll) (op : QOp) (prop : String)
    (val : JSVal)
    (hop : op = .eq ∨ op = .aeq ∨ op = .dteq)
    (hs : c.IndexSorted prop)
    (hdata : ¬ c.data.length = 0)
    (hlen : (c.getBI prop).values.length ≠ 0) :
    0 ≤ (c.calculateRange op prop val).1 ∧
    ∀ i : Nat, (c.calculateRange op prop val).1 ≤ (i : Int) →
      (i : Int) ≤ (c.calculateRange op prop val).2 →
      i < (c.getBI prop).values.length ∧
      aeqHelper (c.valAtIdx prop i) val = true := by
  rcases sorted_index_cases c prop val hs hlen with
    ⟨F, L, hFL, hLlen, hbelow, hneF, heq, hafter, hneL⟩ | ⟨hne, hrest⟩
  · have hrange := calculateRange_eqlike_of_present c op prop val F L hop hs
      hdata (by omega) (heq F (le_refl F) hFL) hneF hLlen
      (heq L hFL (le_refl L)) hneL
    rw [hrange]
    refine ⟨by simp, ?_⟩
    intro i h1 h2
    simp only [] at h1 h2
    have hiF : F ≤ i := by exact_mod_cast h1
    have hiL : i ≤ L := by exact_mod_cast h2
    refine ⟨by omega, ?_⟩
    rw [aeqHelper_iff]
    exact heq i hiF hiL
  · have hrange := calculateRange_eqlike_of_hole c op prop val hop hs hdata
      hlen hne
    rw [hrange]
    refine ⟨by simp, ?_⟩
    intro i h1 h2
    simp only [] at h2
    omega

/-- Soundness of the `$gt` index range. -/
theorem range_sound_gt (c : Coll) (prop : String) (val : JSVal)
    (hs : c.IndexSorted prop)
    (hdata : ¬ c.data.length = 0)
    (hlen : (c.getBI prop).values.length ≠ 0) :
    0 ≤ (c.calculateRange .gt prop val).1 ∧
    ∀ i : Nat, (c.calculateRange .gt prop val).1 ≤ (i : Int) →
      (i : Int) ≤ (c.calculateRange .gt prop val).2 →
      i < (c.getBI prop).values.length ∧
      gtHelper (c.valAtIdx prop i) val false = true := by
  have hmaxval : c.valAtI prop (((c.getBI prop).values.length : Int) - 1) =
      c.valAtIdx prop ((c.getBI prop).values.length - 1) := by
    have hc : ((c.getBI prop).values.length : Int) - 1 =
        (((c.getBI prop).values.length - 1 : Nat) : Int) := by omega
    rw [hc, valAtI_ofNat]
  by_cases hout1 : gtHelper val
      (c.valAtIdx prop ((c.getBI prop).values.length - 1)) true = true
  · have hrange : c.calculateRange .gt prop val = (0, -1) := by
      unfold Coll.calculateRange
      rw [if_neg hdata]
      simp only []
      rw [hmaxval, if_pos hout1]
    rw [hrange]
    refine ⟨by simp, ?_⟩
    intro i h1 h2
    simp only [] at h2
    omega
  · by_cases hout2 : gtHelper (c.valAtIdx prop 0) val false = true
    · have hrange : c.calculateRange .gt prop val =
          (0, ((c.getBI prop).values.length : Int) - 1) := by
        unfold Coll.calculateRange
        rw [if_neg hdata]
        simp only []
        rw [hmaxval, if_neg hout1, if_pos hout2]
      rw [hrange]
      refine ⟨by simp, ?_⟩
      intro i h1 h2
      simp only [] at h2
      have hilen : i < (c.getBI prop).values.length := by omega
      refine ⟨hilen, ?_⟩
      rw [gtHelper_false_iff]
      have h0 : keyOf val < c.keyAtIdx prop 0 :=
        (gtHelper_false_iff _ _).1 hout2
      exact h0.trans_le (hs.keyMono 0 i (Nat.zero_le i) hilen)
    · have hle0 : c.keyAtIdx prop 0 ≤ keyOf val := by
        by_contra hcon
        push_neg at hcon
        exact hout2 ((gtHelper_false_iff _ _).2 hcon)
      have hltmax : keyOf val <
          c.keyAtIdx prop ((c.getBI prop).values.length - 1) := by
        by_contra hcon
        push_neg at hcon
        exact hout1 ((gtHelper_true_iff _ _).2 hcon)
      rcases sorted_index_cases c prop val hs hlen with
        ⟨F, L, hFL, hLlen, hbelow, hneF, heq, hafter, hneL⟩ | ⟨hne, hrest⟩
      · -- present: range end is L, result (L+1, mx)
        have hub := rangeEnd_of_present c prop val L hs hLlen
          (heq L hFL (le_refl L)) hafter
        have haeqL : aeqHelper (c.valAtI prop ((L : Nat) : Int)) val =
            true := by
          rw [valAtI_ofNat]
          exact (aeqHelper_iff _ _).2 (heq L hFL (le_refl L))
        have hrange : c.calculateRange .gt prop val =
            ((L : Int) + 1, ((c.getBI prop).values.length : Int) - 1) := by
          unfold Coll.calculateRange
          rw [if_neg hdata]
          simp only []
          rw [hmaxval, if_neg hout1, if_neg hout2, hub, haeqL]
          simp
        rw [hrange]
        refine ⟨by simp; omega, ?_⟩
        intro i h1 h2
        simp only [] at h1 h2
        have hiL : L < i := by omega
        have hilen : i < (c.getBI prop).values.length := by omega
        refine ⟨hilen, ?_⟩
        rw [gtHelper_false_iff]
        exact hafter i hiL hilen
      · rcases hrest with ⟨r, hrlen, hbelow, habove⟩ | hall
        · -- hole with first greater r; r is positive
          have hrpos : 0 < r := by
            rcases Nat.eq_zero_or_pos r with h0 | h0
            · exfalso
              have := habove 0 (by omega) (by omega)
              exact absurd this (not_lt.2 hle0)
            · exact h0
          have hub := rangeEnd_of_hole_mid c prop val r hs hrlen hrpos
            hbelow (habove r (le_refl r) hrlen)
          have haeqr : aeqHelper (c.valAtI prop ((r : Nat) : Int)) val =
              false := by
            rw [valAtI_ofNat]
            refine Bool.eq_false_iff.2 (fun hc => ?_)
            exact absurd ((aeqHelper_iff _ _).1 hc)
              (ne_of_gt (habove r (le_refl r) hrlen))
          have hrange : c.calculateRange .gt prop val =
              ((r : Int), ((c.getBI prop).values.length : Int) - 1) := by
            unfold Coll.calculateRange
            rw [if_neg hdata]
            simp only []
            rw [hmaxval, if_neg hout1, if_neg hout2, hub, haeqr]
            simp
          rw [hrange]
          refine ⟨by simp, ?_⟩
          intro i h1 h2
          simp only [] at h1 h2
          have hri : r ≤ i := by exact_mod_cast h1
          have hilen : i < (c.getBI prop).values.length := by omega
          refine ⟨hilen, ?_⟩
          rw [gtHelper_false_iff]
          exact habove i hri hilen
        · exfalso
          exact absurd (hall _ (by omega)) (not_lt.2 hltmax.le)


/-- Soundness of the `$gte` index range. -/
theorem range_sound_gte (c : Coll) (prop : String) (val : JSVal)
    (hs : c.IndexSorted prop)
    (hdata : ¬ c.data.length = 0)
    (hlen : (c.getBI prop).values.length ≠ 0) :
    0 ≤ (c.calculateRange .gte prop val).1 ∧
    ∀ i : Nat, (c.calculateRange .gte prop val).1 ≤ (i : Int) →
      (i : Int) ≤ (c.calculateRange .gte prop val).2 →
      i < (c.getBI prop).values.length ∧
      gtHelper (c.valAtIdx prop i) val true = true := by
  have hmaxval : c.valAtI prop (((c.getBI prop).values.length : Int) - 1) =
      c.valAtIdx prop ((c.getBI prop).values.length - 1) := by
    have hc : ((c.getBI prop).values.length : Int) - 1 =
        (((c.getBI prop).values.length - 1 : Nat) : Int) := by omega
    rw [hc, valAtI_ofNat]
  by_cases hout1 : gtHelper val
      (c.valAtIdx prop ((c.getBI prop).values.length - 1)) false = true
  · have hrange : c.calculateRange .gte prop val = (0, -1) := by
      unfold Coll.calculateRange
      rw [if_neg hdata]
      simp only []
      rw [hmaxval, if_pos hout1]
    rw [hrange]
    refine ⟨by simp, ?_⟩
    intro i h1 h2
    simp only [] at h2
    omega
  · by_cases hout2 : gtHelper (c.valAtIdx prop 0) val true = true
    · have hrange : c.calculateRange .gte prop val =
          (0, ((c.getBI prop).values.length : Int) - 1) := by
        unfold Coll.calculateRange
        rw [if_neg hdata]
        simp only []
        rw [hmaxval, if_neg hout1, if_pos hout2]
      rw [hrange]
      refine ⟨by simp, ?_⟩
      intro i h1 h2
      simp only [] at h2
      have hilen : i < (c.getBI prop).values.length := by omega
      refine ⟨hilen, ?_⟩
      rw [gtHelper_true_iff]
      have h0 : keyOf val ≤ c.keyAtIdx prop 0 :=
        (gtHelper_true_iff _ _).1 hout2
      exact h0.trans (hs.keyMono 0 i (Nat.zero_le i) hilen)
    · have hlt0 : c.keyAtIdx prop 0 < keyOf val := by
        by_contra hcon
        push_neg at hcon
        exact hout2 ((gtHelper_true_iff _ _).2 hcon)
      have hlemax : keyOf val ≤
          c.keyAtIdx prop ((c.getBI prop).values.length - 1) := by
        by_contra hcon
        push_neg at hcon
        exact hout1 ((gtHelper_false_iff _ _).2 hcon)
      rcases sorted_index_cases c prop val hs hlen with
        ⟨F, L, hFL, hLlen, hbelow, hneF, heq, hafter, hneL⟩ | ⟨hne, hrest⟩
      · -- present: range start (query mode) is F, result (F, mx)
        have hlb := rangeStart_of_present c prop val false F hs (by omega)
          (heq F (le_refl F) (by omega)) hneF
        have haeqF : aeqHelper (c.valAtI prop ((F : Nat) : Int)) val =
            true := by
          rw [valAtI_ofNat]
          exact (aeqHelper_iff _ _).2 (heq F (le_refl F) hFL)
        have hrange : c.calculateRange .gte prop val =
            ((F : Int), ((c.getBI prop).values.length : Int) - 1) := by
          unfold Coll.calculateRange
          rw [if_neg hdata]
          simp only []
          rw [hmaxval, if_neg hout1, if_neg hout2, hlb, haeqF]
          simp
        rw [hrange]
        refine ⟨by simp, ?_⟩
        intro i h1 h2
        simp only [] at h1 h2
        have hiF : F ≤ i := by exact_mod_cast h1
        have hilen : i < (c.getBI prop).values.length := by omega
        refine ⟨hilen, ?_⟩
        rw [gtHelper_true_iff]
        by_cases hiL : i ≤ L
        · exact le_of_eq (heq i hiF hiL).symm
        · exact (hafter i (by omega) hilen).le
      · rcases hrest with ⟨r, hrlen, hbelow, habove⟩ | hall
        · have hrpos : 0 < r := by
            rcases Nat.eq_zero_or_pos r with h0 | h0
            · exfalso
              have := habove 0 (by omega) (by omega)
              exact absurd this (not_lt.2 hlt0.le)
            · exact h0
          have hlb := rangeStart_of_hole_mid c prop val false r hs hrlen
            (habove r (le_refl r) hrlen) hbelow
          simp only [Bool.false_eq_true, if_false] at hlb
          have hcast : ((r : Nat) : Int) - 1 = (((r - 1 : Nat)) : Int) := by
            omega
          have haeqr : aeqHelper (c.valAtI prop ((r : Int) - 1)) val =
              false := by
            rw [hcast, valAtI_ofNat]
            refine Bool.eq_false_iff.2 (fun hc => ?_)
            exact absurd ((aeqHelper_iff _ _).1 hc)
              (ne_of_lt (hbelow (r - 1) (by omega)))
          have hrange : c.calculateRange .gte prop val =
              ((r : Int) - 1 + 1,
                ((c.getBI prop).values.length : Int) - 1) := by
            unfold Coll.calculateRange
            rw [if_neg hdata]
            simp only []
            rw [hmaxval, if_neg hout1, if_neg hout2, hlb, haeqr]
            simp
          rw [hrange]
          refine ⟨by simp, ?_⟩
          intro i h1 h2
          simp only [] at h1 h2
          have hri : r ≤ i := by omega
          have hilen : i < (c.getBI prop).values.length := by omega
          refine ⟨hilen, ?_⟩
          rw [gtHelper_true_iff]
          exact (habove i hri hilen).le
        · exfalso
          exact absurd (hall _ (by omega)) (not_lt.2 hlemax)

/-- Soundness of the `$lt` index range. -/
theorem range_sound_lt (c : Coll) (prop : String) (val : JSVal)
    (hs : c.IndexSorted prop)
    (hdata : ¬ c.data.length = 0)
    (hlen : (c.getBI prop).values.length ≠ 0) :
    0 ≤ (c.calculateRange .lt prop val).1 ∧
    ∀ i : Nat, (c.calculateRange .lt prop val).1 ≤ (i : Int) →
      (i : Int) ≤ (c.calculateRange .lt prop val).2 →
      i < (c.getBI prop).values.length ∧
      ltHelper (c.valAtIdx prop i) val false = true := by
  have hmaxval : c.valAtI prop (((c.getBI prop).values.length : Int) - 1) =
      c.valAtIdx prop ((c.getBI prop).values.length - 1) := by
    have hc : ((c.getBI prop).values.length : Int) - 1 =
        (((c.getBI prop).values.length - 1 : Nat) : Int) := by omega
    rw [hc, valAtI_ofNat]
  by_cases hout1 : ltHelper val (c.valAtIdx prop 0) true = true
  · have hrange : c.calculateRange .lt prop val = (0, -1) := by
      unfold Coll.calculateRange
      rw [if_neg hdata]
      simp only []
      rw [if_pos hout1]
    rw [hrange]
    refine ⟨by simp, ?_⟩
    intro i h1 h2
    simp only [] at h2
    omega
  · by_cases hout2 : ltHelper
        (c.valAtIdx prop ((c.getBI prop).values.length - 1)) val false =
        true
    · have hrange : c.calculateRange .lt prop val =
          (0, ((c.getBI prop).values.length : Int) - 1) := by
        unfold Coll.calculateRange
        rw [if_neg hdata]
        simp only []
        rw [hmaxval, if_neg hout1, if_pos hout2]
      rw [hrange]
      refine ⟨by simp, ?_⟩
      intro i h1 h2
      simp only [] at h2
      have hilen : i < (c.getBI prop).values.length := by omega
      refine ⟨hilen, ?_⟩
      rw [ltHelper_false_iff]
      have hm : c.keyAtIdx prop ((c.getBI prop).values.length - 1) <
          keyOf val := (ltHelper_false_iff _ _).1 hout2
      exact lt_of_le_of_lt
        (hs.keyMono i ((c.getBI prop).values.length - 1) (by omega)
          (by omega)) hm
    · have hlt0 : c.keyAtIdx prop 0 < keyOf val := by
        by_contra hcon
        push_neg at hcon
        exact hout1 ((ltHelper_true_iff _ _).2 hcon)
      have hlemax : keyOf val ≤
          c.keyAtIdx prop ((c.getBI prop).values.length - 1) := by
        by_contra hcon
        push_neg at hcon
        exact hout2 ((ltHelper_false_iff _ _).2 hcon)
      rcases sorted_index_cases c prop val hs hlen with
        ⟨F, L, hFL, hLlen, hbelow, hneF, heq, hafter, hneL⟩ | ⟨hne, hrest⟩
      · have hlb := rangeStart_of_present c prop val false F hs (by omega)
          (heq F (le_refl F) (by omega)) hneF
        have haeqF : aeqHelper (c.valAtI prop ((F : Nat) : Int)) val =
            true := by
          rw [valAtI_ofNat]
          exact (aeqHelper_iff _ _).2 (heq F (le_refl F) hFL)
        have hrange : c.calculateRange .lt prop val =
            (0, (F : Int) - 1) := by
          unfold Coll.calculateRange
          rw [if_neg hdata]
          simp only []
          rw [hmaxval, if_neg hout1, if_neg hout2, hlb, haeqF]
          simp
        rw [hrange]
        refine ⟨by simp, ?_⟩
        intro i h1 h2
        simp only [] at h1 h2
        have hiF : i < F := by omega
        refine ⟨by omega, ?_⟩
        rw [ltHelper_false_iff]
        exact hbelow i hiF
      · rcases hrest with ⟨r, hrlen, hbelow, habove⟩ | hall
        · have hrpos : 0 < r := by
            rcases Nat.eq_zero_or_pos r with h0 | h0
            · exfalso
              have := habove 0 (by omega) (by omega)
              exact absurd this (not_lt.2 hlt0.le)
            · exact h0
          have hlb := rangeStart_of_hole_mid c prop val false r hs hrlen
            (habove r (le_refl r) hrlen) hbelow
          simp only [Bool.false_eq_true, if_false] at hlb
          have hcast : ((r : Nat) : Int) - 1 = (((r - 1 : Nat)) : Int) := by
            omega
          have haeqr : aeqHelper (c.valAtI prop ((r : Int) - 1)) val =
              false := by
            rw [hcast, valAtI_ofNat]
            refine Bool.eq_false_iff.2 (fun hc => ?_)
            exact absurd ((aeqHelper_iff _ _).1 hc)
              (ne_of_lt (hbelow (r - 1) (by omega)))
          have hrange : c.calculateRange .lt prop val =
              (0, (r : Int) - 1) := by
            unfold Coll.calculateRange
            rw [if_neg hdata]
            simp only []
            rw [hmaxval, if_neg hout1, if_neg hout2, hlb, haeqr]
            simp
          rw [hrange]
          refine ⟨by simp, ?_⟩
          intro i h1 h2
          simp only [] at h1 h2
          have hir : i < r := by omega
          refine ⟨by omega, ?_⟩
          rw [ltHelper_false_iff]
          exact hbelow i hir
        · exfalso
          exact absurd (hall _ (by omega)) (not_lt.2 hlemax)

/-- Soundness of the `$lte` index range. -/
theorem range_sound_lte (c : Coll) (prop : String) (val : JSVal)
    (hs : c.IndexSorted prop)
    (hdata : ¬ c.data.length = 0)
    (hlen : (c.getBI prop).values.length ≠ 0) :
    0 ≤ (c.calculateRange .lte prop val).1 ∧
    ∀ i : Nat, (c.calculateRange .lte prop val).1 ≤ (i : Int) →
      (i : Int) ≤ (c.calculateRange .lte prop val).2 →
      i < (c.getBI prop).values.length ∧
      ltHelper (c.valAtIdx prop i) val true = true := by
  have hmaxval : c.valAtI prop (((c.getBI prop).values.length : Int) - 1) =
      c.valAtIdx prop ((c.getBI prop).values.length - 1) := by
    have hc : ((c.getBI prop).values.length : Int) - 1 =
        (((c.getBI prop).values.length - 1 : Nat) : Int) := by omega
    rw [hc, valAtI_ofNat]
  by_cases hout1 : ltHelper val (c.valAtIdx prop 0) false = true
  · have hrange : c.calculateRange .lte prop val = (0, -1) := by
      unfold Coll.calculateRange
      rw [if_neg hdata]
      simp only []
      rw [if_pos hout1]
    rw [hrange]
    refine ⟨by simp, ?_⟩
    intro i h1 h2
    simp only [] at h2
    omega
  · by_cases hout2 : ltHelper
        (c.valAtIdx prop ((c.getBI prop).values.length - 1)) val true =
        true
    · have hrange : c.calculateRange .lte prop val =
          (0, ((c.getBI prop).values.length : Int) - 1) := by
        unfold Coll.calculateRange
        rw [if_neg hdata]
        simp only []
        rw [hmaxval, if_neg hout1, if_pos hout2]
      rw [hrange]
      refine ⟨by simp, ?_⟩
      intro i h1 h2
      simp only [] at h2
      have hilen : i < (c.getBI prop).values.length := by omega
      refine ⟨hilen, ?_⟩
      rw [ltHelper_true_iff]
      have hm : c.keyAtIdx prop ((c.getBI prop).values.length - 1) ≤
          keyOf val := (ltHelper_true_iff _ _).1 hout2
      exact le_trans
        (hs.keyMono i ((c.getBI prop).values.length - 1) (by omega)
          (by omega)) hm
    · have hle0 : c.keyAtIdx prop 0 ≤ keyOf val := by
        by_contra hcon
        push_neg at hcon
        exact hout1 ((ltHelper_false_iff _ _).2 hcon)
      have hltmax : keyOf val <
          c.keyAtIdx prop ((c.getBI prop).values.length - 1) := by
        by_contra hcon
        push_neg at hcon
        exact hout2 ((ltHelper_true_iff _ _).2 hcon)
      rcases sorted_index_cases c prop val hs hlen with
        ⟨F, L, hFL, hLlen, hbelow, hneF, heq, hafter, hneL⟩ | ⟨hne, hrest⟩
      · have hub := rangeEnd_of_present c prop val L hs hLlen
          (heq L hFL (le_refl L)) hafter
        have haeqL : aeqHelper (c.valAtI prop ((L : Nat) : Int)) val =
            true := by
          rw [valAtI_ofNat]
          exact (aeqHelper_iff _ _).2 (heq L hFL (le_refl L))
        have hrange : c.calculateRange .lte prop val =
            (0, (L : Int)) := by
          unfold Coll.calculateRange
          rw [if_neg hdata]
          simp only []
          rw [hmaxval, if_neg hout1, if_neg hout2, hub, haeqL]
          simp
        rw [hrange]
        refine ⟨by simp, ?_⟩
        intro i h1 h2
        simp only [] at h1 h2
        have hiL : i ≤ L := by exact_mod_cast h2
        refine ⟨by omega, ?_⟩
        rw [ltHelper_true_iff]
        by_cases hiF : F ≤ i
        · exact le_of_eq (heq i hiF hiL)
        · exact (hbelow i (by omega)).le
      · rcases hrest with ⟨r, hrlen, hbelow, habove⟩ | hall
        · have hrpos : 0 < r := by
            rcases Nat.eq_zero_or_pos r with h0 | h0
            · exfalso
              have := habove 0 (by omega) (by omega)
              exact absurd this (not_lt.2 hle0)
            · exact h0
          have hub := rangeEnd_of_hole_mid c prop val r hs hrlen hrpos
            hbelow (habove r (le_refl r) hrlen)
          have haeqr : aeqHelper (c.valAtI prop ((r : Nat) : Int)) val =
              false := by
            rw [valAtI_ofNat]
            refine Bool.eq_false_iff.2 (fun hc => ?_)
            exact absurd ((aeqHelper_iff _ _).1 hc)
              (ne_of_gt (habove r (le_refl r) hrlen))
          have hrange : c.calculateRange .lte prop val =
              (0, (r : Int) - 1) := by
            unfold Coll.calculateRange
            rw [if_neg hdata]
            simp only []
            rw [hmaxval, if_neg hout1, if_neg hout2, hub, haeqr]
            simp
          rw [hrange]
          refine ⟨by simp, ?_⟩
          intro i h1 h2
          simp only [] at h1 h2
          have hir : i < r := by omega
          refine ⟨by omega, ?_⟩
          rw [ltHelper_true_iff]
          exact (hbelow i hir).le
        · exfalso
          exact absurd (hall _ (by omega)) (not_lt.2 hltmax.le)


/-- Every row pushed by the index branch of `find` satisfies the
operator's `LokiOps` predicate, for every modelled operator except
`$aeq`. -/
theorem idxHits_sound (c : Coll) (prop : String) (op : QOp) (val : JSVal)
    (hop : op ≠ .aeq)
    (hs : c.IndexSorted prop) (hperm : c.ValuesPerm prop)
    (hd : ¬ c.data.length = 0) :
    ∀ rowIdx ∈ idxHits c prop op val,
      opFun op ((c.dataAt rowIdx).get prop) val = true := by
  have hlen : (c.getBI prop).values.length ≠ 0 := by
    rw [hperm.values_length]
    exact hd
  intro rowIdx hmem
  cases op with
  | aeq => exact absurd rfl hop
  | eq =>
      unfold idxHits at hmem
      rw [if_pos rfl] at hmem
      obtain ⟨i, hi, hrow⟩ := List.mem_map.1 hmem
      have hstrict := List.of_mem_filter hi
      have hmemr := List.mem_of_mem_filter hi
      obtain ⟨h0, hsound⟩ :=
        range_sound_eqlike c .eq prop val (Or.inl rfl) hs hd hlen
      obtain ⟨h1, h2⟩ := mem_segm _ h0 i hmemr
      obtain ⟨hilen, _⟩ := hsound i h1 h2
      rw [← hrow, ← valAtIdx_getD c prop i hilen]
      exact hstrict
  | dteq =>
      unfold idxHits at hmem
      rw [if_neg (by decide)] at hmem
      obtain ⟨i, hi, hrow⟩ := List.mem_map.1 hmem
      obtain ⟨h0, hsound⟩ :=
        range_sound_eqlike c .dteq prop val (Or.inr (Or.inr rfl)) hs hd hlen
      obtain ⟨h1, h2⟩ := mem_segm _ h0 i hi
      obtain ⟨hilen, haeq⟩ := hsound i h1 h2
      rw [← hrow, ← valAtIdx_getD c prop i hilen]
      exact haeq
  | gt =>
      unfold idxHits at hmem
      rw [if_neg (by decide)] at hmem
      obtain ⟨i, hi, hrow⟩ := List.mem_map.1 hmem
      obtain ⟨h0, hsound⟩ := range_sound_gt c prop val hs hd hlen
      obtain ⟨h1, h2⟩ := mem_segm _ h0 i hi
      obtain ⟨hilen, hgt⟩ := hsound i h1 h2
      rw [← hrow, ← valAtIdx_getD c prop i hilen]
      exact hgt
  | gte =>
      unfold idxHits at hmem
      rw [if_neg (by decide)] at hmem
      obtain ⟨i, hi, hrow⟩ := List.mem_map.1 hmem
      obtain ⟨h0, hsound⟩ := range_sound_gte c prop val hs hd hlen
      obtain ⟨h1, h2⟩ := mem_segm _ h0 i hi
      obtain ⟨hilen, hgt⟩ := hsound i h1 h2
      rw [← hrow, ← valAtIdx_getD c prop i hilen]
      exact hgt
  | lt =>
      unfold idxHits at hmem
      rw [if_neg (by decide)] at hmem
      obtain ⟨i, hi, hrow⟩ := List.mem_map.1 hmem
      obtain ⟨h0, hsound⟩ := range_sound_lt c prop val hs hd hlen
      obtain ⟨h1, h2⟩ := mem_segm _ h0 i hi
      obtain ⟨hilen, hlt⟩ := hsound i h1 h2
      rw [← hrow, ← valAtIdx_getD c prop i hilen]
      exact hlt
  | lte =>
      unfold idxHits at hmem
      rw [if_neg (by decide)] at hmem
      obtain ⟨i, hi, hrow⟩ := List.mem_map.1 hmem
      obtain ⟨h0, hsound⟩ := range_sound_lte c prop val hs hd hlen
      obtain ⟨h1, h2⟩ := mem_segm _ h0 i hi
      obtain ⟨hilen, hlt⟩ := hsound i h1 h2
      rw [← hrow, ← valAtIdx_getD c prop i hilen]
      exact hlt

/-- Claim C7 (amended): `find(q).find(q)` equals `find(q)` for every
modelled operator and collection when the first pass is linear (no binary
index on the property) or the filter is already initialized; when the
first pass is served from a binary index, the index must be a sorted
permutation and the operator must not be `$aeq` (there the index uses
`aeqHelper` while the rescan uses raw JavaScript `==`): an initialized
filter is rescanned idempotently, a linear first pass filters
idempotently, and the index first pass only pushes rows that the
`LokiOps` rescan keeps. -/
theorem C7_find_idempotent :
    ∀ (c : Coll) (rs : RS) (prop : String) (op : QOp) (val : JSVal),
      (rs.filterInitialized = false →
        (c.binaryIndices.find? (fun kv => kv.1 == prop)).isSome = true →
        c.IndexSorted prop ∧ c.ValuesPerm prop ∧ op ≠ .aeq) →
      rsFind c (rsFind c rs prop op val) prop op val =
        rsFind c rs prop op val := by
  intro c rs prop op val hyp
  by_cases hd : c.data.length = 0
  · simp [rsFind, hd]
  · by_cases hinit : rs.filterInitialized = true
    · have h1 : rsFind c rs prop op val =
          ⟨rs.filteredrows.filter
            (fun rowIdx => opFun op ((c.dataAt rowIdx).get prop) val),
            true⟩ := by
        unfold rsFind
        rw [if_neg hd, if_pos hinit]
      rw [h1]
      unfold rsFind
      rw [if_neg hd, if_pos rfl]
      congr 1
      exact filter_idem _ _
    · have hinit' : rs.filterInitialized = false := by
        cases hrs : rs.filterInitialized
        · rfl
        · exact absurd hrs hinit
      by_cases hidx : (c.binaryIndices.find?
          (fun kv => kv.1 == prop)).isSome = true
      · obtain ⟨hs, hperm, hop⟩ := hyp hinit' hidx
        have h1 : rsFind c rs prop op val =
            ⟨idxHits c prop op val, true⟩ := by
          unfold rsFind
          rw [if_neg hd, if_neg (by rw [hinit']; simp), if_pos hidx]
        rw [h1]
        unfold rsFind
        rw [if_neg hd, if_pos rfl]
        congr 1
        exact List.filter_eq_self.2
          (fun r hr => idxHits_sound c prop op val hop hs hperm hd r hr)
      · have h1 : rsFind c rs prop op val =
            ⟨(List.range c.data.length).filter
              (fun i => opFun op ((c.dataAt i).get prop) val), true⟩ := by
          unfold rsFind
          rw [if_neg hd, if_neg (by rw [hinit']; simp), if_neg hidx]
        rw [h1]
        unfold rsFind
        rw [if_neg hd, if_pos rfl]
        congr 1
        exact filter_idem _ _


/-- A one-document collection whose indexed property holds `NaN`. -/
def C7coll : Coll :=
  { data := [⟨1, [("p", JSVal.nan)]⟩],
    idIndex := [1],
    binaryIndices := [("p", ⟨[0], false⟩)],
    uniqueNames := [],
    uniqueIndices := [],
    maxId := 1,
    adaptiveBinaryIndices := true }

/-- Claim C7, counterexample: a `\x7b p: \x7b $aeq: NaN \x7d \x7d` query served
from the binary index matches the `NaN` document (`aeqHelper(NaN, NaN)` is
true), but the chained linear rescan uses raw `==`, under which `NaN`
equals nothing, so `find(q).find(q)` is empty while `find(q)` is not. -/
theorem C7_counterexample :
    (rsFind C7coll ⟨[], false⟩ "p" .aeq .nan).filteredrows = [0] ∧
    (rsFind C7coll (rsFind C7coll ⟨[], false⟩ "p" .aeq .nan) "p" .aeq
      .nan).filteredrows = [] := by
  have h1 : rsFind C7coll ⟨[], false⟩ "p" .aeq .nan = ⟨[0], true⟩ := by
    simp [rsFind, idxHits, C7coll, Coll.calculateRange,
      Coll.calculateRangeStart, Coll.calculateRangeEnd, bsearch,
      Coll.getBI, Coll.valAtIdx, Coll.valAtI, Coll.dataAt, Doc.get]
    decide
  refine ⟨by rw [h1], ?_⟩
  rw [h1]
  decide

/-- Witness for the amended C7 on the concrete collection: an indexed
`$gt` query chained twice. -/
theorem C7_find_idempotent_witness :
    rsFind C3coll (rsFind C3coll ⟨[], false⟩ "v" .gt (JSVal.num 2)) "v"
      .gt (JSVal.num 2) =
      rsFind C3coll ⟨[], false⟩ "v" .gt (JSVal.num 2) :=
  C7_find_idempotent C3coll ⟨[], false⟩ "v" .gt (JSVal.num 2)
    (fun _ _ => ⟨(by
      intro i hi
      have h2 : i < 2 := by
        have := hi
        simp [C3coll, Coll.getBI] at this
        omega
      interval_cases i <;> decide),
    (by
      unfold Coll.ValuesPerm
      show ([0, 1, 2] : List Nat).Perm (List.range C3coll.data.length)
      rw [show C3coll.data.length = 3 from rfl,
        show List.range 3 = [0, 1, 2] from rfl]),
    (by intro h; exact QOp.noConfusion h)⟩)


end LokiTs
